import Mathlib

/-!
# Verification of the confidential-data gateway (ethos.privacy)

Shallow embedding of the privacy gateway of this repository: the
tokenizer/substitutor of `PrivacyDataSecurity.protect`
(`privacy_data_security.py`), the token engine (`token_engine.py`), the
vault with backend, audit log, access control and alert engine
(`vault.py`, `memory_backend.py`, `audit_log.py`, `access_control.py`,
`alert_engine.py`), the token resolver (`token_resolver.py`,
`pattern_matcher.py`), the session-id construction, and the
credit-card branch of the pattern engine (`pattern_engine.py`,
`patterns/financial.py`).

Strings are modelled as `List Char`; machine randomness (uuid hex,
token hex) is passed in as explicit supplies; wall-clock time is an
explicit `Nat` parameter; AES-GCM ciphertexts are modelled as the pair
(plaintext, session id of the derivation key), which is faithful for
every property proved here because the vault always decrypts an entry
with the key derived from the entry's own `session_id`.
-/

namespace PrivacyDS

/-- Character strings, modelled as lists of characters (Python `str`). -/
abbrev Str := List Char

/-! ## `str.replace` (used by `_substitute` and `TokenResolver._resolve_text`)

Python `s.replace(pat, rep)` replaces every non-overlapping occurrence
of `pat` scanning left to right, never rescanning the inserted
replacement.  `replaceAllGo` is the fuel-indexed structural version
(any fuel ≥ length of the string computes the function); `replaceAll`
instantiates the fuel.  Every pattern substituted by the gateway is a
nonempty detected value or a token, so Python's empty-pattern corner
case never arises; the definition guards on `pat ≠ []` and leaves the
string unchanged for an empty pattern. -/

def replaceAllGo (pat rep : Str) : Nat → Str → Str
  | _, [] => []
  | 0, s => s
  | fuel+1, c :: rest =>
    if pat ≠ [] ∧ pat.isPrefixOf (c :: rest) then
      rep ++ replaceAllGo pat rep fuel (rest.drop (pat.length - 1))
    else
      c :: replaceAllGo pat rep fuel rest

/-- Python `s.replace(pat, rep)` (all occurrences). -/
def replaceAll (pat rep s : Str) : Str := replaceAllGo pat rep s.length s

theorem replaceAllGo_fuel (pat rep : Str) :
    ∀ (fuel : Nat) (s : Str), s.length ≤ fuel → ∀ fuel', s.length ≤ fuel' →
      replaceAllGo pat rep fuel s = replaceAllGo pat rep fuel' s := by
  intro fuel
  induction fuel with
  | zero =>
    intro s hs fuel' _
    have : s = [] := by
      cases s with
      | nil => rfl
      | cons c r => simp at hs
    subst this
    cases fuel' <;> rfl
  | succ n ih =>
    intro s hs fuel' hs'
    cases s with
    | nil => cases fuel' <;> rfl
    | cons c rest =>
      cases fuel' with
      | zero => simp at hs'
      | succ m =>
        simp only [replaceAllGo]
        by_cases h : pat ≠ [] ∧ pat.isPrefixOf (c :: rest)
        · simp only [if_pos h]
          have hlen : (rest.drop (pat.length - 1)).length ≤ n := by
            have : (rest.drop (pat.length - 1)).length ≤ rest.length :=
              by simpa using List.length_drop_le (pat.length - 1) rest
            have : rest.length ≤ n := by simpa using hs
            omega
          have hlen' : (rest.drop (pat.length - 1)).length ≤ m := by
            have h1 : (rest.drop (pat.length - 1)).length ≤ rest.length :=
              by simpa using List.length_drop_le (pat.length - 1) rest
            have h2 : rest.length ≤ m := by simpa using hs'
            omega
          rw [ih _ hlen m hlen']
        · simp only [if_neg h]
          have h1 : rest.length ≤ n := by simpa using hs
          have h2 : rest.length ≤ m := by simpa using hs'
          rw [ih _ h1 m h2]

theorem replaceAll_nil (pat rep : Str) : replaceAll pat rep [] = [] := rfl

/-- Unfolding equation: a match at the head is replaced and scanning
continues after it. -/
theorem replaceAll_cons_pos {pat : Str} (rep : Str) {c : Char} {rest : Str}
    (hne : pat ≠ []) (hpre : pat <+: (c :: rest)) :
    replaceAll pat rep (c :: rest) =
      rep ++ replaceAll pat rep ((c :: rest).drop pat.length) := by
  have hb : pat.isPrefixOf (c :: rest) := List.isPrefixOf_iff_prefix.mpr hpre
  obtain ⟨k, hk⟩ : ∃ k, pat.length = k + 1 := by
    cases hp : pat with
    | nil => exact absurd hp hne
    | cons a t => exact ⟨t.length, by simp [hp]⟩
  have hdrop : (c :: rest).drop pat.length = rest.drop (pat.length - 1) := by
    rw [hk]; simp
  unfold replaceAll
  conv_lhs => rw [show (c :: rest).length = rest.length + 1 from by simp,
    replaceAllGo]
  rw [if_pos ⟨hne, hb⟩, hdrop]
  congr 1
  exact replaceAllGo_fuel pat rep rest.length _
    (by simpa using List.length_drop_le (pat.length - 1) rest) _ (le_refl _)

/-- Unfolding equation: no match at the head, the character is kept. -/
theorem replaceAll_cons_neg {pat : Str} (rep : Str) {c : Char} {rest : Str}
    (h : ¬ (pat ≠ [] ∧ pat <+: (c :: rest))) :
    replaceAll pat rep (c :: rest) = c :: replaceAll pat rep rest := by
  have h' : ¬ (pat ≠ [] ∧ pat.isPrefixOf (c :: rest)) := by
    intro ⟨h1, h2⟩
    exact h ⟨h1, List.isPrefixOf_iff_prefix.mp h2⟩
  unfold replaceAll
  conv_lhs => rw [show (c :: rest).length = rest.length + 1 from by simp,
    replaceAllGo]
  rw [if_neg h']

theorem replaceAll_sanity :
    replaceAll "ab".toList "X".toList "zabab".toList = "zXX".toList := by
  decide

/-! ## Infix machinery -/

/-- A prefix of a concatenation is a prefix of the first part or extends
it into the second. -/
theorem prefix_append_cases {v A B : Str} (h : v <+: A ++ B) :
    v <+: A ∨ ∃ p₂, v = A ++ p₂ ∧ p₂ <+: B := by
  induction A generalizing v with
  | nil => exact Or.inr ⟨v, by simp, by simpa using h⟩
  | cons a A' ih =>
    cases v with
    | nil => exact Or.inl (List.nil_prefix)
    | cons x v' =>
      obtain ⟨t, ht⟩ := h
      simp only [List.cons_append, List.cons.injEq] at ht
      obtain ⟨rfl, ht'⟩ := ht
      rcases ih ⟨t, ht'⟩ with h1 | ⟨p₂, rfl, hp₂⟩
      · exact Or.inl (List.cons_prefix_cons.mpr ⟨rfl, h1⟩)
      · exact Or.inr ⟨p₂, by simp, hp₂⟩

/-- Occurrence decomposition: an infix of `A ++ B` is an infix of `A`,
an infix of `B`, or splits into a nonempty suffix of `A` followed by a
nonempty prefix of `B`. -/
theorem infix_append_cases {v A B : Str} (h : v <:+: A ++ B) :
    v <:+: A ∨ v <:+: B ∨
      ∃ p₁ p₂, v = p₁ ++ p₂ ∧ p₁ ≠ [] ∧ p₂ ≠ [] ∧ p₁ <:+ A ∧ p₂ <+: B := by
  induction A generalizing v with
  | nil => exact Or.inr (Or.inl (by simpa using h))
  | cons a A' ih =>
    obtain ⟨s, t, hst⟩ := h
    cases s with
    | nil =>
      -- v is a prefix of (a :: A') ++ B
      have hpre : v <+: (a :: A') ++ B := ⟨t, by simpa using hst⟩
      rcases prefix_append_cases hpre with h1 | ⟨p₂, rfl, hp₂⟩
      · exact Or.inl h1.isInfix
      · by_cases hp : p₂ = []
        · subst hp
          exact Or.inl (by simpa using List.infix_refl (a :: A'))
        · exact Or.inr (Or.inr ⟨a :: A', p₂, rfl, by simp, hp,
            List.suffix_refl _, hp₂⟩)
    | cons x s' =>
      simp only [List.cons_append, List.cons.injEq] at hst
      obtain ⟨rfl, hst'⟩ := hst
      rcases ih ⟨s', t, hst'⟩ with h1 | h2 | ⟨p₁, p₂, rfl, hp1, hp2, hs, hp⟩
      · exact Or.inl (h1.trans (List.infix_cons (List.infix_refl _)))
      · exact Or.inr (Or.inl h2)
      · exact Or.inr (Or.inr ⟨p₁, p₂, rfl, hp1, hp2,
          hs.trans (List.suffix_cons x A'), hp⟩)

/-- `NoCross p A B`: no occurrence of `p` straddles the boundary
between `A` and `B`. -/
def NoCross (p A B : Str) : Prop :=
  ∀ p₁ p₂, p = p₁ ++ p₂ → p₁ ≠ [] → p₂ ≠ [] → ¬ (p₁ <:+ A ∧ p₂ <+: B)

theorem not_infix_append {v A B : Str} (hA : ¬ v <:+: A) (hB : ¬ v <:+: B)
    (hnc : NoCross v A B) : ¬ v <:+: A ++ B := by
  intro h
  rcases infix_append_cases h with h1 | h2 | ⟨p₁, p₂, hv, h1, h2, hs, hp⟩
  · exact hA h1
  · exact hB h2
  · exact hnc p₁ p₂ hv h1 h2 ⟨hs, hp⟩

theorem replaceAll_of_not_infix {pat : Str} (rep : Str) :
    ∀ {s : Str}, ¬ pat <:+: s → replaceAll pat rep s = s := by
  intro s
  induction s with
  | nil => intro _; rfl
  | cons c rest ih =>
    intro h
    have hnp : ¬ (pat ≠ [] ∧ pat <+: (c :: rest)) := by
      rintro ⟨_, hp⟩
      exact h hp.isInfix
    rw [replaceAll_cons_neg rep hnp, ih (fun hi =>
      h (hi.trans (List.infix_cons (List.infix_refl _))))]

/-- Replacing the pattern by itself... sanity helper: a full match at the
whole string. -/
theorem replaceAll_self {pat : Str} (rep : Str) (hne : pat ≠ []) :
    replaceAll pat rep pat = rep := by
  cases pat with
  | nil => exact absurd rfl hne
  | cons c rest =>
    rw [replaceAll_cons_pos rep hne (List.prefix_refl _)]
    simp [replaceAll_nil]

/-- Distributing `replaceAll` over an append when no occurrence crosses
the boundary. -/
theorem replaceAll_append {pat : Str} (rep : Str) (hne : pat ≠ []) :
    ∀ (n : Nat) (A B : Str), A.length ≤ n → NoCross pat A B →
      replaceAll pat rep (A ++ B) = replaceAll pat rep A ++ replaceAll pat rep B := by
  intro n
  induction n with
  | zero =>
    intro A B hA _
    have : A = [] := by
      cases A with
      | nil => rfl
      | cons c r => simp at hA
    subst this
    simp [replaceAll_nil]
  | succ n ih =>
    intro A B hA hnc
    cases A with
    | nil => simp [replaceAll_nil]
    | cons c A' =>
      by_cases hp : pat <+: (c :: A')
      · -- match at head that stays inside A
        have hpAB : pat <+: (c :: A') ++ B := hp.trans (List.prefix_append _ _)
        rw [List.cons_append, replaceAll_cons_pos rep hne (by simpa using hpAB),
          replaceAll_cons_pos rep hne hp]
        have hlen : pat.length ≤ (c :: A').length := hp.length_le
        have hdrop : ((c :: A') ++ B).drop pat.length
            = (c :: A').drop pat.length ++ B := List.drop_append_of_le_length hlen
        rw [show (c :: (A' ++ B) : Str) = (c :: A') ++ B from rfl] at *
        rw [hdrop]
        have hrec : ((c :: A').drop pat.length).length ≤ n := by
          have h1 : ((c :: A').drop pat.length).length
              = (c :: A').length - pat.length := by simp
          have h2 : 1 ≤ pat.length := by
            cases hq : pat with
            | nil => exact absurd hq hne
            | cons a t => simp
          have h3 : (c :: A').length ≤ n + 1 := hA
          simp only [List.length_cons] at h1 h3 ⊢
          omega
        have hnc' : NoCross pat ((c :: A').drop pat.length) B := by
          intro p₁ p₂ hv h1 h2 ⟨hs, hpb⟩
          exact hnc p₁ p₂ hv h1 h2 ⟨hs.trans (List.drop_suffix _ _), hpb⟩
        rw [ih _ B hrec hnc', List.append_assoc]
      · -- no match at head (a match into B would cross the boundary)
        have hpAB : ¬ pat <+: (c :: A') ++ B := by
          intro hcontra
          rcases prefix_append_cases hcontra with h1 | ⟨p₂, hv, hp₂⟩
          · exact hp h1
          · by_cases hp2 : p₂ = []
            · subst hp2
              rw [List.append_nil] at hv
              exact hp (by rw [hv])
            · exact hnc (c :: A') p₂ hv (by simp) hp2 ⟨List.suffix_refl _, hp₂⟩
        rw [List.cons_append,
          replaceAll_cons_neg rep (fun ⟨_, h⟩ => hpAB (by simpa using h)),
          replaceAll_cons_neg rep (fun ⟨_, h⟩ => hp h)]
        have hnc' : NoCross pat A' B := by
          intro p₁ p₂ hv h1 h2 ⟨hs, hpb⟩
          exact hnc p₁ p₂ hv h1 h2 ⟨hs.trans (List.suffix_cons c A'), hpb⟩
        rw [ih A' B (by simpa using Nat.lt_succ_iff.mp (Nat.lt_of_lt_of_le
          (by simp) hA)) hnc']
        rfl

/-! ## Token engine (`token_engine.py`, `pattern_matcher.py`)

`TOKEN_RE = ⟨TKN_([A-Z][A-Z0-9_]*)_([A-F0-9]{8})⟩`.  Because the final
hex group has fixed width 8 and is anchored just before the closing
`⟩`, a fullmatch of the part between `TKN_` and `⟩` exists iff the
last 8 characters are uppercase hex, the character before them is `_`,
and the leading remainder matches `[A-Z][A-Z0-9_]*`; the split is
unique, so the backtracking regex is equivalent to the deterministic
check `coreOK`.  Likewise, a `finditer` match starting at a given
position must end at the first following `⟩` (no character class of
the pattern accepts `⟩`), giving the deterministic `tryTokenAt`. -/

/-- `[A-Z]` -/
def isUpperAZ (c : Char) : Bool := 'A' ≤ c && c ≤ 'Z'

/-- `[0-9]` -/
def isDigit09 (c : Char) : Bool := '0' ≤ c && c ≤ '9'

/-- `[A-F0-9]` — uppercase hex. -/
def isHexU (c : Char) : Bool := isDigit09 c || ('A' ≤ c && c ≤ 'F')

/-- `[A-Z0-9_]` — token type characters after the first. -/
def isTypeChar (c : Char) : Bool := isUpperAZ c || isDigit09 c || c = '_'

/-- `[A-Za-z0-9_]` — characters kept by the sanitizer in `generate_token`. -/
def isSafeChar (c : Char) : Bool :=
  isUpperAZ c || isDigit09 c || c = '_' || ('a' ≤ c && c ≤ 'z')

/-- ASCII uppercasing (the sanitizer leaves only `[A-Za-z0-9_]`). -/
def upperChar (c : Char) : Char :=
  if 'a' ≤ c ∧ c ≤ 'z' then Char.ofNat (c.toNat - 32) else c

/-- `regex.sub(r"[^A-Za-z0-9_]", "_", type_name).upper()[:20]`, with the
empty-result fallback to `"UNKNOWN"` (`generate_token`). -/
def sanitizeType (t : Str) : Str :=
  let s := (t.map fun c => if isSafeChar c then upperChar c else '_').take 20
  if s = [] then "UNKNOWN".toList else s

/-- `generate_token(type_name)` with the 8 uppercase-hex characters of
`secrets.token_hex(4).upper()` passed in explicitly. -/
def mkToken (typeName hex : Str) : Str :=
  '⟨' :: ("TKN_".toList ++ sanitizeType typeName ++ '_' :: hex ++ ['⟩'])

/-- Fullmatch of `([A-Z][A-Z0-9_]*)_([A-F0-9]{8})` against the part of a
token between `TKN_` and `⟩` (see the header comment on uniqueness of
the split). -/
def coreOK (mid : Str) : Bool :=
  10 ≤ mid.length &&
  (match mid.take (mid.length - 9) with
   | [] => false
   | c :: rest => isUpperAZ c && rest.all isTypeChar) &&
  mid[mid.length - 9]? = some '_' &&
  (mid.drop (mid.length - 8)).all isHexU

/-- `validate_token` — fullmatch against `TOKEN_RE`. -/
def validToken (s : Str) : Bool :=
  "⟨TKN_".toList.isPrefixOf s &&
  s.getLast? = some '⟩' &&
  coreOK (s.drop 5).dropLast

/-- Index of the first `⟩` (the regex engine cannot scan past it, since
no character class of `TOKEN_RE` accepts `⟩`). -/
def firstClose : Str → Option Nat
  | [] => none
  | c :: rest => if c = '⟩' then some 0 else (firstClose rest).map (· + 1)

/-- One step of `TOKEN_RE` matching at the current position: `some n`
iff the regex matches a token of length `n` starting here. -/
def tryTokenAt (s : Str) : Option Nat :=
  if "⟨TKN_".toList.isPrefixOf s then
    (firstClose (s.drop 5)).bind fun i =>
      if coreOK ((s.drop 5).take i) then some (5 + i + 1) else none
  else none

/-- `TOKEN_RE.finditer` / `find_tokens(text)`: leftmost non-overlapping
matches with positions (fuel-indexed structural version). -/
def findTokensGo : Nat → Str → Nat → List (Str × Nat × Nat)
  | 0, _, _ => []
  | _+1, [], _ => []
  | fuel+1, c :: rest, i =>
    match tryTokenAt (c :: rest) with
    | some n => ((c :: rest).take n, i, i + n) ::
        findTokensGo fuel (rest.drop (n - 1)) (i + n)
    | none => findTokensGo fuel rest (i + 1)

/-- `find_tokens(text)` from `pattern_matcher.py` (also
`token_engine.find_tokens`): all `⟨TKN_*⟩` tokens with positions. -/
def findTokens (s : Str) : List (Str × Nat × Nat) := findTokensGo s.length s 0

theorem validToken_sanity_pos :
    validToken "⟨TKN_EMAIL_A3F2B7C1⟩".toList = true := by decide
theorem validToken_sanity_neg :
    validToken "⟨TKN_9ABC_A3F2B7C1⟩".toList = false := by decide
theorem findTokens_sanity :
    (findTokens "x ⟨TKN_EMAIL_A3F2B7C1⟩ y".toList).map (fun m => m.1)
    = ["⟨TKN_EMAIL_A3F2B7C1⟩".toList] := by decide

/-! ### Structure of valid tokens -/

/-- The shape shared by all strings matching `TOKEN_RE`: one `⟨` at the
start, one `⟩` at the end, neither delimiter inside. -/
def TokenLike (t : Str) : Prop :=
  ∃ body : Str, t = '⟨' :: (body ++ ['⟩']) ∧ '⟨' ∉ body ∧ '⟩' ∉ body

theorem tokenLike_head {t : Str} (h : TokenLike t) : t.head? = some '⟨' := by
  obtain ⟨body, rfl, -, -⟩ := h; rfl

theorem tokenLike_ne_nil {t : Str} (h : TokenLike t) : t ≠ [] := by
  obtain ⟨body, rfl, -, -⟩ := h; simp

theorem tokenLike_getLast {t : Str} (h : TokenLike t) :
    t.getLast? = some '⟩' := by
  obtain ⟨body, rfl, -, -⟩ := h
  rw [show ('⟨' :: (body ++ ['⟩']) : Str) = ('⟨' :: body) ++ ['⟩'] from by simp]
  exact List.getLast?_concat _

theorem tokenLike_no_open_tail {t : Str} (h : TokenLike t) : '⟨' ∉ t.tail := by
  obtain ⟨body, rfl, hb, -⟩ := h
  simp only [List.tail_cons, List.mem_append, List.mem_singleton]
  rintro (h1 | h2)
  · exact hb h1
  · exact absurd h2 (by decide)

theorem tokenLike_no_close_dropLast {t : Str} (h : TokenLike t) :
    '⟩' ∉ t.dropLast := by
  obtain ⟨body, rfl, -, hb⟩ := h
  rw [show ('⟨' :: (body ++ ['⟩']) : Str) = ('⟨' :: body) ++ ['⟩'] from by simp,
    List.dropLast_append_of_ne_nil _ (by simp)]
  simp only [List.dropLast_single, List.append_nil, List.mem_cons]
  rintro (h1 | h2)
  · exact absurd h1.symm (by decide)
  · exact hb h2

/-- Character-class characters are never token delimiters. -/
theorem classChar_ne_delim {c : Char}
    (h : isUpperAZ c = true ∨ isDigit09 c = true ∨ isHexU c = true ∨
      isTypeChar c = true ∨ c = '_') : c ≠ '⟨' ∧ c ≠ '⟩' := by
  constructor <;> rintro rfl <;>
    rcases h with h | h | h | h | h <;> revert h <;> decide

/-- Decomposition of a string passing `coreOK`. -/
theorem coreOK_decomp {mid : Str} (h : coreOK mid = true) :
    ∃ c0 T H, mid = (c0 :: T) ++ '_' :: H ∧ isUpperAZ c0 = true ∧
      (∀ c ∈ T, isTypeChar c = true) ∧ H.length = 8 ∧
      (∀ c ∈ H, isHexU c = true) := by
  unfold coreOK at h
  simp only [Bool.and_eq_true, decide_eq_true_eq] at h
  obtain ⟨⟨⟨hlen, hT⟩, hsep⟩, hH⟩ := h
  set n := mid.length with hn
  obtain ⟨c0, T, hTe⟩ : ∃ c0 T, mid.take (n - 9) = c0 :: T := by
    cases hq : mid.take (n - 9) with
    | nil => rw [hq] at hT; exact absurd hT (by simp)
    | cons a t => exact ⟨a, t, rfl⟩
  rw [hTe] at hT
  simp only [Bool.and_eq_true, List.all_eq_true] at hT
  have hidx : n - 9 < n := by omega
  have hsep' : getElem mid (n - 9) hidx = '_' := by
    have := List.getElem?_eq_getElem hidx
    rw [this] at hsep
    exact Option.some_injective _ hsep
  have hmid : mid = mid.take (n - 9) ++ '_' :: mid.drop (n - 8) := by
    have h89 : n - 9 + 1 = n - 8 := by omega
    have hd : mid.drop (n - 9) = '_' :: mid.drop (n - 8) := by
      rw [List.drop_eq_getElem_cons hidx, hsep', h89]
    conv_lhs => rw [← List.take_append_drop (n - 9) mid]
    rw [hd]
  refine ⟨c0, T, mid.drop (n - 8), by rw [← hTe]; exact hmid, hT.1, hT.2, ?_, ?_⟩
  · simp only [List.length_drop]
    omega
  · intro c hc
    simp only [List.all_eq_true] at hH
    exact hH c hc

theorem validToken_tokenLike {t : Str} (h : validToken t = true) :
    TokenLike t := by
  unfold validToken at h
  simp only [Bool.and_eq_true, List.isPrefixOf_iff_prefix, decide_eq_true_eq] at h
  obtain ⟨⟨hpre, hlast⟩, hcore⟩ := h
  obtain ⟨r, hr⟩ := hpre
  obtain ⟨c0, T, H, hmid, hc0, hT, hHlen, hH⟩ := coreOK_decomp hcore
  have hdrop5 : t.drop 5 = r := by rw [← hr]; rfl
  rw [hdrop5] at hmid
  have hdl : r.dropLast.length = T.length + H.length + 2 := by
    rw [hmid]
    simp only [List.length_append, List.length_cons]
    omega
  have hrne : r ≠ [] := by
    intro hq
    rw [hq] at hdl
    simp at hdl
  have hlastr : r.getLast? = some '⟩' := by
    rw [← hr] at hlast
    rwa [List.getLast?_append_of_ne_nil _ hrne] at hlast
  have hre : r = r.dropLast ++ ['⟩'] := by
    conv_lhs => rw [← List.dropLast_concat_getLast hrne]
    have h2 := List.getLast?_eq_getLast r hrne
    rw [h2] at hlastr
    simp only [Option.some.injEq] at hlastr
    simp [hlastr]
  have hbody : ∀ c ∈ ('T' :: 'K' :: 'N' :: '_' :: ((c0 :: T) ++ '_' :: H) : Str),
      isTypeChar c = true := by
    intro c hc
    simp only [List.mem_cons, List.mem_append, List.mem_cons] at hc
    rcases hc with rfl | rfl | rfl | rfl | (rfl | hc) | rfl | hc
    · decide
    · decide
    · decide
    · decide
    · simp [isTypeChar, hc0]
    · exact hT _ hc
    · decide
    · have := hH _ hc
      simp only [isTypeChar, isHexU, isUpperAZ, isDigit09, Bool.or_eq_true,
        Bool.and_eq_true, decide_eq_true_eq] at this ⊢
      rcases this with h | ⟨h1, h2⟩
      · exact Or.inl (Or.inr h)
      · refine Or.inl (Or.inl ⟨h1, ?_⟩)
        exact le_trans h2 (by decide)
  refine ⟨'T' :: 'K' :: 'N' :: '_' :: ((c0 :: T) ++ '_' :: H), ?_, ?_, ?_⟩
  · rw [← hr, hre, hmid]
    simp
  · intro hmem
    exact (classChar_ne_delim (Or.inr (Or.inr (Or.inr (Or.inl
      (hbody _ hmem)))))).1 rfl
  · intro hmem
    exact (classChar_ne_delim (Or.inr (Or.inr (Or.inr (Or.inl
      (hbody _ hmem)))))).2 rfl

/-! ### The token matcher -/

theorem firstClose_append_close {A : Str} (B : Str) (hA : '⟩' ∉ A) :
    firstClose (A ++ '⟩' :: B) = some A.length := by
  induction A with
  | nil => rfl
  | cons c A' ih =>
    have hc : c ≠ '⟩' := fun h => hA (h ▸ List.mem_cons_self c A')
    have hA' : '⟩' ∉ A' := fun h => hA (List.mem_cons_of_mem c h)
    simp only [List.cons_append, firstClose, if_neg hc, List.append_eq,
      ih hA', Option.map_some', List.length_cons]

theorem firstClose_spec {s : Str} {i : Nat} (h : firstClose s = some i) :
    ∃ A B, s = A ++ '⟩' :: B ∧ A.length = i ∧ '⟩' ∉ A := by
  induction s generalizing i with
  | nil => simp [firstClose] at h
  | cons c rest ih =>
    by_cases hc : c = '⟩'
    · subst hc
      have he : firstClose ('⟩' :: rest) = some 0 := rfl
      rw [he] at h
      simp only [Option.some.injEq] at h
      exact ⟨[], rest, rfl, h, by simp⟩
    · simp only [firstClose, if_neg hc, Option.map_eq_some'] at h
      obtain ⟨j, hj, rfl⟩ := h
      obtain ⟨A, B, rfl, rfl, hA⟩ := ih hj
      exact ⟨c :: A, B, rfl, by simp, by
        simp only [List.mem_cons]
        rintro (h1 | h1)
        · exact hc h1.symm
        · exact hA h1⟩

/-- Decomposition of a string passing `validate_token`. -/
theorem validToken_decomp {t : Str} (h : validToken t = true) :
    ∃ mid, t = "⟨TKN_".toList ++ mid ++ ['⟩'] ∧ coreOK mid = true ∧
      '⟩' ∉ mid ∧ '⟨' ∉ mid := by
  have htl := validToken_tokenLike h
  unfold validToken at h
  simp only [Bool.and_eq_true, List.isPrefixOf_iff_prefix, decide_eq_true_eq] at h
  obtain ⟨⟨hpre, hlast⟩, hcore⟩ := h
  obtain ⟨r, hr⟩ := hpre
  have hdrop5 : t.drop 5 = r := by rw [← hr]; rfl
  rw [hdrop5] at hcore
  obtain ⟨c0, T, H, hmid, hc0, hT, hHlen, hH⟩ := coreOK_decomp hcore
  have hdl : r.dropLast.length = T.length + H.length + 2 := by
    rw [hmid]
    simp only [List.length_append, List.length_cons]
    omega
  have hrne : r ≠ [] := by
    intro hq
    rw [hq] at hdl
    simp at hdl
  have hlastr : r.getLast? = some '⟩' := by
    rw [← hr] at hlast
    rwa [List.getLast?_append_of_ne_nil _ hrne] at hlast
  have hre : r = r.dropLast ++ ['⟩'] := by
    conv_lhs => rw [← List.dropLast_concat_getLast hrne]
    have h2 := List.getLast?_eq_getLast r hrne
    rw [h2] at hlastr
    simp only [Option.some.injEq] at hlastr
    simp [hlastr]
  have hmidchars : ∀ c ∈ r.dropLast, c ≠ '⟨' ∧ c ≠ '⟩' := by
    intro c hc
    rw [hmid] at hc
    simp only [List.append_assoc, List.mem_append, List.mem_cons] at hc
    rcases hc with (rfl | hc) | rfl | hc
    · exact classChar_ne_delim (Or.inl hc0)
    · exact classChar_ne_delim (Or.inr (Or.inr (Or.inr (Or.inl (hT c hc)))))
    · exact classChar_ne_delim (Or.inr (Or.inr (Or.inr (Or.inr rfl))))
    · exact classChar_ne_delim (Or.inr (Or.inr (Or.inl (hH c hc))))
  refine ⟨r.dropLast, ?_, hcore, ?_, ?_⟩
  · rw [← hr, List.append_assoc, ← hre]
  · intro hc
    exact (hmidchars _ hc).2 rfl
  · intro hc
    exact (hmidchars _ hc).1 rfl

theorem validToken_length {t : Str} (h : validToken t = true) :
    1 ≤ t.length := by
  obtain ⟨mid, rfl, -, -, -⟩ := validToken_decomp h
  simp

/-- The regex match at a position where a full valid token sits is that
token (it ends exactly at the token's first `⟩`). -/
theorem tryTokenAt_of_valid_pre {t s : Str} (hv : validToken t = true)
    (hp : t <+: s) : tryTokenAt s = some t.length := by
  obtain ⟨mid, rfl, hcore, hnc, hno⟩ := validToken_decomp hv
  obtain ⟨u, rfl⟩ := hp
  have hpre : "⟨TKN_".toList.isPrefixOf
      ("⟨TKN_".toList ++ mid ++ ['⟩'] ++ u) := by
    rw [List.isPrefixOf_iff_prefix, List.append_assoc, List.append_assoc]
    exact List.prefix_append _ _
  have hdrop : ("⟨TKN_".toList ++ mid ++ ['⟩'] ++ u).drop 5
      = mid ++ '⟩' :: u := by
    simp
  unfold tryTokenAt
  rw [if_pos hpre, hdrop, firstClose_append_close u hnc]
  have htake : (mid ++ '⟩' :: u).take mid.length = mid := List.take_left mid _
  rw [Option.some_bind, htake, if_pos hcore]
  have hlen5 : ("⟨TKN_".toList ++ mid ++ ['⟩']).length = 5 + mid.length + 1 := by
    simp only [List.length_append, List.length_cons, List.length_nil]
    have : "⟨TKN_".toList.length = 5 := by decide
    omega
  rw [hlen5]

/-- Every match reported by the matcher is a valid token occupying
`n ≤ |s|` characters. -/
theorem tryTokenAt_valid {s : Str} {n : Nat} (h : tryTokenAt s = some n) :
    validToken (s.take n) = true ∧ 1 ≤ n ∧ n ≤ s.length := by
  unfold tryTokenAt at h
  by_cases hpre : "⟨TKN_".toList.isPrefixOf s
  · rw [if_pos hpre] at h
    cases hfc : firstClose (s.drop 5) with
    | none => rw [hfc] at h; exact absurd h (by simp)
    | some i =>
      rw [hfc, Option.some_bind] at h
      by_cases hcore : coreOK ((s.drop 5).take i) = true
      · rw [if_pos hcore] at h
        simp only [Option.some.injEq] at h
        subst h
        obtain ⟨A, B, hAB, hlen, hA⟩ := firstClose_spec hfc
        obtain ⟨r, hr⟩ := List.isPrefixOf_iff_prefix.mp hpre
        have hrd : s.drop 5 = r := by rw [← hr]; rfl
        have hs : s = "⟨TKN_".toList ++ A ++ '⟩' :: B := by
          rw [← hr]
          have hre : r = A ++ '⟩' :: B := by rw [← hrd, hAB]
          rw [hre, ← List.append_assoc]
        have htk : s.take (5 + i + 1) = "⟨TKN_".toList ++ A ++ ['⟩'] := by
          rw [hs]
          rw [show ("⟨TKN_".toList ++ A ++ '⟩' :: B)
            = ("⟨TKN_".toList ++ A ++ ['⟩']) ++ B from by simp]
          have : ("⟨TKN_".toList ++ A ++ ['⟩']).length = 5 + i + 1 := by
            simp [← hlen]
            omega
          rw [← this]
          exact List.take_left _ _
        have hAtake : (s.drop 5).take i = A := by
          rw [hAB, ← hlen]
          exact List.take_left _ _
        refine ⟨?_, by omega, ?_⟩
        · rw [htk]
          unfold validToken
          have h1 : "⟨TKN_".toList.isPrefixOf
              ("⟨TKN_".toList ++ A ++ ['⟩']) := by
            rw [List.isPrefixOf_iff_prefix, List.append_assoc]
            exact List.prefix_append _ _
          have h2 : ("⟨TKN_".toList ++ A ++ ['⟩']).getLast? = some '⟩' :=
            List.getLast?_concat _
          have h3 : (("⟨TKN_".toList ++ A ++ ['⟩']).drop 5).dropLast = A := by
            rw [List.append_assoc]
            show ((("⟨TKN_".toList ++ (A ++ ['⟩'])).drop 5)).dropLast = A
            rw [show ("⟨TKN_".toList ++ (A ++ ['⟩'])).drop 5 = A ++ ['⟩'] from by simp]
            simp
          rw [h1, h2, h3]
          rw [hAtake] at hcore
          simp [hcore]
        · rw [hs]
          simp only [List.length_append, List.length_cons]
          have : A.length = i := hlen
          simp at this ⊢
          omega
      · rw [if_neg hcore] at h
        exact absurd h (by simp)
  · rw [if_neg hpre] at h
    exact absurd h (by simp)

/-! ### Scanning lemmas for `find_tokens` -/

theorem findTokensGo_nil (fuel i : Nat) : findTokensGo fuel [] i = [] := by
  cases fuel <;> rfl

theorem findTokensGo_fuel :
    ∀ (fuel : Nat) (s : Str) (i : Nat), s.length ≤ fuel →
      ∀ fuel', s.length ≤ fuel' →
        findTokensGo fuel s i = findTokensGo fuel' s i := by
  intro fuel
  induction fuel with
  | zero =>
    intro s i hs fuel' _
    have : s = [] := by
      cases s with
      | nil => rfl
      | cons c r => simp at hs
    subst this
    rw [findTokensGo_nil, findTokensGo_nil]
  | succ n ih =>
    intro s i hs fuel' hs'
    cases s with
    | nil => rw [findTokensGo_nil, findTokensGo_nil]
    | cons c rest =>
      cases fuel' with
      | zero => simp at hs'
      | succ m =>
        cases htt : tryTokenAt (c :: rest) with
        | some k =>
          simp only [findTokensGo, htt]
          have hd : (rest.drop (k - 1)).length = rest.length - (k - 1) := by simp
          have h1 : (rest.drop (k - 1)).length ≤ n := by
            have : rest.length ≤ n := by simpa using hs
            omega
          have h2 : (rest.drop (k - 1)).length ≤ m := by
            have : rest.length ≤ m := by simpa using hs'
            omega
          rw [ih _ _ h1 m h2]
        | none =>
          simp only [findTokensGo, htt]
          have h1 : rest.length ≤ n := by simpa using hs
          have h2 : rest.length ≤ m := by simpa using hs'
          rw [ih _ _ h1 m h2]

/-- A text with no valid-token infix contains no matches. -/
theorem findTokensGo_eq_nil :
    ∀ (fuel : Nat) (s : Str) (i : Nat), s.length ≤ fuel →
      (∀ t : Str, validToken t = true → ¬ t <:+: s) →
      findTokensGo fuel s i = [] := by
  intro fuel
  induction fuel with
  | zero => intro s i _ _; cases s <;> rfl
  | succ n ih =>
    intro s i hs hno
    cases s with
    | nil => rfl
    | cons c rest =>
      cases htt : tryTokenAt (c :: rest) with
      | some k =>
        obtain ⟨hv, -, hk⟩ := tryTokenAt_valid htt
        exact absurd ((List.take_prefix k (c :: rest)).isInfix) (hno _ hv)
      | none =>
        simp only [findTokensGo, htt]
        exact ih rest (i + 1) (by simpa using hs) (fun t hv hi =>
          hno t hv (hi.trans (List.infix_cons (List.infix_refl _))))

/-- Completeness: a valid token occurring in the text is sure to make
the scanner report at least one match. -/
theorem findTokensGo_ne_nil {tk : Str} (hv : validToken tk = true) :
    ∀ (fuel : Nat) (s : Str) (i : Nat), s.length ≤ fuel →
      tk <:+: s → findTokensGo fuel s i ≠ [] := by
  intro fuel
  induction fuel with
  | zero =>
    intro s i hs hi
    have : s = [] := by
      cases s with
      | nil => rfl
      | cons c r => simp at hs
    subst this
    have : tk = [] := List.eq_nil_of_infix_nil hi
    have h1 := validToken_length hv
    rw [this] at h1
    simp at h1
  | succ n ih =>
    intro s i hs hi
    cases s with
    | nil =>
      have : tk = [] := List.eq_nil_of_infix_nil hi
      have h1 := validToken_length hv
      rw [this] at h1
      simp at h1
    | cons c rest =>
      cases htt : tryTokenAt (c :: rest) with
      | some k => simp [findTokensGo, htt]
      | none =>
        simp only [findTokensGo, htt]
        rcases List.infix_cons_iff.mp hi with hpre | hrest
        · rw [tryTokenAt_of_valid_pre hv hpre] at htt
          exact absurd htt (by simp)
        · exact ih rest (i + 1) (by simpa using hs) hrest

/-- Skipping a token-free stretch: when no match can start inside `L`,
scanning `L ++ R` is scanning `R` shifted by `|L|`. -/
theorem findTokensGo_skip :
    ∀ (L : Str) (R : Str) (i fuel : Nat), (L ++ R).length ≤ fuel →
      (∀ s' : Str, s' ≠ [] → s' <:+ L → tryTokenAt (s' ++ R) = none) →
      findTokensGo fuel (L ++ R) i
        = findTokensGo (fuel - L.length) R (i + L.length) := by
  intro L
  induction L with
  | nil => intro R i fuel h _; simp
  | cons c L' ih =>
    intro R i fuel hlen hno
    cases fuel with
    | zero => simp at hlen
    | succ f =>
      have hnohead : tryTokenAt (c :: (L' ++ R)) = none :=
        hno (c :: L') (by simp) (List.suffix_refl _)
      rw [show ((c :: L') ++ R : Str) = c :: (L' ++ R) from rfl]
      simp only [findTokensGo, hnohead]
      have hrec := ih R (i + 1) f (by simpa using hlen)
        (fun s' hne hsuf => hno s' hne (hsuf.trans (List.suffix_cons c L')))
      rw [hrec]
      have h1 : f + 1 - (c :: L').length = f - L'.length := by simp
      have h2 : i + 1 + L'.length = i + (c :: L').length := by
        simp only [List.length_cons]
        omega
      rw [h1, h2]

/-- A match-free stretch, in the form needed at segment boundaries: no
valid token inside `L`, and `R` (if nonempty) begins with `⟨`, so that
any match started in `L` would have to put a `⟨` in its interior. -/
theorem noTokenStart {L R : Str}
    (hL : ∀ t : Str, validToken t = true → ¬ t <:+: L)
    (hR : R = [] ∨ R.head? = some '⟨') :
    ∀ s' : Str, s' ≠ [] → s' <:+ L → tryTokenAt (s' ++ R) = none := by
  intro s' hne hsuf
  cases htt : tryTokenAt (s' ++ R) with
  | none => rfl
  | some n =>
    exfalso
    obtain ⟨hv, hn1, hnle⟩ := tryTokenAt_valid htt
    by_cases hcase : n ≤ s'.length
    · -- the match would fit inside L
      have : (s' ++ R).take n = s'.take n := List.take_append_of_le_length hcase
      rw [this] at hv
      exact hL _ hv (((List.take_prefix n s').isInfix).trans hsuf.isInfix)
    · -- the match would extend into R, putting R's head `⟨` in its interior
      push_neg at hcase
      rcases hR with rfl | hR
      · rw [List.append_nil] at hnle
        omega
      · have htk : (s' ++ R).take n = s' ++ R.take (n - s'.length) := by
          rw [List.take_append_eq_append_take]
          congr 1
          exact List.take_of_length_le (by omega)
        set r' : Str := R.take (n - s'.length) with hr'
        have hrne : r' ≠ [] := by
          rw [hr']
          cases R with
          | nil => simp at hR
          | cons a R2 =>
            cases hq : n - s'.length with
            | zero => omega
            | succ m => simp
        have hrhead : r'.head? = some '⟨' := by
          rw [hr']
          cases R with
          | nil => simp at hR
          | cons a R2 =>
            simp only [List.head?_cons, Option.some.injEq] at hR
            subst hR
            have : 1 ≤ n - s'.length := by omega
            cases hq : n - s'.length with
            | zero => omega
            | succ m => simp [List.take_succ_cons]
        -- r' is a nonempty proper suffix of a token-like string, so it
        -- cannot begin with `⟨`
        rw [htk] at hv
        have htl := validToken_tokenLike hv
        have hsufr : r' <:+ s' ++ r' := ⟨s', rfl⟩
        have hlt : r'.length < (s' ++ r').length := by
          simp only [List.length_append]
          cases s' with
          | nil => exact absurd rfl hne
          | cons a b => simp
        obtain ⟨body, hbody, hbo, hbc⟩ := htl
        rw [hbody] at hsufr hlt
        rcases List.suffix_cons_iff.mp hsufr with he | htail
        · rw [he] at hlt
          simp at hlt
        · have : '⟨' ∈ body ++ ['⟩'] := by
            have hmem : '⟨' ∈ r' := by
              cases hq : r' with
              | nil => exact absurd hq hrne
              | cons a b =>
                rw [hq] at hrhead
                simp only [List.head?_cons, Option.some.injEq] at hrhead
                rw [← hrhead]
                exact List.mem_cons_self a b
            exact htail.subset hmem
          simp only [List.mem_append, List.mem_singleton] at this
          rcases this with h1 | h1
          · exact hbo h1
          · exact absurd h1 (by decide)

/-! ### Chunk decomposition of a substituted text

`_substitute` (gateway) and `_resolve_text` (resolver) operate by plain
string replacement.  To reason about them, a string that has undergone
substitutions is represented as an alternating decomposition: a list of
`(literal, value, token)` pieces followed by a final literal `tail`.
`flat` is the substituted text (literals and tokens); `orig` is the
text with every token replaced by its recorded value. -/

/-- One piece: the literal run before a replaced occurrence, the
replaced value and the token standing for it. -/
abbrev Piece := Str × Str × Str

structure Decomp where
  pieces : List Piece
  tail : Str

/-- The substituted text. -/
def Decomp.flat (d : Decomp) : Str :=
  (d.pieces.map fun p => p.1 ++ p.2.2).flatten ++ d.tail

/-- The text with values restored in place of tokens. -/
def Decomp.orig (d : Decomp) : Str :=
  (d.pieces.map fun p => p.1 ++ p.2.1).flatten ++ d.tail

/-- Prepend a character to the first literal of a split result. -/
def consLit (c : Char) : List Piece × Str → List Piece × Str
  | ([], tl) => ([], c :: tl)
  | ((l, v', t') :: ps, tl) => ((c :: l, v', t') :: ps, tl)

theorem consLit_nil (c : Char) (tl : Str) :
    consLit c ([], tl) = ([], c :: tl) := rfl

theorem consLit_cons (c : Char) (l v' t' : Str) (ps : List Piece) (tl : Str) :
    consLit c ((l, v', t') :: ps, tl) = ((c :: l, v', t') :: ps, tl) := rfl

/-- Split a literal at every occurrence of `v` (the same scan as
`str.replace`), recording `(v, t)` pieces. -/
def splitSubstGo (v t : Str) : Nat → Str → List Piece × Str
  | _, [] => ([], [])
  | 0, s => ([], s)
  | fuel+1, c :: rest =>
    if v ≠ [] ∧ v.isPrefixOf (c :: rest) then
      let r := splitSubstGo v t fuel (rest.drop (v.length - 1))
      (([], v, t) :: r.1, r.2)
    else
      consLit c (splitSubstGo v t fuel rest)

def splitSubst (v t s : Str) : List Piece × Str := splitSubstGo v t s.length s

/-- The first literal chunk of a split result. -/
def firstLit : List Piece × Str → Str
  | ([], tl) => tl
  | (p :: _, _) => p.1

/-- The substituted-side flattening of `splitSubst` is `replaceAll`. -/
theorem splitSubstGo_flat (v t : Str) :
    ∀ (fuel : Nat) (s : Str),
      ((splitSubstGo v t fuel s).1.map fun p => p.1 ++ p.2.2).flatten
          ++ (splitSubstGo v t fuel s).2
        = replaceAllGo v t fuel s := by
  intro fuel
  induction fuel with
  | zero => intro s; cases s <;> simp [splitSubstGo, replaceAllGo]
  | succ n ih =>
    intro s
    cases s with
    | nil => simp [splitSubstGo, replaceAllGo]
    | cons c rest =>
      by_cases h : v ≠ [] ∧ v.isPrefixOf (c :: rest)
      · simp only [splitSubstGo, replaceAllGo, if_pos h]
        rw [← ih (rest.drop (v.length - 1))]
        simp
      · simp only [splitSubstGo, replaceAllGo, if_neg h]
        have hih := ih rest
        rcases hq : splitSubstGo v t n rest with ⟨ps0, tl0⟩
        rw [hq] at hih
        cases ps0 with
        | nil =>
          rw [consLit_nil]
          simp only [List.map_nil, List.flatten_nil, List.nil_append] at hih ⊢
          rw [← hih]
        | cons q qs =>
          obtain ⟨l, v', t'⟩ := q
          rw [consLit_cons]
          simp only [List.map_cons, List.flatten_cons] at hih ⊢
          rw [← hih]
          simp

/-- The value-side flattening of `splitSubst` restores the literal. -/
theorem splitSubstGo_orig (v t : Str) :
    ∀ (fuel : Nat) (s : Str),
      ((splitSubstGo v t fuel s).1.map fun p => p.1 ++ p.2.1).flatten
          ++ (splitSubstGo v t fuel s).2 = s := by
  intro fuel
  induction fuel with
  | zero => intro s; cases s <;> simp [splitSubstGo]
  | succ n ih =>
    intro s
    cases s with
    | nil => simp [splitSubstGo]
    | cons c rest =>
      by_cases h : v ≠ [] ∧ v.isPrefixOf (c :: rest)
      · simp only [splitSubstGo, if_pos h]
        have hpre : v <+: (c :: rest) := List.isPrefixOf_iff_prefix.mp h.2
        obtain ⟨u, hu⟩ := hpre
        have hdrop : rest.drop (v.length - 1) = u := by
          have h1 : (c :: rest).drop v.length = u := by
            rw [← hu]
            exact List.drop_left v u
          obtain ⟨k, hk⟩ : ∃ k, v.length = k + 1 := by
            cases hp : v with
            | nil => exact absurd hp h.1
            | cons a b => exact ⟨b.length, by simp [hp]⟩
          rw [hk] at h1 ⊢
          simpa using h1
        rw [hdrop]
        simp only [List.map_cons, List.flatten_cons, List.nil_append]
        rw [List.append_assoc, ih u, ← hu]
      · simp only [splitSubstGo, if_neg h]
        have hih := ih rest
        rcases hq : splitSubstGo v t n rest with ⟨ps0, tl0⟩
        rw [hq] at hih
        cases ps0 with
        | nil =>
          rw [consLit_nil]
          simp only [List.map_nil, List.flatten_nil, List.nil_append] at hih ⊢
          rw [hih]
        | cons q qs =>
          obtain ⟨l, v', t'⟩ := q
          rw [consLit_cons]
          simp only [List.map_cons, List.flatten_cons] at hih ⊢
          conv_rhs => rw [← hih]
          simp

/-- The first literal of the split is a prefix of the input. -/
theorem splitSubstGo_firstLit (v t : Str) :
    ∀ (fuel : Nat) (s : Str), firstLit (splitSubstGo v t fuel s) <+: s := by
  intro fuel
  induction fuel with
  | zero =>
    intro s
    cases s with
    | nil => simp [splitSubstGo, firstLit]
    | cons a b => simp [splitSubstGo, firstLit]
  | succ n ih =>
    intro s
    cases s with
    | nil => simp [splitSubstGo, firstLit]
    | cons c rest =>
      by_cases h : v ≠ [] ∧ v.isPrefixOf (c :: rest)
      · simp only [splitSubstGo, if_pos h]
        exact List.nil_prefix
      · simp only [splitSubstGo, if_neg h]
        have hih := ih rest
        rcases hq : splitSubstGo v t n rest with ⟨ps0, tl0⟩
        rw [hq] at hih
        cases ps0 with
        | nil =>
          rw [consLit_nil]
          exact List.cons_prefix_cons.mpr ⟨rfl, hih⟩
        | cons q qs =>
          obtain ⟨l, v', t'⟩ := q
          rw [consLit_cons]
          exact List.cons_prefix_cons.mpr ⟨rfl, hih⟩

/-- All pieces produced by the split carry the pair `(v, t)`. -/
theorem splitSubstGo_pairs (v t : Str) :
    ∀ (fuel : Nat) (s : Str), ∀ p ∈ (splitSubstGo v t fuel s).1,
      p.2.1 = v ∧ p.2.2 = t := by
  intro fuel
  induction fuel with
  | zero =>
    intro s p hp
    cases s with
    | nil => simp [splitSubstGo] at hp
    | cons a b => simp [splitSubstGo] at hp
  | succ n ih =>
    intro s p hp
    cases s with
    | nil => simp [splitSubstGo] at hp
    | cons c rest =>
      by_cases h : v ≠ [] ∧ v.isPrefixOf (c :: rest)
      · simp only [splitSubstGo, if_pos h, List.mem_cons] at hp
        rcases hp with rfl | hp
        · exact ⟨rfl, rfl⟩
        · exact ih _ p hp
      · simp only [splitSubstGo, if_neg h] at hp
        have hih := ih rest
        rcases hq : splitSubstGo v t n rest with ⟨ps0, tl0⟩
        rw [hq] at hih hp
        cases ps0 with
        | nil =>
          rw [consLit_nil] at hp
          simp at hp
        | cons q qs =>
          obtain ⟨l, v', t'⟩ := q
          rw [consLit_cons] at hp
          simp only [List.mem_cons] at hp
          rcases hp with rfl | hp
          · exact hih (l, v', t') (List.mem_cons_self _ _)
          · exact hih p (List.mem_cons_of_mem _ hp)

/-- The split never leaves an occurrence of `v` inside a produced
literal chunk or the final tail. -/
theorem splitSubstGo_noLeak (v t : Str) (hv : v ≠ []) :
    ∀ (fuel : Nat) (s : Str), s.length ≤ fuel →
      (∀ p ∈ (splitSubstGo v t fuel s).1, ¬ v <:+: p.1) ∧
      ¬ v <:+: (splitSubstGo v t fuel s).2 := by
  intro fuel
  induction fuel with
  | zero =>
    intro s hs
    have : s = [] := by
      cases s with
      | nil => rfl
      | cons a b => simp at hs
    subst this
    refine ⟨by simp [splitSubstGo], ?_⟩
    simp only [splitSubstGo]
    intro hi
    exact hv (List.eq_nil_of_infix_nil hi)
  | succ n ih =>
    intro s hs
    cases s with
    | nil =>
      refine ⟨by simp [splitSubstGo], ?_⟩
      simp only [splitSubstGo]
      intro hi
      exact hv (List.eq_nil_of_infix_nil hi)
    | cons c rest =>
      by_cases h : v ≠ [] ∧ v.isPrefixOf (c :: rest)
      · simp only [splitSubstGo, if_pos h]
        have hrec := ih (rest.drop (v.length - 1)) (by
          have h1 : rest.length ≤ n := by simpa using hs
          simp only [List.length_drop]
          omega)
        refine ⟨?_, hrec.2⟩
        intro p hp
        simp only [List.mem_cons] at hp
        rcases hp with rfl | hp
        · intro hi
          exact hv (List.eq_nil_of_infix_nil hi)
        · exact hrec.1 p hp
      · have hnpre : ¬ v <+: (c :: rest) := fun hc =>
          h ⟨hv, List.isPrefixOf_iff_prefix.mpr hc⟩
        simp only [splitSubstGo, if_neg h]
        have hrec := ih rest (by simpa using hs)
        have hfl := splitSubstGo_firstLit v t n rest
        rcases hq : splitSubstGo v t n rest with ⟨ps0, tl0⟩
        rw [hq] at hrec hfl
        cases ps0 with
        | nil =>
          rw [consLit_nil]
          simp only [firstLit] at hfl
          refine ⟨by simp, ?_⟩
          intro hi
          rcases List.infix_cons_iff.mp hi with hpre | hin
          · exact hnpre (hpre.trans (List.cons_prefix_cons.mpr ⟨rfl, hfl⟩))
          · exact hrec.2 hin
        | cons q qs =>
          obtain ⟨l, v', t'⟩ := q
          rw [consLit_cons]
          simp only [firstLit] at hfl
          constructor
          · intro p hp
            simp only [List.mem_cons] at hp
            rcases hp with rfl | hp
            · intro hi
              rcases List.infix_cons_iff.mp hi with hpre | hin
              · exact hnpre (hpre.trans (List.cons_prefix_cons.mpr ⟨rfl, hfl⟩))
              · exact hrec.1 (l, v', t') (List.mem_cons_self _ _) hin
            · exact hrec.1 p (List.mem_cons_of_mem _ hp)
          · exact hrec.2

/-- Every literal chunk of the split (and the tail) is an infix of the
input. -/
theorem splitSubstGo_chunks_sub (v t : Str) :
    ∀ (fuel : Nat) (s : Str),
      (∀ p ∈ (splitSubstGo v t fuel s).1, p.1 <:+: s) ∧
      (splitSubstGo v t fuel s).2 <:+: s := by
  intro fuel
  induction fuel with
  | zero =>
    intro s
    cases s with
    | nil => exact ⟨by simp [splitSubstGo], by simp [splitSubstGo]⟩
    | cons a b =>
      exact ⟨by simp [splitSubstGo], by simp [splitSubstGo]⟩
  | succ n ih =>
    intro s
    cases s with
    | nil => exact ⟨by simp [splitSubstGo], by simp [splitSubstGo]⟩
    | cons c rest =>
      by_cases h : v ≠ [] ∧ v.isPrefixOf (c :: rest)
      · simp only [splitSubstGo, if_pos h]
        have hrec := ih (rest.drop (v.length - 1))
        have hmono : ∀ x : Str, x <:+: rest.drop (v.length - 1) →
            x <:+: c :: rest := fun x hx =>
          ((hx.trans (List.drop_suffix _ _).isInfix).trans
            (List.infix_cons (List.infix_refl _)))
        refine ⟨?_, hmono _ hrec.2⟩
        intro p hp
        simp only [List.mem_cons] at hp
        rcases hp with rfl | hp
        · exact ⟨[], c :: rest, rfl⟩
        · exact hmono _ (hrec.1 p hp)
      · simp only [splitSubstGo, if_neg h]
        have hrec := ih rest
        have hfl := splitSubstGo_firstLit v t n rest
        have hmono : ∀ x : Str, x <:+: rest → x <:+: c :: rest := fun x hx =>
          hx.trans (List.infix_cons (List.infix_refl _))
        rcases hq : splitSubstGo v t n rest with ⟨ps0, tl0⟩
        rw [hq] at hrec hfl
        cases ps0 with
        | nil =>
          rw [consLit_nil]
          simp only [firstLit] at hfl
          exact ⟨by simp, (List.cons_prefix_cons.mpr ⟨rfl, hfl⟩).isInfix⟩
        | cons q qs =>
          obtain ⟨l, v', t'⟩ := q
          rw [consLit_cons]
          simp only [firstLit] at hfl
          constructor
          · intro p hp
            simp only [List.mem_cons] at hp
            rcases hp with rfl | hp
            · exact (List.cons_prefix_cons.mpr ⟨rfl, hfl⟩).isInfix
            · exact hmono _ (hrec.1 p (List.mem_cons_of_mem _ hp))
          · exact hmono _ hrec.2

theorem splitSubst_flat (v t s : Str) :
    ((splitSubst v t s).1.map fun p => p.1 ++ p.2.2).flatten
      ++ (splitSubst v t s).2 = replaceAll v t s :=
  splitSubstGo_flat v t s.length s

theorem splitSubst_orig (v t s : Str) :
    ((splitSubst v t s).1.map fun p => p.1 ++ p.2.1).flatten
      ++ (splitSubst v t s).2 = s :=
  splitSubstGo_orig v t s.length s

theorem splitSubst_pairs (v t s : Str) :
    ∀ p ∈ (splitSubst v t s).1, p.2.1 = v ∧ p.2.2 = t :=
  splitSubstGo_pairs v t s.length s

theorem splitSubst_noLeak {v : Str} (t : Str) (hv : v ≠ []) (s : Str) :
    (∀ p ∈ (splitSubst v t s).1, ¬ v <:+: p.1) ∧
    ¬ v <:+: (splitSubst v t s).2 :=
  splitSubstGo_noLeak v t hv s.length s (le_refl _)

theorem splitSubst_chunks_sub (v t s : Str) :
    (∀ p ∈ (splitSubst v t s).1, p.1 <:+: s) ∧
    (splitSubst v t s).2 <:+: s :=
  splitSubstGo_chunks_sub v t s.length s

/-! ### One substitution pass over a decomposition -/

/-- Apply one `str.replace` pass (value `v` → token `t`) to a
decomposition: each literal is split at occurrences of `v`; the
existing token pieces are untouched. -/
def Decomp.substValue (v t : Str) (d : Decomp) : Decomp :=
  ⟨(d.pieces.flatMap fun p =>
      (splitSubst v t p.1).1 ++ [((splitSubst v t p.1).2, p.2.1, p.2.2)])
    ++ (splitSubst v t d.tail).1,
   (splitSubst v t d.tail).2⟩

theorem Decomp.flat_nil (tl : Str) : Decomp.flat ⟨[], tl⟩ = tl := by
  simp [Decomp.flat]

theorem Decomp.flat_cons (l v tk : Str) (ps : List Piece) (tl : Str) :
    Decomp.flat ⟨(l, v, tk) :: ps, tl⟩ = l ++ (tk ++ Decomp.flat ⟨ps, tl⟩) := by
  simp [Decomp.flat, List.append_assoc]

theorem Decomp.orig_nil (tl : Str) : Decomp.orig ⟨[], tl⟩ = tl := by
  simp [Decomp.orig]

theorem Decomp.orig_cons (l v tk : Str) (ps : List Piece) (tl : Str) :
    Decomp.orig ⟨(l, v, tk) :: ps, tl⟩ = l ++ (v ++ Decomp.orig ⟨ps, tl⟩) := by
  simp [Decomp.orig, List.append_assoc]

theorem substValue_nil (v t tl : Str) :
    Decomp.substValue v t ⟨[], tl⟩
      = ⟨(splitSubst v t tl).1, (splitSubst v t tl).2⟩ := by
  simp [Decomp.substValue]

theorem substValue_cons (v t l v' tk : Str) (ps : List Piece) (tl : Str) :
    Decomp.substValue v t ⟨(l, v', tk) :: ps, tl⟩
      = ⟨(splitSubst v t l).1 ++ ((splitSubst v t l).2, v', tk)
            :: (Decomp.substValue v t ⟨ps, tl⟩).pieces,
         (Decomp.substValue v t ⟨ps, tl⟩).tail⟩ := by
  simp [Decomp.substValue]

theorem tokenLike_head_append {tk : Str} (X : Str) (h : TokenLike tk) :
    (tk ++ X).head? = some '⟨' := by
  obtain ⟨body, rfl, -, -⟩ := h
  rfl

/-- Occurrences of `p` never straddle into a part beginning with `⟨`
when `p` has `⟨` at most as its first character. -/
theorem noCross_into_open {p A B : Str} (hp : '⟨' ∉ p.tail)
    (hB : B.head? = some '⟨') : NoCross p A B := by
  intro p₁ p₂ hsplit h1 h2
  rintro ⟨-, hpre⟩
  have hhead : p₂.head? = some '⟨' := by
    cases p₂ with
    | nil => exact absurd rfl h2
    | cons a b =>
      obtain ⟨u, hu⟩ := hpre
      rw [← hu] at hB
      simpa using hB
  have hmem : '⟨' ∈ p₂ := by
    cases p₂ with
    | nil => exact absurd rfl h2
    | cons a b =>
      simp only [List.head?_cons, Option.some.injEq] at hhead
      rw [← hhead]
      exact List.mem_cons_self a b
  have htail : p₂ <:+ p.tail := by
    cases p₁ with
    | nil => exact absurd rfl h1
    | cons a p₁' =>
      rw [hsplit]
      exact ⟨p₁', rfl⟩
  exact hp (htail.subset hmem)

/-- Occurrences of `p` never straddle out of a part ending with `⟩`
when `p` has `⟩` at most as its last character. -/
theorem noCross_out_of_close {p A B : Str} (hp : '⟩' ∉ p.dropLast)
    (hA : A.getLast? = some '⟩') : NoCross p A B := by
  intro p₁ p₂ hsplit h1 h2
  rintro ⟨hsuf, -⟩
  have hlast : p₁.getLast? = some '⟩' := by
    obtain ⟨u, hu⟩ := hsuf
    rw [← hu, List.getLast?_append_of_ne_nil _ h1] at hA
    exact hA
  have hmem : '⟩' ∈ p₁ := by
    have hne := h1
    rw [List.getLast?_eq_getLast _ hne] at hlast
    simp only [Option.some.injEq] at hlast
    rw [← hlast]
    exact List.getLast_mem hne
  have hpp : p₁ <+: p.dropLast := by
    rw [hsplit]
    cases hq : p₂ with
    | nil => exact absurd hq h2
    | cons a b =>
      rw [show (p₁ ++ a :: b : Str).dropLast = p₁ ++ (a :: b).dropLast from
          List.dropLast_append_of_ne_nil _ (by simp)]
      exact List.prefix_append _ _
  exact hp (hpp.subset hmem)

/-- One `str.replace` pass on the flattened text is `substValue` on the
decomposition, provided `v` contains no token delimiter and does not
occur inside any token piece. -/
theorem substValue_flat {v : Str} (t : Str) (hv : v ≠ [])
    (hvo : '⟨' ∉ v) (hvc : '⟩' ∉ v) :
    ∀ (ps : List Piece) (tl : Str),
      (∀ p ∈ ps, TokenLike p.2.2 ∧ ¬ v <:+: p.2.2) →
      (Decomp.substValue v t ⟨ps, tl⟩).flat
        = replaceAll v t (Decomp.flat ⟨ps, tl⟩) := by
  intro ps
  induction ps with
  | nil =>
    intro tl _
    rw [Decomp.flat_nil, substValue_nil]
    show ((splitSubst v t tl).1.map fun p => p.1 ++ p.2.2).flatten
        ++ (splitSubst v t tl).2 = replaceAll v t tl
    exact splitSubst_flat v t tl
  | cons p ps ih =>
    intro tl htok
    obtain ⟨l, v', tk⟩ := p
    obtain ⟨htl, hnotin⟩ := htok (l, v', tk) (List.mem_cons_self _ _)
    have htok' : ∀ q ∈ ps, TokenLike q.2.2 ∧ ¬ v <:+: q.2.2 := fun q hq =>
      htok q (List.mem_cons_of_mem _ hq)
    have hnc1 : NoCross v l (tk ++ Decomp.flat ⟨ps, tl⟩) :=
      noCross_into_open (fun hm => hvo (List.tail_subset v hm))
        (tokenLike_head_append _ htl)
    have hnc2 : NoCross v tk (Decomp.flat ⟨ps, tl⟩) :=
      noCross_out_of_close (fun hm => hvc (List.dropLast_subset v hm))
        (tokenLike_getLast htl)
    rw [Decomp.flat_cons,
      replaceAll_append t hv l.length l _ (le_refl _) hnc1,
      replaceAll_append t hv tk.length tk _ (le_refl _) hnc2,
      replaceAll_of_not_infix t hnotin, ← ih tl htok',
      substValue_cons, ← splitSubst_flat v t l]
    unfold Decomp.flat
    simp [List.append_assoc]

/-- `substValue` preserves the original (pre-substitution) text. -/
theorem substValue_orig (v t : Str) :
    ∀ (ps : List Piece) (tl : Str),
      (Decomp.substValue v t ⟨ps, tl⟩).orig = Decomp.orig ⟨ps, tl⟩ := by
  intro ps
  induction ps with
  | nil =>
    intro tl
    rw [Decomp.orig_nil, substValue_nil]
    show ((splitSubst v t tl).1.map fun p => p.1 ++ p.2.1).flatten
        ++ (splitSubst v t tl).2 = tl
    exact splitSubst_orig v t tl
  | cons p ps ih =>
    intro tl
    obtain ⟨l, v', tk⟩ := p
    rw [Decomp.orig_cons, substValue_cons, ← ih tl]
    conv_rhs => rw [← splitSubst_orig v t l]
    unfold Decomp.orig
    simp [List.append_assoc]

/-- Every piece of `substValue` is a `(v, t)` piece or carries over a
`(value, token)` pair of the original decomposition. -/
theorem substValue_pairs (v t : Str) (d : Decomp) :
    ∀ q ∈ (d.substValue v t).pieces,
      q.2 = (v, t) ∨ ∃ p ∈ d.pieces, q.2 = p.2 := by
  intro q hq
  simp only [Decomp.substValue, List.mem_append, List.mem_flatMap] at hq
  rcases hq with ⟨p, hp, hq⟩ | hq
  · simp only [List.mem_append, List.mem_cons] at hq
    rcases hq with hq | hq | hq
    · obtain ⟨h1, h2⟩ := splitSubst_pairs v t p.1 q hq
      exact Or.inl (by rw [← h1, ← h2])
    · exact Or.inr ⟨p, hp, by rw [hq]⟩
    · simp at hq
  · obtain ⟨h1, h2⟩ := splitSubst_pairs v t d.tail q hq
    exact Or.inl (by rw [← h1, ← h2])

/-- No literal of a decomposition contains `u`. -/
def Decomp.NoLit (u : Str) (d : Decomp) : Prop :=
  (∀ p ∈ d.pieces, ¬ u <:+: p.1) ∧ ¬ u <:+: d.tail

/-- After a `substValue v t` pass, `v` occurs in no literal. -/
theorem substValue_noLit_self {v : Str} (t : Str) (hv : v ≠ []) (d : Decomp) :
    (d.substValue v t).NoLit v := by
  constructor
  · intro q hq
    simp only [Decomp.substValue, List.mem_append, List.mem_flatMap] at hq
    rcases hq with ⟨p, -, hq⟩ | hq
    · simp only [List.mem_append, List.mem_cons] at hq
      rcases hq with hq | hq | hq
      · exact (splitSubst_noLeak t hv p.1).1 q hq
      · rw [hq]
        exact (splitSubst_noLeak t hv p.1).2
      · simp at hq
    · exact (splitSubst_noLeak t hv d.tail).1 q hq
  · exact (splitSubst_noLeak t hv d.tail).2

/-- A `substValue v t` pass cannot re-create an occurrence of another
value `u` inside a literal: new literals are chunks of old ones. -/
theorem substValue_noLit_pres {u : Str} (v t : Str) (d : Decomp)
    (h : d.NoLit u) : (d.substValue v t).NoLit u := by
  constructor
  · intro q hq
    simp only [Decomp.substValue, List.mem_append, List.mem_flatMap] at hq
    rcases hq with ⟨p, hp, hq⟩ | hq
    · simp only [List.mem_append, List.mem_cons] at hq
      rcases hq with hq | hq | hq
      · intro hu
        exact h.1 p hp (hu.trans ((splitSubst_chunks_sub v t p.1).1 q hq))
      · intro hu
        rw [hq] at hu
        exact h.1 p hp (hu.trans (splitSubst_chunks_sub v t p.1).2)
      · simp at hq
    · intro hu
      exact h.2 (hu.trans ((splitSubst_chunks_sub v t d.tail).1 q hq))
  · intro hu
    exact h.2 (hu.trans (splitSubst_chunks_sub v t d.tail).2)

/-! ### Resolving a token back into a decomposition -/

/-- Prepend a string to the first literal of a split body. -/
def prependLit (x : Str) : List Piece × Str → List Piece × Str
  | ([], tl) => ([], x ++ tl)
  | ((l, v', t') :: ps, tl) => ((x ++ l, v', t') :: ps, tl)

theorem prependLit_nil (x : Str) (tl : Str) :
    prependLit x ([], tl) = ([], x ++ tl) := rfl

theorem prependLit_cons (x l v' t' : Str) (ps : List Piece) (tl : Str) :
    prependLit x ((l, v', t') :: ps, tl) = ((x ++ l, v', t') :: ps, tl) := rfl

theorem prependLit_flat_eq (x : Str) (r : List Piece × Str) :
    ((prependLit x r).1.map fun p => p.1 ++ p.2.2).flatten
        ++ (prependLit x r).2
      = x ++ ((r.1.map fun p => p.1 ++ p.2.2).flatten ++ r.2) := by
  obtain ⟨ps, tl⟩ := r
  cases ps with
  | nil => simp [prependLit]
  | cons q qs =>
    obtain ⟨l, v', t'⟩ := q
    simp [prependLit, List.append_assoc]

theorem prependLit_orig_eq (x : Str) (r : List Piece × Str) :
    ((prependLit x r).1.map fun p => p.1 ++ p.2.1).flatten
        ++ (prependLit x r).2
      = x ++ ((r.1.map fun p => p.1 ++ p.2.1).flatten ++ r.2) := by
  obtain ⟨ps, tl⟩ := r
  cases ps with
  | nil => simp [prependLit]
  | cons q qs =>
    obtain ⟨l, v', t'⟩ := q
    simp [prependLit, List.append_assoc]

/-- Merge back (resolve) every piece whose token is `t`, splicing its
literal and value into the following literal. -/
def mergeTokGo (t : Str) : List Piece → Str → List Piece × Str
  | [], tl => ([], tl)
  | (l, v', t') :: ps, tl =>
    let r := mergeTokGo t ps tl
    if t' = t then prependLit (l ++ v') r
    else ((l, v', t') :: r.1, r.2)

def Decomp.mergeTok (t : Str) (d : Decomp) : Decomp :=
  ⟨(mergeTokGo t d.pieces d.tail).1, (mergeTokGo t d.pieces d.tail).2⟩

/-- `mergeTok` preserves the original text. -/
theorem mergeTok_orig (t : Str) :
    ∀ (ps : List Piece) (tl : Str),
      Decomp.orig ⟨(mergeTokGo t ps tl).1, (mergeTokGo t ps tl).2⟩
        = Decomp.orig ⟨ps, tl⟩ := by
  intro ps
  induction ps with
  | nil => intro tl; rfl
  | cons p ps ih =>
    intro tl
    obtain ⟨l, v', tk⟩ := p
    rw [Decomp.orig_cons]
    simp only [mergeTokGo]
    by_cases h : tk = t
    · rw [if_pos h]
      show ((prependLit (l ++ v') (mergeTokGo t ps tl)).1.map
          fun p => p.1 ++ p.2.1).flatten
          ++ (prependLit (l ++ v') (mergeTokGo t ps tl)).2 = _
      rw [prependLit_orig_eq,
        show ((mergeTokGo t ps tl).1.map fun p => p.1 ++ p.2.1).flatten
            ++ (mergeTokGo t ps tl).2
          = Decomp.orig ⟨(mergeTokGo t ps tl).1, (mergeTokGo t ps tl).2⟩
          from rfl,
        ih tl, List.append_assoc]
    · rw [if_neg h]
      show Decomp.orig ⟨(l, v', tk) :: (mergeTokGo t ps tl).1,
        (mergeTokGo t ps tl).2⟩ = _
      rw [Decomp.orig_cons, ih tl]

theorem prependLit_pairs (x : Str) (r : List Piece × Str) :
    ∀ q ∈ (prependLit x r).1, ∃ q' ∈ r.1, q.2 = q'.2 := by
  obtain ⟨ps, tl⟩ := r
  cases ps with
  | nil => intro q hq; simp [prependLit] at hq
  | cons p ps =>
    obtain ⟨l, v', t'⟩ := p
    intro q hq
    rw [prependLit_cons] at hq
    simp only [List.mem_cons] at hq
    rcases hq with rfl | hq
    · exact ⟨(l, v', t'), List.mem_cons_self _ _, rfl⟩
    · exact ⟨q, List.mem_cons_of_mem _ hq, rfl⟩

/-- After `mergeTok t`, no piece carries token `t`, and every remaining
`(value, token)` pair was already present. -/
theorem mergeTok_pairs (t : Str) :
    ∀ (ps : List Piece) (tl : Str), ∀ q ∈ (mergeTokGo t ps tl).1,
      q.2.2 ≠ t ∧ ∃ p ∈ ps, q.2 = p.2 := by
  intro ps
  induction ps with
  | nil => intro tl q hq; simp [mergeTokGo] at hq
  | cons p ps ih =>
    intro tl q hq
    obtain ⟨l, v', tk⟩ := p
    simp only [mergeTokGo] at hq
    by_cases h : tk = t
    · rw [if_pos h] at hq
      obtain ⟨q', hq', heq⟩ := prependLit_pairs _ _ q hq
      obtain ⟨hne, p0, hp0, hpe⟩ := ih tl q' hq'
      exact ⟨by rw [heq]; exact hne, p0, List.mem_cons_of_mem _ hp0,
        by rw [heq, hpe]⟩
    · rw [if_neg h] at hq
      simp only [List.mem_cons] at hq
      rcases hq with rfl | hq
      · exact ⟨h, (l, v', tk), List.mem_cons_self _ _, rfl⟩
      · obtain ⟨hne, p0, hp0, hpe⟩ := ih tl q hq
        exact ⟨hne, p0, List.mem_cons_of_mem _ hp0, hpe⟩

/-- Resolving token `t` (replacing it by the common value `v` of its
pieces) on the flattened text is `mergeTok` on the decomposition. -/
theorem mergeTok_flat {t v : Str} (htlt : TokenLike t) :
    ∀ (ps : List Piece) (tl : Str),
      (∀ p ∈ ps, TokenLike p.2.2) →
      (∀ p ∈ ps, p.2.2 = t → p.2.1 = v) →
      (∀ p ∈ ps, p.2.2 ≠ t → ¬ t <:+: p.2.2) →
      (∀ p ∈ ps, ¬ t <:+: p.1) →
      ¬ t <:+: tl →
      Decomp.flat ⟨(mergeTokGo t ps tl).1, (mergeTokGo t ps tl).2⟩
        = replaceAll t v (Decomp.flat ⟨ps, tl⟩) := by
  have tne : t ≠ [] := tokenLike_ne_nil htlt
  intro ps
  induction ps with
  | nil =>
    intro tl _ _ _ _ htl
    rw [Decomp.flat_nil, replaceAll_of_not_infix v htl]
    rfl
  | cons p ps ih =>
    intro tl htok hpair hoth hlit htl
    obtain ⟨l, v', tk⟩ := p
    have htok0 : TokenLike tk := htok (l, v', tk) (List.mem_cons_self _ _)
    have hlit0 : ¬ t <:+: l := hlit (l, v', tk) (List.mem_cons_self _ _)
    have hih := ih tl (fun q hq => htok q (List.mem_cons_of_mem _ hq))
      (fun q hq => hpair q (List.mem_cons_of_mem _ hq))
      (fun q hq => hoth q (List.mem_cons_of_mem _ hq))
      (fun q hq => hlit q (List.mem_cons_of_mem _ hq)) htl
    have hnc1 : NoCross t l (tk ++ Decomp.flat ⟨ps, tl⟩) :=
      noCross_into_open (tokenLike_no_open_tail htlt)
        (tokenLike_head_append _ htok0)
    have hnc2 : NoCross t tk (Decomp.flat ⟨ps, tl⟩) :=
      noCross_out_of_close (tokenLike_no_close_dropLast htlt)
        (tokenLike_getLast htok0)
    rw [Decomp.flat_cons,
      replaceAll_append v tne l.length l _ (le_refl _) hnc1,
      replaceAll_append v tne tk.length tk _ (le_refl _) hnc2,
      replaceAll_of_not_infix v hlit0, ← hih]
    simp only [mergeTokGo]
    by_cases h : tk = t
    · rw [if_pos h]
      subst h
      have hv' : v' = v := hpair (l, v', tk) (List.mem_cons_self _ _) rfl
      subst hv'
      rw [replaceAll_self v' tne]
      show ((prependLit (l ++ v') (mergeTokGo tk ps tl)).1.map
          fun p => p.1 ++ p.2.2).flatten
          ++ (prependLit (l ++ v') (mergeTokGo tk ps tl)).2 = _
      rw [prependLit_flat_eq,
        show ((mergeTokGo tk ps tl).1.map fun p => p.1 ++ p.2.2).flatten
            ++ (mergeTokGo tk ps tl).2
          = Decomp.flat ⟨(mergeTokGo tk ps tl).1, (mergeTokGo tk ps tl).2⟩
          from rfl, List.append_assoc]
    · rw [if_neg h,
        replaceAll_of_not_infix v (hoth (l, v', tk)
          (List.mem_cons_self _ _) h)]
      show Decomp.flat ⟨(l, v', tk) :: (mergeTokGo t ps tl).1,
        (mergeTokGo t ps tl).2⟩ = _
      rw [Decomp.flat_cons]

/-- Every literal of a decomposition occurs inside its original text. -/
theorem lits_infix_orig :
    ∀ (ps : List Piece) (tl : Str),
      (∀ p ∈ ps, p.1 <:+: Decomp.orig ⟨ps, tl⟩) ∧
      tl <:+: Decomp.orig ⟨ps, tl⟩ := by
  intro ps
  induction ps with
  | nil =>
    intro tl
    rw [Decomp.orig_nil]
    exact ⟨by simp, List.infix_refl tl⟩
  | cons p ps ih =>
    intro tl
    obtain ⟨l, v, tk⟩ := p
    rw [Decomp.orig_cons]
    have hsuf : Decomp.orig ⟨ps, tl⟩ <:+
        l ++ (v ++ Decomp.orig ⟨ps, tl⟩) :=
      ⟨l ++ v, by simp [List.append_assoc]⟩
    constructor
    · intro q hq
      simp only [List.mem_cons] at hq
      rcases hq with rfl | hq
      · exact (List.prefix_append _ _).isInfix
      · exact ((ih tl).1 q hq).trans hsuf.isInfix
    · exact ((ih tl).2).trans hsuf.isInfix

/-- Two token-like strings can only occur inside one another by being
equal: the delimiters `⟨`/`⟩` appear exactly at the ends. -/
theorem tokenLike_infix_eq {a b : Str} (ha : TokenLike a) (hb : TokenLike b)
    (h : a <:+: b) : a = b := by
  obtain ⟨A, rfl, hAo, hAc⟩ := ha
  obtain ⟨B, hbe, hBo, hBc⟩ := hb
  obtain ⟨s, u, hsu⟩ := h
  rw [hbe] at hsu
  cases s with
  | cons c s' =>
    exfalso
    have hc : c = '⟨' := by
      have h0 := congrArg List.head? hsu
      simpa using h0
    subst hc
    have heq : s' ++ ('⟨' :: (A ++ ['⟩'])) ++ u = B ++ ['⟩'] := by
      have h0 := hsu
      rw [show (('⟨' :: s') ++ '⟨' :: (A ++ ['⟩']) ++ u : Str)
          = '⟨' :: (s' ++ '⟨' :: (A ++ ['⟩']) ++ u) from by simp] at h0
      exact (List.cons.injEq _ _ _ _).mp h0 |>.2
    have hmem : '⟨' ∈ B ++ ['⟩'] := by
      rw [← heq]
      simp
    simp only [List.mem_append, List.mem_singleton] at hmem
    rcases hmem with h1 | h1
    · exact hBo h1
    · exact absurd h1 (by decide)
  | nil =>
    simp only [List.nil_append] at hsu
    cases u with
    | nil =>
      rw [List.append_nil] at hsu
      rw [hbe, hsu]
    | cons d u' =>
      exfalso
      have heq : A ++ '⟩' :: (d :: u') = B ++ ['⟩'] := by
        have h0 := hsu
        rw [show (('⟨' :: (A ++ ['⟩'])) ++ d :: u' : Str)
            = '⟨' :: (A ++ '⟩' :: (d :: u')) from by simp] at h0
        exact (List.cons.injEq _ _ _ _).mp h0 |>.2
      have hlen : A.length < B.length := by
        have h0 := congrArg List.length heq
        simp only [List.length_append, List.length_cons,
          List.length_nil] at h0
        omega
      have hidx1 : A.length < (A ++ '⟩' :: (d :: u')).length := by
        simp
      have hv1 : getElem (A ++ '⟩' :: (d :: u')) A.length hidx1 = '⟩' := by
        rw [List.getElem_append_right (le_refl A.length)]
        simp
      have hidx2 : A.length < (B ++ ['⟩']).length := by
        simp only [List.length_append, List.length_cons, List.length_nil]
        omega
      have hv2 : getElem (B ++ ['⟩']) A.length hidx2 = '⟩' :=
        (List.getElem_of_eq heq hidx1).symm.trans hv1
      rw [List.getElem_append_left hlen] at hv2
      exact hBc (by rw [← hv2]; exact List.getElem_mem _)

/-- Scanning text that begins with a full valid token reports exactly
that token and continues after it. -/
theorem findTokensGo_match {tk : Str} (hv : validToken tk = true) :
    ∀ (R : Str) (i fuel : Nat), (tk ++ R).length ≤ fuel →
      findTokensGo fuel (tk ++ R) i
        = (tk, i, i + tk.length)
            :: findTokensGo (fuel - tk.length) R (i + tk.length) := by
  intro R i fuel hlen
  obtain ⟨body, hbody, -, -⟩ := validToken_tokenLike hv
  obtain ⟨c, tk', hct⟩ : ∃ c tk', tk = c :: tk' := by
    rw [hbody]; exact ⟨_, _, rfl⟩
  cases fuel with
  | zero =>
    rw [hct] at hlen
    simp at hlen
  | succ f =>
    rw [hct] at hlen ⊢
    simp only [List.cons_append, List.length_cons] at hlen ⊢
    have htt : tryTokenAt (c :: (tk' ++ R)) = some (tk'.length + 1) := by
      have h0 := tryTokenAt_of_valid_pre hv (List.prefix_append tk R)
      rw [hct] at h0
      simpa using h0
    simp only [findTokensGo, htt]
    rw [List.take_succ_cons, List.take_left, Nat.add_sub_cancel,
      List.drop_left]
    have hlen' : tk'.length + R.length + 1 ≤ f + 1 := by
      have h0 : (tk' ++ R).length = tk'.length + R.length := by simp
      omega
    have hfuel : R.length ≤ f := by omega
    have hfuel2 : R.length ≤ f + 1 - (tk'.length + 1) := by omega
    rw [findTokensGo_fuel f R _ hfuel _ hfuel2]

/-- The scanner over a well-formed decomposition reports exactly the
decomposition's tokens, in order. -/
theorem findTokens_flat :
    ∀ (ps : List Piece) (tl : Str) (i fuel : Nat),
      (Decomp.flat ⟨ps, tl⟩).length ≤ fuel →
      (∀ p ∈ ps, validToken p.2.2 = true) →
      (∀ p ∈ ps, ∀ t : Str, validToken t = true → ¬ t <:+: p.1) →
      (∀ t : Str, validToken t = true → ¬ t <:+: tl) →
      (findTokensGo fuel (Decomp.flat ⟨ps, tl⟩) i).map (fun m => m.1)
        = ps.map fun p => p.2.2 := by
  intro ps
  induction ps with
  | nil =>
    intro tl i fuel hfuel _ _ htl
    rw [Decomp.flat_nil] at *
    rw [findTokensGo_eq_nil fuel tl i hfuel htl]
    simp
  | cons p ps ih =>
    intro tl i fuel hfuel htok hlit htl
    obtain ⟨l, v', tk⟩ := p
    have htk : validToken tk = true := htok (l, v', tk) (List.mem_cons_self _ _)
    have hlit0 := hlit (l, v', tk) (List.mem_cons_self _ _)
    rw [Decomp.flat_cons] at *
    -- skip the token-free literal l
    have hskip := findTokensGo_skip l (tk ++ Decomp.flat ⟨ps, tl⟩) i fuel
      (by simpa using hfuel)
      (noTokenStart hlit0 (Or.inr (tokenLike_head_append _
        (validToken_tokenLike htk))))
    rw [hskip]
    -- match the token tk
    have hfuel2 : (tk ++ Decomp.flat ⟨ps, tl⟩).length ≤ fuel - l.length := by
      have h0 : (l ++ (tk ++ Decomp.flat ⟨ps, tl⟩)).length
          = l.length + (tk ++ Decomp.flat ⟨ps, tl⟩).length := by simp
      omega
    rw [findTokensGo_match htk _ _ _ hfuel2]
    simp only [List.map_cons, List.cons.injEq]
    refine ⟨trivial, ?_⟩
    exact ih tl (i + l.length + tk.length) (fuel - l.length - tk.length)
      (by
        have h0 : (tk ++ Decomp.flat ⟨ps, tl⟩).length
            = tk.length + (Decomp.flat ⟨ps, tl⟩).length := by simp
        omega)
      (fun q hq => htok q (List.mem_cons_of_mem _ hq))
      (fun q hq => hlit q (List.mem_cons_of_mem _ hq)) htl

/-! ## The vault

Translated from `vault.py`, `backends/memory_backend.py`,
`audit_log.py`, `access_control.py` and `alert_engine.py`.  AES-GCM
ciphertexts are modelled as (plaintext, encrypting session): decryption
succeeds exactly when performed with the key derived from the same
session id, which is what PBKDF2 key derivation plus the GCM
authentication tag guarantees.  Timestamps on audit records and alerts
carry no behaviour (no query filters on them), so they are omitted;
`created_at`/`expires_at` are modelled as `Nat` minutes. -/

/-- `access_control.Caller` constants. -/
def callerOWNER : Str := "OWNER".toList
def callerRESOLVER : Str := "RESOLVER".toList

/-- Vault errors.  `TokenExpiredError` is a subclass of
`VaultAccessError` in `exceptions.py`; `cryptoFail` stands for logic
errors (e.g. `ValueError` from AES-GCM) which are *not*
`VaultAccessError`s. -/
inductive VErr
  | accessDenied (reason : Str)
  | notFound
  | revokedErr
  | expired
  | cryptoFail
  deriving DecidableEq, Repr

/-- Which model errors correspond to Python `VaultAccessError`
(including its subclass `TokenExpiredError`). -/
def VErr.isVaultAccess : VErr → Bool
  | .cryptoFail => false
  | _ => true

structure VaultEntry where
  encValue : Str      -- plaintext carried by the AES-GCM ciphertext
  encSession : Str    -- session whose derived key encrypted it
  session_id : Str
  data_type : Str
  family : Str
  alert_level : Str
  created_at : Nat
  expires_at : Option Nat
  revoked : Bool
  deriving DecidableEq, Repr

/-- `encrypt_value(plaintext, session_id)`. -/
def encryptValue (plaintext sess : Str) : Str × Str := (plaintext, sess)

/-- `decrypt_value(ciphertext, session_id)`: succeeds iff the same
session key is used (GCM tag check). -/
def decryptValue (encValue encSession keySession : Str) : Option Str :=
  if encSession = keySession then some encValue else none

structure AuditRec where
  operation : Str
  token : Str        -- stored pre-masked
  session_id : Str   -- stored pre-masked
  caller : Str
  result : Str
  data_type : Option Str
  family : Option Str
  count : Option Nat
  deriving DecidableEq, Repr

/-- `audit_log._mask_token`. -/
def maskToken (token : Str) : Str :=
  if 16 < token.length then token.take 16 ++ "...".toList else token

/-- `audit_log._mask_session`. -/
def maskSession (s : Str) : Str :=
  if 12 < s.length then s.take 12 ++ "...".toList else s

/-- `AuditLog.record` (the entry it appends). -/
def auditRecord (op token sess caller result : Str)
    (dt fam : Option Str) (count : Option Nat) : AuditRec :=
  ⟨op, maskToken token, maskSession sess, caller, result, dt, fam, count⟩

structure Alert where
  data_type : Str
  family : Str
  token : Str        -- token[:16] + "..."
  session_id : Str   -- session_id[:12] + "..."
  hasRecommendation : Bool
  deriving DecidableEq, Repr

/-- `alert_engine._ROTATION_TYPES`. -/
def rotationTypes : List Str :=
  ["OPENAI_KEY", "AWS_ACCESS_KEY", "AWS_SECRET_KEY", "GITHUB_TOKEN",
   "GOOGLE_API_KEY", "STRIPE_KEY", "SLACK_TOKEN", "TWILIO_KEY",
   "JWT_TOKEN", "BEARER_TOKEN", "OAUTH_TOKEN", "GENERIC_PASSWORD",
   "PRIVATE_RSA_KEY", "SSH_PRIVATE_KEY", "DB_CONNECTION_STRING",
   "REDIS_URL", "DOCKER_SECRET", "KUBERNETES_SECRET"].map String.toList

structure VaultState where
  backend : List (Str × VaultEntry)
  audit : List AuditRec
  alertsEnabled : Bool
  criticalFamilies : List Str
  recommendRotation : Bool
  alerts : List Alert
  expiryMins : Nat
  deriving DecidableEq, Repr

/-- Fresh vault with the gateway's default configuration
(`_CRITICAL_FAMILIES = {SECRETS, FINANCIAL}`). -/
def initialVault (expiryMins : Nat) : VaultState :=
  ⟨[], [], true, ["SECRETS".toList, "FINANCIAL".toList], true, [], expiryMins⟩

/-- Python dict lookup on the backend store. -/
def lookupEntry : List (Str × VaultEntry) → Str → Option VaultEntry
  | [], _ => none
  | (t, e) :: rest, token => if t = token then some e else lookupEntry rest token

/-- `MemoryBackend.store`: idempotent for the same session, a collision
`ValueError` for a different session. -/
def backendStore (b : List (Str × VaultEntry)) (token : Str)
    (entry : VaultEntry) : Except Unit (List (Str × VaultEntry)) :=
  match lookupEntry b token with
  | some existing =>
    if existing.session_id = entry.session_id then .ok b
    else .error ()
  | none => .ok (b ++ [(token, entry)])

/-- `MemoryBackend.revoke`. -/
def backendRevoke (b : List (Str × VaultEntry)) (token : Str) :
    List (Str × VaultEntry) :=
  b.map fun p => if p.1 = token then (p.1, { p.2 with revoked := true }) else p

/-- `MemoryBackend.purge`: delete all entries of the session. -/
def backendPurge (b : List (Str × VaultEntry)) (sess : Str) :
    List (Str × VaultEntry) × Nat :=
  (b.filter fun p => ¬ p.2.session_id = sess,
   (b.filter fun p => p.2.session_id = sess).length)

/-- `MemoryBackend.list_tokens_for_session`. -/
def listTokensForSession (b : List (Str × VaultEntry)) (sess : Str) :
    List Str :=
  (b.filter fun p => p.2.session_id = sess).map fun p => p.1

/-- `AccessControl.check`: `some reason` on denial. -/
def accessCheck (caller reqSession tokSession : Str) : Option Str :=
  if caller ≠ callerOWNER ∧ caller ≠ callerRESOLVER then
    some "caller_not_allowed".toList
  else if reqSession ≠ tokSession then some "session_mismatch".toList
  else none

/-- `AlertEngine.check`. -/
def alertCheck (dt fam lvl token sess : Str) (st : VaultState) : VaultState :=
  if ¬ st.alertsEnabled then st
  else if lvl = "CRITICAL".toList ∨ fam ∈ st.criticalFamilies then
    { st with alerts := st.alerts ++
      [⟨dt, fam, token.take 16 ++ "...".toList, sess.take 12 ++ "...".toList,
        st.recommendRotation ∧ dt ∈ rotationTypes⟩] }
  else st

/-- The entry `Vault.store` builds. -/
def storeEntry (now : Nat) (real sess : Str) (expiryMins : Nat)
    (dtype fam lvl : Str) : VaultEntry :=
  let enc := encryptValue real sess
  ⟨enc.1, enc.2, sess, dtype, fam, lvl, now,
   if 0 < expiryMins then some (now + expiryMins) else none, false⟩

/-- `Vault.store`, with the random hex of `generate_token` passed in.
On a cross-session token collision the backend raises before any audit
record is written (state unchanged). -/
def vaultStore (now : Nat) (real dtype fam lvl sess hex : Str)
    (st : VaultState) : VaultState × Except Unit Str :=
  let token := mkToken dtype hex
  match backendStore st.backend token
      (storeEntry now real sess st.expiryMins dtype fam lvl) with
  | .error _ => (st, .error ())
  | .ok b' =>
    (alertCheck dtype fam lvl token sess
      { st with backend := b', audit := st.audit ++
        [auditRecord "store".toList token sess callerOWNER "success".toList
          (some dtype) (some fam) none] }, .ok token)

/-- Unfolding equation for a successful store. -/
theorem vaultStore_ok {now : Nat} {real dtype fam lvl sess hex : Str}
    {st : VaultState} {b' : List (Str × VaultEntry)}
    (hbs : backendStore st.backend (mkToken dtype hex)
      (storeEntry now real sess st.expiryMins dtype fam lvl) = .ok b') :
    vaultStore now real dtype fam lvl sess hex st
      = (alertCheck dtype fam lvl (mkToken dtype hex) sess
          { st with backend := b', audit := st.audit ++
            [auditRecord "store".toList (mkToken dtype hex) sess callerOWNER
              "success".toList (some dtype) (some fam) none] },
         .ok (mkToken dtype hex)) := by
  simp only [vaultStore]
  rw [hbs]

/-- Unfolding equation for a failing store. -/
theorem vaultStore_err {now : Nat} {real dtype fam lvl sess hex : Str}
    {st : VaultState} {u : Unit}
    (hbs : backendStore st.backend (mkToken dtype hex)
      (storeEntry now real sess st.expiryMins dtype fam lvl) = .error u) :
    vaultStore now real dtype fam lvl sess hex st = (st, .error ()) := by
  simp only [vaultStore]
  rw [hbs]

/-- `Vault.retrieve`: lookup, access control, revocation, expiry,
decrypt — each failure audited then raised; a decrypt failure would
raise before the success audit record. -/
def vaultRetrieve (now : Nat) (token sess caller : Str) (st : VaultState) :
    VaultState × Except VErr Str :=
  match lookupEntry st.backend token with
  | none =>
    ({ st with audit := st.audit ++
      [auditRecord "retrieve".toList token sess caller "not_found".toList
        none none none] }, .error .notFound)
  | some entry =>
    match accessCheck caller sess entry.session_id with
    | some reason =>
      ({ st with audit := st.audit ++
        [auditRecord "retrieve".toList token sess caller "denied".toList
          none none none] }, .error (.accessDenied reason))
    | none =>
      if entry.revoked then
        ({ st with audit := st.audit ++
          [auditRecord "retrieve".toList token sess caller "revoked".toList
            none none none] }, .error .revokedErr)
      else if (match entry.expires_at with
               | some exp => decide (exp < now)
               | none => false) then
        ({ st with audit := st.audit ++
          [auditRecord "retrieve".toList token sess caller "expired".toList
            none none none] }, .error .expired)
      else
        match decryptValue entry.encValue entry.encSession entry.session_id with
        | none => (st, .error .cryptoFail)
        | some real =>
          ({ st with audit := st.audit ++
            [auditRecord "retrieve".toList token sess caller
              "success".toList (some entry.data_type) none none] }, .ok real)

/-- `Vault.revoke`: soft-revoke every token of the session, one audit
record with the count. -/
def vaultRevoke (sess : Str) (st : VaultState) : VaultState × Nat :=
  let tokens := listTokensForSession st.backend sess
  ({ st with
      backend := (tokens.foldl (fun b t => backendRevoke b t) st.backend),
      audit := st.audit ++
        [auditRecord "revoke".toList [] sess callerOWNER "success".toList
          none none (some tokens.length)] },
   tokens.length)

/-- `Vault.purge`: hard-delete every entry of the session, one audit
record with the count. -/
def vaultPurge (sess : Str) (st : VaultState) : VaultState × Nat :=
  let r := backendPurge st.backend sess
  ({ st with
      backend := r.1,
      audit := st.audit ++
        [auditRecord "purge".toList [] sess callerOWNER "success".toList
          none none (some r.2)] },
   r.2)

/-- `AuditLog.get_entries(session_id=sess)` as used by
`Vault.get_audit_entries` (Python truthiness: an empty session id means
no filtering). -/
def auditView (st : VaultState) (sess : Str) : List AuditRec :=
  if sess = [] then st.audit
  else st.audit.filter fun e => e.session_id = maskSession sess

/-! ## The token resolver (`token_resolver.py`) -/

/-- `TokenResolver._resolve_text`'s loop over the reversed match list:
already-processed tokens are skipped; each new token is looked up with
`caller=RESOLVER`; on success every occurrence is replaced; a
`VaultAccessError` propagates when `strict_session` (else the token is
left); any other exception is swallowed when `leave_unresolved`. -/
def resolveLoop (strict leaveUnres : Bool) (now : Nat) (sess : Str) :
    List (Str × Nat × Nat) → List Str → Str → VaultState →
    VaultState × Except VErr Str
  | [], _, result, st => (st, .ok result)
  | (tok, _, _) :: rest, processed, result, st =>
    if tok ∈ processed then
      resolveLoop strict leaveUnres now sess rest processed result st
    else
      match vaultRetrieve now tok sess callerRESOLVER st with
      | (st', .ok real) =>
        resolveLoop strict leaveUnres now sess rest (tok :: processed)
          (replaceAll tok real result) st'
      | (st', .error e) =>
        if e.isVaultAccess then
          if strict then (st', .error e)
          else resolveLoop strict leaveUnres now sess rest (tok :: processed)
            result st'
        else
          if leaveUnres then
            resolveLoop strict leaveUnres now sess rest (tok :: processed)
              result st'
          else (st', .error (.accessDenied "resolve_failed".toList))

/-- `TokenResolver.resolve` on text content. -/
def resolveText (strict leaveUnres : Bool) (now : Nat) (text sess : Str)
    (st : VaultState) : VaultState × Except VErr Str :=
  let ms := findTokens text
  if ms = [] then (st, .ok text)
  else resolveLoop strict leaveUnres now sess ms.reverse [] text st

/-! ## The gateway facade (`privacy_data_security.py`)

`protect` is modelled over text input, with the scanner's output, the
session id and the token-hex supply passed in explicitly (the scanner,
`uuid.uuid4` and `secrets.token_hex` are the gateway's only inputs
besides the text). -/

structure ScanRes where
  value : Str
  dtype : Str
  family : Str
  alertLevel : Str
  deriving DecidableEq, Repr

structure ProtectResult where
  safe_content : Str
  session_id : Str
  items_vaulted : Nat
  alerts : List Alert
  scan_results : List ScanRes
  deriving DecidableEq, Repr

/-- `sorted(value_to_token.keys(), key=len, reverse=True)`: stable sort
by length, longest first (insertion sort with the ≥-by-length relation
is stable exactly like Python's sort). -/
def sortValsDesc (vt : List (Str × Str)) : List (Str × Str) :=
  List.insertionSort (fun a b => b.1.length ≤ a.1.length) vt

/-- `_substitute` on text content. -/
def substituteText (vt : List (Str × Str)) (content : Str) : Str :=
  (sortValsDesc vt).foldl (fun acc p => replaceAll p.1 p.2 acc) content

/-- Association lookup implementing `real in value_to_token`. -/
def lookupVal : List (Str × Str) → Str → Option Str
  | [], _ => none
  | (v, t) :: rest, key => if v = key then some t else lookupVal rest key

/-- Step 2 of `protect`: vault each finding once, building
`value_to_token` (one fresh hex consumed per new value). -/
def protectLoop (now : Nat) (sess : Str) :
    List ScanRes → List Str → List (Str × Str) → VaultState →
    VaultState × Except Unit (List (Str × Str))
  | [], _, acc, st => (st, .ok acc)
  | r :: rest, hexes, acc, st =>
    if (lookupVal acc r.value).isSome then
      protectLoop now sess rest hexes acc st
    else
      match vaultStore now r.value r.dtype r.family r.alertLevel sess
          (hexes.headD "00000000".toList) st with
      | (st', .ok token) =>
        protectLoop now sess rest hexes.tail (acc ++ [(r.value, token)]) st'
      | (st', .error e) => (st', .error e)

/-- The `value_to_token` map of `protect`, as a pure function of the
scan results and the hex supply. -/
def buildMapGo : List ScanRes → List Str → List (Str × Str) →
    List (Str × Str)
  | [], _, acc => acc
  | r :: rest, hexes, acc =>
    if (lookupVal acc r.value).isSome then buildMapGo rest hexes acc
    else buildMapGo rest hexes.tail
      (acc ++ [(r.value, mkToken r.dtype (hexes.headD "00000000".toList))])

def buildMap (rs : List ScanRes) (hexes : List Str) : List (Str × Str) :=
  buildMapGo rs hexes []

/-- `PrivacyDataSecurity.protect` (text input).  With no scan results
it returns the input unchanged with an *empty* alerts list; otherwise
it vaults, substitutes, and returns `self._vault.get_alerts()` — every
alert fired by the vault instance since construction. -/
def protect (rs : List ScanRes) (hexes : List Str) (sess : Str) (now : Nat)
    (input : Str) (st : VaultState) :
    VaultState × Except Unit ProtectResult :=
  if rs = [] then
    (st, .ok ⟨input, sess, 0, [], []⟩)
  else
    match protectLoop now sess rs hexes [] st with
    | (st', .ok vt) =>
      (st', .ok ⟨substituteText vt input, sess, vt.length, st'.alerts, rs⟩)
    | (st', .error e) => (st', .error e)

/-- `PrivacyDataSecurity.restore` on text content: delegates to the
resolver with the configured defaults `strict_session=True`,
`leave_unresolved=True`. -/
def restore (content sess : Str) (now : Nat) (st : VaultState) :
    VaultState × Except VErr Str :=
  resolveText true true now content sess st

/-! ## Session identifiers

`protect` builds `session_id = f"sess_{uuid.uuid4().hex[:8]}"`: the
prefix `sess_` followed by the first 8 lowercase-hex characters of the
uuid, i.e. 8 random nibbles. -/

def lowerHexDigits : Str := "0123456789abcdef".toList

def nibbleChar (n : Fin 16) : Char :=
  lowerHexDigits.get ⟨n.1, by
    have h16 := n.2
    have hlen : lowerHexDigits.length = 16 := by decide
    omega⟩

/-- `f"sess_{uuid.uuid4().hex[:8]}"` with the uuid's first 8 hex
nibbles passed explicitly. -/
def mkSessionId (nibbles : Fin 8 → Fin 16) : Str :=
  "sess_".toList ++ ((List.finRange 8).map fun i => nibbleChar (nibbles i))

/-! ## Sequences of vault operations -/

inductive VaultOp
  | store (now : Nat) (real dtype fam lvl sess hex : Str)
  | retrieve (now : Nat) (token sess caller : Str)
  | revoke (sess : Str)
  | purge (sess : Str)

def applyOp : VaultOp → VaultState → VaultState
  | .store now real dtype fam lvl sess hex, st =>
    (vaultStore now real dtype fam lvl sess hex st).1
  | .retrieve now token sess caller, st =>
    (vaultRetrieve now token sess caller st).1
  | .revoke sess, st => (vaultRevoke sess st).1
  | .purge sess, st => (vaultPurge sess st).1

def applyOps (ops : List VaultOp) (st : VaultState) : VaultState :=
  ops.foldl (fun s op => applyOp op s) st

/-! ## Credit-card detection (`pattern_engine.py`, `patterns/financial.py`)

`CREDIT_CARD_RE` is an alternation of five deterministic branches
(fixed-width digit groups with one optional `[\s\-]` separator between
groups), guarded by `(?<!\d)`/`(?!\d)`.  Within a branch the optional
separator cannot backtrack usefully (if the separator character is
present, the following digit group cannot start on it), so a greedy
scan is equivalent to the regex.  Engine behaviour for this pattern:
base confidence 0.70, CRITICAL, `luhn_validate` as validator;
validation failure multiplies the confidence by 0.3 and drops the
candidate when the result is below the sensitivity threshold. -/

def isSpaceWS (c : Char) : Bool :=
  c = ' ' ∨ c = '\t' ∨ c = '\n' ∨ c = '\r' ∨ c.toNat = 11 ∨ c.toNat = 12

def isSep (c : Char) : Bool := isSpaceWS c || c = '-'

/-- `luhn_validate(number)` from `financial.py`. -/
def luhnValidate (number : Str) : Bool :=
  let digits := (number.filter fun c => isDigit09 c).map fun c => c.toNat - 48
  if digits.length < 13 ∨ 19 < digits.length then false
  else
    let rev := digits.reverse
    let total := (rev.enum.map fun p =>
      if p.1 % 2 = 1 then
        (if 9 < 2 * p.2 then 2 * p.2 - 9 else 2 * p.2)
      else p.2).sum
    total % 10 = 0

def expectChar (a : Char) : Str → Option Str
  | c :: s => if c = a then some s else none
  | [] => none

def expectRange (lo hi : Char) : Str → Option Str
  | c :: s => if lo ≤ c ∧ c ≤ hi then some s else none
  | [] => none

def digitsN : Nat → Str → Option Str
  | 0, s => some s
  | _+1, [] => none
  | n+1, c :: s => if isDigit09 c then digitsN n s else none

/-- `[\s\-]?` (greedy). -/
def skipSep : Str → Str
  | [] => []
  | c :: r => if isSep c then r else c :: r

def sepThen4 (s : Str) : Option Str := digitsN 4 (skipSep s)

def visaB (s : Str) : Option Str :=
  ((expectChar '4' s).bind (digitsN 3)).bind sepThen4 |>.bind sepThen4
    |>.bind sepThen4

def mcB (s : Str) : Option Str :=
  (((expectChar '5' s).bind (expectRange '1' '5')).bind
    (digitsN 2)).bind sepThen4 |>.bind sepThen4 |>.bind sepThen4

def amexB (s : Str) : Option Str :=
  (((expectChar '3' s).bind fun r =>
      match r with
      | c :: r2 => if c = '4' ∨ c = '7' then some r2 else none
      | [] => none).bind
    (digitsN 2)).bind (fun r => digitsN 6 (skipSep r)) |>.bind
      fun r => digitsN 5 (skipSep r)

def discoverB (s : Str) : Option Str :=
  ((expectChar '6' s).bind fun r =>
    match ((expectChar '0' r).bind (expectChar '1')).bind (expectChar '1') with
    | some r2 => some r2
    | none => (expectChar '5' r).bind (digitsN 2)).bind
      sepThen4 |>.bind sepThen4 |>.bind sepThen4

def genericB (s : Str) : Option Str :=
  ((expectRange '2' '6' s).bind (digitsN 3)).bind sepThen4
    |>.bind sepThen4 |>.bind sepThen4

/-- One attempt of `CREDIT_CARD_RE` at the current position, given the
previous character (for the `(?<!\d)` lookbehind); returns the length
of the capture. -/
def ccMatchAt (prev : Option Char) (s : Str) : Option Nat :=
  if (match prev with | some c => isDigit09 c | none => false) then none
  else
    let tryB : Option Str → Option Nat := fun r =>
      match r with
      | some rem =>
        if (match rem.head? with | some c => isDigit09 c | none => false)
        then none
        else some (s.length - rem.length)
      | none => none
    match tryB (visaB s) with
    | some n => some n
    | none =>
      match tryB (mcB s) with
      | some n => some n
      | none =>
        match tryB (amexB s) with
        | some n => some n
        | none =>
          match tryB (discoverB s) with
          | some n => some n
          | none => tryB (genericB s)

/-- `CREDIT_CARD_RE.finditer`: captured values, leftmost
non-overlapping. -/
def ccFindAllGo : Nat → Option Char → Str → List Str
  | 0, _, _ => []
  | _+1, _, [] => []
  | fuel+1, prev, c :: rest =>
    match ccMatchAt prev (c :: rest) with
    | some n =>
      (c :: rest).take n ::
        ccFindAllGo fuel ((c :: rest).take n).getLast? (rest.drop (n - 1))
    | none => ccFindAllGo fuel (some c) rest

def ccFindAll (text : Str) : List Str := ccFindAllGo text.length none text

/-- Python `str.strip()` (ASCII whitespace suffices here). -/
def stripStr (s : Str) : Str :=
  ((s.dropWhile isSpaceWS).reverse.dropWhile isSpaceWS).reverse

/-- `_SENSITIVITY_THRESHOLD` with the `.get(sensitivity, 0.70)`
fallback.  Confidences are modelled in exact hundredths (0.70 ↦ 70):
every constant involved (0.85/0.70/0.55/0.40 thresholds, 0.70 base,
+0.15 bump capped at 1.0, ×0.3 downgrade giving 0.21) is an exact
multiple of 0.01, and the float rounding of `0.7*0.3` does not cross
any threshold. -/
def sensThreshold (sensitivity : Str) : Nat :=
  if sensitivity = "low".toList then 85
  else if sensitivity = "medium".toList then 70
  else if sensitivity = "high".toList then 55
  else if sensitivity = "paranoid".toList then 40
  else 70

/-- The `PatternEngine.scan` loop body for the `CREDIT_CARD` pattern:
the `(value, confidence-in-hundredths)` pairs it appends (before the
final positional deduplication, which only ever removes results). -/
def creditCardScan (sensitivity : Str) (text : Str) : List (Str × Nat) :=
  let threshold := sensThreshold sensitivity
  if 70 < threshold then []
  else
    (ccFindAll text).filterMap fun value =>
      let v := stripStr value
      if v = [] then none
      else if luhnValidate v then
        some (v, min 100 (70 + 15))
      else
        let conf := 70 * 30 / 100
        if conf < threshold then none else some (v, conf)

theorem luhn_sanity_pos : luhnValidate "4111111111111111".toList = true := by
  decide
theorem luhn_sanity_neg : luhnValidate "4111111111111112".toList = false := by
  decide
theorem ccFindAll_sanity :
    ccFindAll "Card 4111-1111-1111-1112".toList
    = ["4111-1111-1111-1112".toList] := by decide

/-! ## Claim C5 — credit card failing the Luhn check

`"Card 4111-1111-1111-1112"`: the card regex matches, Luhn fails, so
the confidence becomes 0.70 · 0.3 = 0.21.  At medium the candidate is
dropped (0.21 < 0.70) — but at paranoid it is dropped as well
(0.21 < 0.40), contrary to the claim's second half. -/

/-- C5 (counterexample): at paranoid sensitivity the scanner emits NO
`CREDIT_CARD` result for `"Card 4111-1111-1111-1112"` — the claim says
one is emitted with confidence 0.70·0.3. -/
theorem C5_counterexample :
    creditCardScan "paranoid".toList "Card 4111-1111-1111-1112".toList
      = [] := by decide

/-- C5 (amended): `"Card 4111-1111-1111-1112"` fails Luhn, and the
scanner emits no `CREDIT_CARD` result for it at medium (default) and
none at paranoid either, because the downgraded confidence
0.70·0.3 = 0.21 is below every sensitivity threshold. -/
theorem C5_luhn_fail_dropped :
    luhnValidate "4111-1111-1111-1112".toList = false ∧
    creditCardScan "medium".toList "Card 4111-1111-1111-1112".toList = [] ∧
    creditCardScan "paranoid".toList "Card 4111-1111-1111-1112".toList = []
      ∧ ccFindAll "Card 4111-1111-1111-1112".toList
        = ["4111-1111-1111-1112".toList] := by decide

/-! ## Claim C6 — session identifier randomness

`protect` builds `session_id = f"sess_{uuid.uuid4().hex[:8]}"`: only 8
hex nibbles = 32 bits of randomness, not the claimed 64–72 bits. -/

/-- C6 (counterexample): the whole space of session identifiers the
code can generate has at most 16⁸ = 2³² elements, strictly fewer than
the 2⁶⁴ the claim requires. -/
theorem C6_counterexample :
    (Finset.univ.image mkSessionId).card < 2 ^ 64 := by
  have h1 : (Finset.univ.image mkSessionId).card
      ≤ Fintype.card (Fin 8 → Fin 16) := by
    have := Finset.card_image_le (s := (Finset.univ : Finset (Fin 8 → Fin 16)))
      (f := mkSessionId)
    simpa using this
  have h2 : Fintype.card (Fin 8 → Fin 16) = 16 ^ 8 := by
    simp
  have h3 : (16 : Nat) ^ 8 < 2 ^ 64 := by norm_num
  omega

/-- C6 (amended): every session id is `sess_` followed by exactly 8
lowercase-hex characters — 32 bits of uuid randomness. -/
theorem C6_session_id_format :
    (∀ f : Fin 8 → Fin 16,
      (mkSessionId f).take 5 = "sess_".toList ∧
      (mkSessionId f).length = 13 ∧
      ∀ c ∈ (mkSessionId f).drop 5, c ∈ lowerHexDigits) ∧
    (Finset.univ.image mkSessionId).card ≤ 16 ^ 8 := by
  constructor
  · intro f
    refine ⟨?_, ?_, ?_⟩
    · show ("sess_".toList ++ _).take 5 = "sess_".toList
      rw [show (5 : Nat) = "sess_".toList.length from rfl]
      exact List.take_left _ _
    · simp [mkSessionId]
    · intro c hc
      rw [show (mkSessionId f).drop 5
          = (List.finRange 8).map (fun i => nibbleChar (f i)) from by
        show ("sess_".toList ++ _).drop 5 = _
        rw [show (5 : Nat) = "sess_".toList.length from rfl]
        exact List.drop_left _ _] at hc
      simp only [List.mem_map] at hc
      obtain ⟨i, -, rfl⟩ := hc
      exact List.get_mem _ _ _
  · have := Finset.card_image_le (s := (Finset.univ : Finset (Fin 8 → Fin 16)))
      (f := mkSessionId)
    have h2 : Fintype.card (Fin 8 → Fin 16) = 16 ^ 8 := by simp
    simpa [h2] using this

/-- C6 witness. -/
theorem C6_session_id_format_witness :
    (mkSessionId (fun _ => (0 : Fin 16))).take 5 = "sess_".toList ∧
    '0' ∈ lowerHexDigits :=
  ⟨(C6_session_id_format.1 (fun _ => (0 : Fin 16))).1,
   (C6_session_id_format.1 (fun _ => (0 : Fin 16))).2.2 '0' (by decide)⟩

/-! ## Claim C8 — token syntactic validity -/

/-- C8 (counterexample): for the type name `"9"` the generated token is
`⟨TKN_9_AAAAAAAA⟩`, whose type part starts with a digit, so it does NOT
match the canonical pattern `⟨TKN_[A-Z][A-Z0-9_]*_[A-F0-9]{8}⟩` —
`validate_token` rejects the token the engine itself produced. -/
theorem C8_counterexample :
    validToken (mkToken "9".toList "AAAAAAAA".toList) = false := by decide

theorem charToNat_ofNat {n : Nat} (h : n < 55296) :
    (Char.ofNat n).toNat = n := by
  have hv : n.isValidChar := Or.inl h
  simp [Char.ofNat, hv, Char.ofNatAux, Char.toNat, UInt32.toNat,
    BitVec.toNat_ofNatLt]

/-- ASCII uppercasing of a sanitizer-kept character yields a valid token
type character. -/
theorem upperChar_typeChar {c : Char} (h : isSafeChar c = true) :
    isTypeChar (upperChar c) = true := by
  by_cases hl : 'a' ≤ c ∧ c ≤ 'z'
  · have h1 : (97 : Nat) ≤ c.toNat := hl.1
    have h2 : c.toNat ≤ 122 := hl.2
    have hup : upperChar c = Char.ofNat (c.toNat - 32) := by
      simp [upperChar, hl]
    have htn : (Char.ofNat (c.toNat - 32)).toNat = c.toNat - 32 :=
      charToNat_ofNat (by omega)
    rw [hup]
    simp only [isTypeChar, isUpperAZ, Bool.or_eq_true, Bool.and_eq_true,
      decide_eq_true_eq]
    left; left
    constructor
    · show (65 : Nat) ≤ (Char.ofNat (c.toNat - 32)).toNat
      rw [htn]; omega
    · show (Char.ofNat (c.toNat - 32)).toNat ≤ 90
      rw [htn]; omega
  · have hup : upperChar c = c := by simp [upperChar, hl]
    rw [hup]
    simp only [isSafeChar, Bool.or_eq_true, Bool.and_eq_true,
      decide_eq_true_eq] at h
    rcases h with ((h | h) | h) | h
    · simp [isTypeChar, h]
    · simp [isTypeChar, h]
    · simp [isTypeChar, h]
    · exact absurd h hl

theorem sanitizeType_ne_nil (t : Str) : sanitizeType t ≠ [] := by
  simp only [sanitizeType]
  split
  · decide
  · next h => exact h

/-- Every character of a sanitized type name is a token type
character. -/
theorem sanitizeType_chars (t : Str) :
    ∀ c ∈ sanitizeType t, isTypeChar c = true := by
  intro c hc
  simp only [sanitizeType] at hc
  split at hc
  · have hall : ∀ x ∈ "UNKNOWN".toList, isTypeChar x = true := by decide
    exact hall c hc
  · have hc' := List.take_subset _ _ hc
    simp only [List.mem_map] at hc'
    obtain ⟨a, -, ha⟩ := hc'
    rw [← ha]
    split
    · next hs => exact upperChar_typeChar hs
    · decide

/-- `generate_token` output validates whenever the hex part is 8
uppercase-hex characters (as `secrets.token_hex(4).upper()` always is)
and the sanitized type name starts with a letter. -/
theorem mkToken_valid {typeName hex : Str} (hlen : hex.length = 8)
    (hhex : ∀ c ∈ hex, isHexU c = true)
    (hty : ∃ c rest, sanitizeType typeName = c :: rest ∧
      isUpperAZ c = true) :
    validToken (mkToken typeName hex) = true := by
  obtain ⟨c0, T, hsan, hc0⟩ := hty
  have hTchars : ∀ c ∈ T, isTypeChar c = true := fun c hc =>
    sanitizeType_chars typeName c
      (by rw [hsan]; exact List.mem_cons_of_mem _ hc)
  have hshape : mkToken typeName hex
      = "⟨TKN_".toList
        ++ ((sanitizeType typeName ++ '_' :: hex) ++ ['⟩']) := by
    simp [mkToken]
  rw [hshape, hsan]
  have hmid : ((c0 :: T) ++ '_' :: hex : Str)
      = ((c0 :: T) ++ ['_']) ++ hex := by simp
  simp only [validToken, Bool.and_eq_true]
  refine ⟨⟨?_, ?_⟩, ?_⟩
  · rw [List.isPrefixOf_iff_prefix]
    exact List.prefix_append _ _
  · simp only [decide_eq_true_eq]
    rw [show ("⟨TKN_".toList ++ (((c0 :: T) ++ '_' :: hex) ++ ['⟩']) : Str)
        = ("⟨TKN_".toList ++ ((c0 :: T) ++ '_' :: hex)) ++ ['⟩'] from by simp]
    exact List.getLast?_concat _
  · rw [show (5 : Nat) = "⟨TKN_".toList.length from rfl, List.drop_left,
      List.dropLast_concat]
    have hlenmid : ((c0 :: T) ++ '_' :: hex : Str).length = T.length + 10 := by
      simp only [List.length_append, List.length_cons, hlen]
    simp only [coreOK, Bool.and_eq_true, hlenmid]
    refine ⟨⟨⟨by simp only [decide_eq_true_eq]; omega, ?_⟩, ?_⟩, ?_⟩
    · rw [show T.length + 10 - 9 = T.length + 1 from by omega,
        List.take_append_of_le_length (by simp),
        show T.length + 1 = (c0 :: T : Str).length from by simp,
        List.take_length]
      simp only [Bool.and_eq_true, List.all_eq_true]
      exact ⟨hc0, hTchars⟩
    · simp only [decide_eq_true_eq]
      rw [show T.length + 10 - 9 = T.length + 1 from by omega,
        List.getElem?_append_right (by simp),
        show T.length + 1 - (c0 :: T : Str).length = 0 from by simp]
      simp
    · rw [show T.length + 10 - 8 = T.length + 2 from by omega, hmid,
        show T.length + 2 = ((c0 :: T : Str) ++ ['_']).length from by simp,
        List.drop_left]
      simp only [List.all_eq_true]
      exact hhex

/-- C8 (amended): when the sanitized type name begins with a letter the
generated token validates against the canonical pattern, and the token
scanner over it reports exactly that token; but type names whose
sanitized form starts with a digit or `_` (e.g. `"9"`) yield tokens
rejected by `validate_token`, since the pattern's type part is
`[A-Z][A-Z0-9_]*`. -/
theorem C8_token_validity {typeName hex : Str} (hlen : hex.length = 8)
    (hhex : ∀ c ∈ hex, isHexU c = true)
    (hty : ∃ c rest, sanitizeType typeName = c :: rest ∧
      isUpperAZ c = true) :
    validToken (mkToken typeName hex) = true ∧
    findTokens (mkToken typeName hex)
      = [(mkToken typeName hex, 0, (mkToken typeName hex).length)] := by
  have hv := mkToken_valid hlen hhex hty
  refine ⟨hv, ?_⟩
  have h0 := findTokensGo_match hv [] 0 (mkToken typeName hex).length
    (by simp)
  rw [List.append_nil] at h0
  unfold findTokens
  rw [h0, findTokensGo_nil]
  simp

/-! ## Backend lookup lemmas -/

theorem lookupEntry_mem {b : List (Str × VaultEntry)} {tok : Str}
    {e : VaultEntry} (h : lookupEntry b tok = some e) : (tok, e) ∈ b := by
  induction b with
  | nil => simp [lookupEntry] at h
  | cons p rest ih =>
    obtain ⟨t, e'⟩ := p
    simp only [lookupEntry] at h
    by_cases ht : t = tok
    · rw [if_pos ht] at h
      obtain rfl := Option.some_injective _ h
      subst ht
      exact List.mem_cons_self _ _
    · rw [if_neg ht] at h
      exact List.mem_cons_of_mem _ (ih h)

theorem lookupEntry_none_of_not_mem {b : List (Str × VaultEntry)}
    {tok : Str} (h : tok ∉ b.map Prod.fst) : lookupEntry b tok = none := by
  induction b with
  | nil => rfl
  | cons p rest ih =>
    obtain ⟨t, e'⟩ := p
    simp only [List.map_cons, List.mem_cons, not_or] at h
    simp only [lookupEntry, if_neg (fun hh : t = tok => h.1 hh.symm)]
    exact ih h.2

theorem not_mem_keys_of_lookup_none {b : List (Str × VaultEntry)}
    {tok : Str} (h : lookupEntry b tok = none) : tok ∉ b.map Prod.fst := by
  induction b with
  | nil => simp
  | cons p rest ih =>
    obtain ⟨t, e'⟩ := p
    simp only [lookupEntry] at h
    by_cases ht : t = tok
    · rw [if_pos ht] at h
      exact absurd h (by simp)
    · rw [if_neg ht] at h
      simp only [List.map_cons, List.mem_cons, not_or]
      exact ⟨fun hh => ht hh.symm, ih h⟩

theorem lookupEntry_append (b1 b2 : List (Str × VaultEntry)) (t : Str) :
    lookupEntry (b1 ++ b2) t
      = match lookupEntry b1 t with
        | some e => some e
        | none => lookupEntry b2 t := by
  induction b1 with
  | nil => rfl
  | cons p rest ih =>
    obtain ⟨t0, e0⟩ := p
    by_cases ht : t0 = t
    · simp [lookupEntry, ht]
    · simp only [List.cons_append, lookupEntry, if_neg ht]
      exact ih

/-- After filtering out a session, a token whose (unique) entry belonged
to that session no longer resolves. -/
theorem lookupEntry_filter_none {b : List (Str × VaultEntry)} {tok : Str}
    {e : VaultEntry} {sess : Str} (hnd : (b.map Prod.fst).Nodup)
    (he : lookupEntry b tok = some e) (hs : e.session_id = sess) :
    lookupEntry (b.filter fun p => ¬ p.2.session_id = sess) tok = none := by
  induction b with
  | nil => simp [lookupEntry] at he
  | cons p rest ih =>
    obtain ⟨t, e'⟩ := p
    simp only [List.map_cons, List.nodup_cons] at hnd
    simp only [lookupEntry] at he
    rw [List.filter_cons]
    by_cases ht : t = tok
    · rw [if_pos ht] at he
      obtain rfl := Option.some_injective _ he
      rw [if_neg (by simp [hs])]
      apply lookupEntry_none_of_not_mem
      intro hmem
      apply hnd.1
      rw [ht]
      simp only [List.mem_map] at hmem ⊢
      obtain ⟨p, hp, rfl⟩ := hmem
      exact ⟨p, List.mem_of_mem_filter hp, rfl⟩
    · rw [if_neg ht] at he
      by_cases hkeep : (¬ e'.session_id = sess)
      · rw [if_pos (by simpa using hkeep)]
        simp only [lookupEntry, if_neg ht]
        exact ih hnd.2 he
      · rw [if_neg (by simpa using hkeep)]
        exact ih hnd.2 he

/-! ## Claim C7 — purge completeness -/

/-- The live entries of a session (what `backend.purge` deletes and
counts). -/
def sessionEntries (b : List (Str × VaultEntry)) (sess : Str) :
    List (Str × VaultEntry) :=
  b.filter fun p => p.2.session_id = sess

/-- C7: `purge_session(s)` returns exactly the number of entries
belonging to `s` immediately before the call, and afterwards every
token whose entry belonged to `s` is gone — any retrieve of it, with
any requesting session and caller, fails with `not_found`. -/
theorem C7_purge_complete (st : VaultState) (sess : Str)
    (hnd : (st.backend.map Prod.fst).Nodup) :
    (vaultPurge sess st).2 = (sessionEntries st.backend sess).length ∧
    ∀ tok e, lookupEntry st.backend tok = some e → e.session_id = sess →
      lookupEntry (vaultPurge sess st).1.backend tok = none ∧
      ∀ now sess' caller,
        (vaultRetrieve now tok sess' caller (vaultPurge sess st).1).2
          = .error .notFound := by
  refine ⟨rfl, ?_⟩
  intro tok e he hs
  have hnone : lookupEntry (vaultPurge sess st).1.backend tok = none :=
    lookupEntry_filter_none hnd he hs
  refine ⟨hnone, fun now sess' caller => ?_⟩
  simp only [vaultRetrieve, hnone]

/-- Concrete state for the C7 witness: one entry stored under
`sess_aaaa0000`. -/
def stW7 : VaultState :=
  (vaultStore 0 "v".toList "EMAIL".toList "PII".toList "LOW".toList
    "sess_aaaa0000".toList "AAAAAAAA".toList (initialVault 30)).1

/-- C7 witness. -/
theorem C7_purge_complete_witness :
    (vaultPurge "sess_aaaa0000".toList stW7).2
      = (sessionEntries stW7.backend "sess_aaaa0000".toList).length ∧
    (vaultRetrieve 7 (mkToken "EMAIL".toList "AAAAAAAA".toList)
        "sess_bbbb0000".toList callerOWNER
        (vaultPurge "sess_aaaa0000".toList stW7).1).2
      = .error .notFound := by
  have h := C7_purge_complete stW7 "sess_aaaa0000".toList (by decide)
  refine ⟨h.1, ?_⟩
  have h2 := h.2 (mkToken "EMAIL".toList "AAAAAAAA".toList)
    ⟨"v".toList, "sess_aaaa0000".toList, "sess_aaaa0000".toList,
     "EMAIL".toList, "PII".toList, "LOW".toList, 0, some 30, false⟩
    (by decide) (by decide)
  exact h2.2 7 "sess_bbbb0000".toList callerOWNER

/-! ## Claim C9 — audit completeness

The alert engine never touches the audit log, and every audited path of
the vault appends exactly one record — except `store`, which on a
cross-session token collision raises `ValueError` from the backend
*before* `audit.record` is reached: that failing mutation writes no
audit record at all. -/

theorem alertCheck_audit (dt fam lvl token sess : Str) (st : VaultState) :
    (alertCheck dt fam lvl token sess st).audit = st.audit := by
  unfold alertCheck
  split
  · rfl
  · split <;> rfl

theorem alertCheck_backend (dt fam lvl token sess : Str) (st : VaultState) :
    (alertCheck dt fam lvl token sess st).backend = st.backend := by
  unfold alertCheck
  split
  · rfl
  · split <;> rfl

/-- Concrete state for the C9 counterexample: one entry under
`sess_aaaa0000` whose token is `⟨TKN_EMAIL_AAAAAAAA⟩`. -/
def stW9 : VaultState :=
  (vaultStore 0 "v1".toList "EMAIL".toList "PII".toList "LOW".toList
    "sess_aaaa0000".toList "AAAAAAAA".toList (initialVault 30)).1

/-- C9 (counterexample): a `store` under a different session that
collides on the same token fails (`ValueError` from the backend) and
appends NO audit record, refuting "every mutation … appends exactly one
record". -/
theorem C9_counterexample :
    (match (vaultStore 0 "v2".toList "EMAIL".toList "PII".toList
        "LOW".toList "sess_bbbb0000".toList "AAAAAAAA".toList stW9).2 with
     | .error _ => true
     | .ok _ => false) = true ∧
    (vaultStore 0 "v2".toList "EMAIL".toList "PII".toList "LOW".toList
        "sess_bbbb0000".toList "AAAAAAAA".toList stW9).1.audit
      = stW9.audit ∧
    stW9.audit.length = 1 := by decide

/-- C9 (amended): every retrieval attempt (any outcome), every revoke
and every purge appends exactly one audit record, and a store appends
exactly one when it succeeds but none when the backend raises on a
cross-session collision; no operation ever removes audit records.  The
retrieval part assumes the well-formedness invariant that each entry
was encrypted under its own session key (true of every entry the vault
creates), so the decrypt step cannot fail. -/
theorem C9_audit_append (st : VaultState)
    (hwf : ∀ p ∈ st.backend, p.2.encSession = p.2.session_id) :
    (∀ now token sess caller,
      st.audit <+: (vaultRetrieve now token sess caller st).1.audit ∧
      (vaultRetrieve now token sess caller st).1.audit.length
        = st.audit.length + 1) ∧
    (∀ sess, (vaultRevoke sess st).1.audit.length = st.audit.length + 1) ∧
    (∀ sess, (vaultPurge sess st).1.audit.length = st.audit.length + 1) ∧
    (∀ now real dtype fam lvl sess hex st' tkn,
      vaultStore now real dtype fam lvl sess hex st = (st', .ok tkn) →
      st'.audit.length = st.audit.length + 1) ∧
    (∀ now real dtype fam lvl sess hex st' e,
      vaultStore now real dtype fam lvl sess hex st = (st', .error e) →
      st'.audit = st.audit) ∧
    (∀ op, st.audit <+: (applyOp op st).audit) := by
  have hret : ∀ now token sess caller,
      st.audit <+: (vaultRetrieve now token sess caller st).1.audit ∧
      (vaultRetrieve now token sess caller st).1.audit.length
        = st.audit.length + 1 := by
    intro now token sess caller
    cases he : lookupEntry st.backend token with
    | none =>
      refine ⟨?_, ?_⟩
      · simp only [vaultRetrieve, he]
        exact List.prefix_append _ _
      · simp [vaultRetrieve, he]
    | some entry =>
      have hdec : decryptValue entry.encValue entry.encSession
          entry.session_id = some entry.encValue := by
        unfold decryptValue
        rw [if_pos (hwf (token, entry) (lookupEntry_mem he))]
      refine ⟨?_, ?_⟩
      · simp only [vaultRetrieve, he, hdec]
        split
        · exact List.prefix_append _ _
        · split
          · exact List.prefix_append _ _
          · split
            · exact List.prefix_append _ _
            · exact List.prefix_append _ _
      · simp only [vaultRetrieve, he, hdec]
        split
        · simp
        · split
          · simp
          · split
            · simp
            · simp
  have hstore_ok : ∀ now real dtype fam lvl sess hex st' tkn,
      vaultStore now real dtype fam lvl sess hex st = (st', .ok tkn) →
      st'.audit.length = st.audit.length + 1 := by
    intro now real dtype fam lvl sess hex st' tkn h
    cases hbs : backendStore st.backend (mkToken dtype hex)
        (storeEntry now real sess st.expiryMins dtype fam lvl) with
    | error u =>
      rw [vaultStore_err hbs] at h
      exact absurd (congrArg Prod.snd h) (by simp)
    | ok b' =>
      rw [vaultStore_ok hbs] at h
      have h1 := congrArg Prod.fst h
      simp only at h1
      rw [← h1, alertCheck_audit]
      simp
  have hstore_err : ∀ now real dtype fam lvl sess hex st' e,
      vaultStore now real dtype fam lvl sess hex st = (st', .error e) →
      st'.audit = st.audit := by
    intro now real dtype fam lvl sess hex st' e h
    cases hbs : backendStore st.backend (mkToken dtype hex)
        (storeEntry now real sess st.expiryMins dtype fam lvl) with
    | error u =>
      rw [vaultStore_err hbs] at h
      have h1 := congrArg Prod.fst h
      simp only at h1
      rw [← h1]
    | ok b' =>
      rw [vaultStore_ok hbs] at h
      exact absurd (congrArg Prod.snd h) (by simp)
  refine ⟨hret, fun sess => by simp [vaultRevoke],
    fun sess => by simp [vaultPurge], hstore_ok, hstore_err, ?_⟩
  intro op
  cases op with
  | store now real dtype fam lvl sess hex =>
    simp only [applyOp]
    rcases hres : vaultStore now real dtype fam lvl sess hex st with ⟨st', r⟩
    cases r with
    | ok tkn =>
      have h1 : st'.audit = st.audit
          ++ [auditRecord "store".toList (mkToken dtype hex) sess callerOWNER
              "success".toList (some dtype) (some fam) none] := by
        cases hbs : backendStore st.backend (mkToken dtype hex)
            (storeEntry now real sess st.expiryMins dtype fam lvl) with
        | error u =>
          rw [vaultStore_err hbs] at hres
          exact absurd (congrArg Prod.snd hres) (by simp)
        | ok b' =>
          rw [vaultStore_ok hbs] at hres
          have h2 := congrArg Prod.fst hres
          simp only at h2
          rw [← h2, alertCheck_audit]
      rw [h1]
      exact List.prefix_append _ _
    | error e =>
      rw [hstore_err now real dtype fam lvl sess hex st' e hres]
  | retrieve now token sess caller =>
    exact (hret now token sess caller).1
  | revoke sess =>
    exact List.prefix_append _ _
  | purge sess =>
    exact List.prefix_append _ _

/-- C9 witness. -/
theorem C9_audit_append_witness :
    (initialVault 30).audit
        <+: (vaultRetrieve 0 "t".toList "s".toList callerOWNER
          (initialVault 30)).1.audit ∧
    (vaultRetrieve 0 "t".toList "s".toList callerOWNER
        (initialVault 30)).1.audit.length
      = (initialVault 30).audit.length + 1 :=
  (C9_audit_append (initialVault 30) (by decide)).1 0
    "t".toList "s".toList callerOWNER

/-! ## Claim C3 — session isolation

Retrieving a token of session A with requesting session B ≠ A is
denied, the denial is audited under the *requesting* session B — so it
appears in B's audit view but, the log storing the masked requesting
session, NOT in A's view (the claim asserts it appears in both). -/

/-- Scanning a lone valid token finds exactly it. -/
theorem findTokens_self {t : Str} (hv : validToken t = true) :
    findTokens t = [(t, 0, t.length)] := by
  have h0 := findTokensGo_match hv [] 0 t.length (by simp)
  rw [List.append_nil] at h0
  unfold findTokens
  rw [h0, findTokensGo_nil]
  simp

/-- Concrete state for C3: one entry under `sess_aaaa0000`. -/
def stW3 : VaultState :=
  (vaultStore 0 "v".toList "EMAIL".toList "PII".toList "LOW".toList
    "sess_aaaa0000".toList "AAAAAAAA".toList (initialVault 30)).1

/-- C3 (counterexample): a wrong-session restore raises
`VaultAccessError`, but the denial record shows up only in the
requesting session's audit view — session A's view contains no denial
at all, refuting "appears in the audit views of both sessions". -/
theorem C3_counterexample :
    (match (restore (mkToken "EMAIL".toList "AAAAAAAA".toList)
        "sess_bbbb0000".toList 0 stW3).2 with
     | .error err => err.isVaultAccess
     | .ok _ => false) = true ∧
    ((auditView (restore (mkToken "EMAIL".toList "AAAAAAAA".toList)
        "sess_bbbb0000".toList 0 stW3).1 "sess_aaaa0000".toList).filter
      fun rec => rec.result = "denied".toList) = [] ∧
    ((auditView (restore (mkToken "EMAIL".toList "AAAAAAAA".toList)
        "sess_bbbb0000".toList 0 stW3).1 "sess_bbbb0000".toList).filter
      fun rec => rec.result = "denied".toList).length = 1 := by decide

/-- C3 (amended): for sessions `A ≠ B` and a valid token `t` whose
entry belongs to `A`, `restore(t, B)` raises `VaultAccessError`
(`session_mismatch`), exactly one denial record is appended, and —
because the audit log stores the masked *requesting* session — that
denial appears in B's audit view and not in A's. -/
theorem C3_session_isolation (st : VaultState) (A B t : Str)
    (e : VaultEntry) (he : lookupEntry st.backend t = some e)
    (hA : e.session_id = A) (hBA : B ≠ A) (hvt : validToken t = true)
    (hAne : A ≠ []) (hmask : maskSession A ≠ maskSession B) (now : Nat) :
    (restore t B now st).2
      = .error (.accessDenied "session_mismatch".toList) ∧
    (restore t B now st).1.audit = st.audit
      ++ [auditRecord "retrieve".toList t B callerRESOLVER
          "denied".toList none none none] ∧
    auditRecord "retrieve".toList t B callerRESOLVER "denied".toList
        none none none ∈ auditView (restore t B now st).1 B ∧
    auditRecord "retrieve".toList t B callerRESOLVER "denied".toList
        none none none ∉ auditView (restore t B now st).1 A := by
  have hret : vaultRetrieve now t B callerRESOLVER st
      = ({ st with audit := st.audit
          ++ [auditRecord "retrieve".toList t B callerRESOLVER
              "denied".toList none none none] },
         .error (.accessDenied "session_mismatch".toList)) := by
    have hac : accessCheck callerRESOLVER B e.session_id
        = some "session_mismatch".toList := by
      unfold accessCheck
      rw [if_neg (by simp), if_pos (by rw [hA]; exact hBA)]
    simp only [vaultRetrieve, he, hac]
  have hres : restore t B now st
      = ({ st with audit := st.audit
          ++ [auditRecord "retrieve".toList t B callerRESOLVER
              "denied".toList none none none] },
         .error (.accessDenied "session_mismatch".toList)) := by
    unfold restore resolveText
    rw [findTokens_self hvt, if_neg (by simp)]
    rw [show ([(t, 0, t.length)] : List (Str × Nat × Nat)).reverse
        = [(t, 0, t.length)] from rfl]
    simp only [resolveLoop]
    rw [if_neg (List.not_mem_nil t), hret]
    rfl
  refine ⟨by rw [hres], by rw [hres], ?_, ?_⟩
  · rw [hres]
    unfold auditView
    by_cases hB : B = []
    · rw [if_pos hB]
      simp
    · rw [if_neg hB]
      refine List.mem_filter.mpr ⟨by simp, ?_⟩
      simp [auditRecord]
  · rw [hres]
    unfold auditView
    rw [if_neg hAne]
    intro hmem
    have h2 := (List.mem_filter.mp hmem).2
    simp only [auditRecord, decide_eq_true_eq] at h2
    exact hmask h2.symm

/-- C3 witness. -/
theorem C3_session_isolation_witness :
    (restore (mkToken "EMAIL".toList "AAAAAAAA".toList)
        "sess_bbbb0000".toList 3 stW3).2
      = .error (.accessDenied "session_mismatch".toList) ∧
    auditRecord "retrieve".toList (mkToken "EMAIL".toList "AAAAAAAA".toList)
        "sess_bbbb0000".toList callerRESOLVER "denied".toList none none none
      ∉ auditView (restore (mkToken "EMAIL".toList "AAAAAAAA".toList)
          "sess_bbbb0000".toList 3 stW3).1 "sess_aaaa0000".toList := by
  have h := C3_session_isolation stW3 "sess_aaaa0000".toList
    "sess_bbbb0000".toList (mkToken "EMAIL".toList "AAAAAAAA".toList)
    ⟨"v".toList, "sess_aaaa0000".toList, "sess_aaaa0000".toList,
     "EMAIL".toList, "PII".toList, "LOW".toList, 0, some 30, false⟩
    (by decide) (by decide) (by decide) (by decide) (by decide)
    (by decide) 3
  exact ⟨h.1, h.2.2.2⟩

/-! ## Claim C4 — revocation monotonicity -/

/-- Well-formedness: the backend dict has no duplicate token keys
(every reachable state satisfies this; `store` never overwrites). -/
def NodupKeys (st : VaultState) : Prop := (st.backend.map Prod.fst).Nodup

theorem vaultRetrieve_backend (now : Nat) (token sess caller : Str)
    (st : VaultState) :
    (vaultRetrieve now token sess caller st).1.backend = st.backend := by
  unfold vaultRetrieve
  split
  · rfl
  · split
    · rfl
    · split
      · rfl
      · split
        · rfl
        · split
          · rfl
          · rfl

theorem lookupEntry_mapSnd (g : Str → VaultEntry → VaultEntry)
    (b : List (Str × VaultEntry)) (t : Str) :
    lookupEntry (b.map fun p => (p.1, g p.1 p.2)) t
      = (lookupEntry b t).map (g t) := by
  induction b with
  | nil => rfl
  | cons p rest ih =>
    obtain ⟨t0, e0⟩ := p
    simp only [List.map_cons, lookupEntry]
    by_cases ht0 : t0 = t
    · subst ht0
      rw [if_pos rfl, if_pos rfl]
      rfl
    · rw [if_neg ht0, if_neg ht0]
      exact ih

theorem backendRevoke_eq_mapSnd (b : List (Str × VaultEntry)) (tk : Str) :
    backendRevoke b tk
      = b.map fun p =>
          (p.1, if p.1 = tk then { p.2 with revoked := true } else p.2) := by
  unfold backendRevoke
  apply List.map_congr_left
  intro p hp
  by_cases h : p.1 = tk
  · rw [if_pos h, if_pos h]
  · rw [if_neg h, if_neg h]

theorem backendRevoke_keys (b : List (Str × VaultEntry)) (tk : Str) :
    (backendRevoke b tk).map Prod.fst = b.map Prod.fst := by
  rw [backendRevoke_eq_mapSnd, List.map_map]
  apply List.map_congr_left
  intro p hp
  rfl

theorem lookupEntry_revoke (b : List (Str × VaultEntry)) (tk t : Str) :
    lookupEntry (backendRevoke b tk) t
      = (lookupEntry b t).map
          (fun e => if t = tk then { e with revoked := true } else e) := by
  rw [backendRevoke_eq_mapSnd]
  exact lookupEntry_mapSnd
    (fun k e => if k = tk then { e with revoked := true } else e) b t

theorem foldl_revoke_keys (tks : List Str) (b : List (Str × VaultEntry)) :
    (tks.foldl (fun bb tk => backendRevoke bb tk) b).map Prod.fst
      = b.map Prod.fst := by
  induction tks generalizing b with
  | nil => rfl
  | cons tk rest ih => rw [List.foldl_cons, ih, backendRevoke_keys]

theorem foldl_revoke_lookup (tks : List Str) (b : List (Str × VaultEntry))
    (t : Str) :
    lookupEntry (tks.foldl (fun bb tk => backendRevoke bb tk) b) t
      = if t ∈ tks
        then (lookupEntry b t).map (fun e => { e with revoked := true })
        else lookupEntry b t := by
  induction tks generalizing b with
  | nil => simp
  | cons tk rest ih =>
    rw [List.foldl_cons, ih, lookupEntry_revoke]
    by_cases hmem : t ∈ rest
    · rw [if_pos hmem, if_pos (List.mem_cons_of_mem _ hmem)]
      cases lookupEntry b t with
      | none => rfl
      | some e =>
        simp only [Option.map_some']
        split <;> rfl
    · rw [if_neg hmem]
      by_cases htk : t = tk
      · rw [if_pos (by rw [htk]; exact List.mem_cons_self _ _)]
        cases lookupEntry b t with
        | none => rfl
        | some e =>
          simp only [Option.map_some']
          rw [if_pos htk]
      · rw [if_neg (by simp [htk, hmem])]
        cases lookupEntry b t with
        | none => rfl
        | some e =>
          simp only [Option.map_some']
          rw [if_neg htk]

/-- `revoke_session(s)` flips the `revoked` flag of an entry of `s`. -/
theorem vaultRevoke_lookup (sess : Str) (st : VaultState) (t : Str)
    (e : VaultEntry) (he : lookupEntry st.backend t = some e)
    (hs : e.session_id = sess) :
    lookupEntry (vaultRevoke sess st).1.backend t
      = some { e with revoked := true } := by
  have hm : t ∈ listTokensForSession st.backend sess := by
    unfold listTokensForSession
    simp only [List.mem_map]
    exact ⟨(t, e), List.mem_filter.mpr ⟨lookupEntry_mem he, by simp [hs]⟩, rfl⟩
  show lookupEntry ((listTokensForSession st.backend sess).foldl
      (fun b tk => backendRevoke b tk) st.backend) t = _
  rw [foldl_revoke_lookup, if_pos hm, he]
  rfl

theorem vaultRevoke_keys (sess : Str) (st : VaultState) :
    (vaultRevoke sess st).1.backend.map Prod.fst
      = st.backend.map Prod.fst := by
  show ((listTokensForSession st.backend sess).foldl
      (fun b tk => backendRevoke b tk) st.backend).map Prod.fst = _
  exact foldl_revoke_keys _ _

theorem lookupEntry_filter_sub {b : List (Str × VaultEntry)}
    (P : Str × VaultEntry → Bool) {t : Str} {e : VaultEntry}
    (hnd : (b.map Prod.fst).Nodup) (he : lookupEntry b t = some e) :
    lookupEntry (b.filter P) t = none ∨
    lookupEntry (b.filter P) t = some e := by
  induction b with
  | nil => simp [lookupEntry] at he
  | cons p rest ih =>
    obtain ⟨t0, e0⟩ := p
    simp only [List.map_cons, List.nodup_cons] at hnd
    simp only [lookupEntry] at he
    rw [List.filter_cons]
    by_cases ht0 : t0 = t
    · rw [if_pos ht0] at he
      obtain rfl := Option.some_injective _ he
      by_cases hP : P (t0, e0) = true
      · rw [if_pos hP]
        right
        simp [lookupEntry, ht0]
      · rw [if_neg hP]
        left
        apply lookupEntry_none_of_not_mem
        intro hmem
        apply hnd.1
        rw [ht0]
        simp only [List.mem_map] at hmem ⊢
        obtain ⟨q, hq, rfl⟩ := hmem
        exact ⟨q, List.mem_of_mem_filter hq, rfl⟩
    · rw [if_neg ht0] at he
      have h2 := ih hnd.2 he
      by_cases hP : P (t0, e0) = true
      · rw [if_pos hP]
        simpa [lookupEntry, ht0] using h2
      · rw [if_neg hP]
        exact h2

/-- Every vault operation preserves key uniqueness. -/
theorem applyOp_nodup (op : VaultOp) (st : VaultState) (h : NodupKeys st) :
    NodupKeys (applyOp op st) := by
  cases op with
  | store now real dtype fam lvl sess hex =>
    simp only [applyOp]
    cases hbs : backendStore st.backend (mkToken dtype hex)
        (storeEntry now real sess st.expiryMins dtype fam lvl) with
    | error u =>
      rw [vaultStore_err hbs]
      exact h
    | ok b' =>
      rw [vaultStore_ok hbs]
      unfold NodupKeys
      rw [alertCheck_backend]
      unfold backendStore at hbs
      cases hl : lookupEntry st.backend (mkToken dtype hex) with
      | some existing =>
        rw [hl] at hbs
        simp only at hbs
        split at hbs
        · obtain rfl := (Except.ok.injEq .. ▸ hbs : st.backend = b')
          exact h
        · exact absurd hbs (by simp)
      | none =>
        rw [hl] at hbs
        simp only [Except.ok.injEq] at hbs
        rw [← hbs]
        show ((st.backend ++ [_]).map Prod.fst).Nodup
        rw [List.map_append]
        rw [List.nodup_append]
        refine ⟨h, List.nodup_singleton _, ?_⟩
        intro a ha hb
        simp only [List.map_cons, List.map_nil, List.mem_singleton] at hb
        subst hb
        exact not_mem_keys_of_lookup_none hl ha
  | retrieve now token sess caller =>
    unfold NodupKeys
    simp only [applyOp]
    rw [vaultRetrieve_backend]
    exact h
  | revoke sess =>
    unfold NodupKeys
    simp only [applyOp]
    rw [vaultRevoke_keys]
    exact h
  | purge sess =>
    unfold NodupKeys at h ⊢
    simp only [applyOp, vaultPurge, backendPurge]
    exact List.Nodup.sublist ((List.filter_sublist _).map _) h

/-- A present revoked entry stays revoked (same session) across any
single operation. -/
theorem revoked_persists (op : VaultOp) (st : VaultState)
    (hnd : NodupKeys st) (t : Str) (e : VaultEntry)
    (he : lookupEntry st.backend t = some e) (hr : e.revoked = true) :
    ∀ e', lookupEntry (applyOp op st).backend t = some e' →
      e'.revoked = true ∧ e'.session_id = e.session_id := by
  intro e' he'
  cases op with
  | store now real dtype fam lvl sess hex =>
    simp only [applyOp] at he'
    cases hbs : backendStore st.backend (mkToken dtype hex)
        (storeEntry now real sess st.expiryMins dtype fam lvl) with
    | error u =>
      rw [vaultStore_err hbs] at he'
      simp only at he'
      rw [he] at he'
      obtain rfl := Option.some_injective _ he'
      exact ⟨hr, rfl⟩
    | ok b' =>
      rw [vaultStore_ok hbs] at he'
      simp only [alertCheck_backend] at he'
      unfold backendStore at hbs
      cases hl : lookupEntry st.backend (mkToken dtype hex) with
      | some existing =>
        rw [hl] at hbs
        simp only at hbs
        split at hbs
        · obtain rfl := (Except.ok.injEq .. ▸ hbs : st.backend = b')
          rw [he] at he'
          obtain rfl := Option.some_injective _ he'
          exact ⟨hr, rfl⟩
        · exact absurd hbs (by simp)
      | none =>
        rw [hl] at hbs
        simp only [Except.ok.injEq] at hbs
        rw [← hbs, lookupEntry_append, he] at he'
        obtain rfl := Option.some_injective _ he'
        exact ⟨hr, rfl⟩
  | retrieve now token sess caller =>
    simp only [applyOp] at he'
    rw [vaultRetrieve_backend, he] at he'
    obtain rfl := Option.some_injective _ he'
    exact ⟨hr, rfl⟩
  | revoke sess =>
    simp only [applyOp] at he'
    have hrl : lookupEntry (vaultRevoke sess st).1.backend t
        = if t ∈ listTokensForSession st.backend sess
          then (lookupEntry st.backend t).map
            (fun x => { x with revoked := true })
          else lookupEntry st.backend t := by
      show lookupEntry ((listTokensForSession st.backend sess).foldl
        (fun b tk => backendRevoke b tk) st.backend) t = _
      exact foldl_revoke_lookup _ _ _
    rw [hrl, he] at he'
    split at he'
    · simp only [Option.map_some'] at he'
      obtain rfl := Option.some_injective _ he'
      exact ⟨rfl, rfl⟩
    · obtain rfl := Option.some_injective _ he'
      exact ⟨hr, rfl⟩
  | purge sess =>
    simp only [applyOp, vaultPurge, backendPurge] at he'
    rcases lookupEntry_filter_sub _ hnd he with hn | hsome
    · rw [hn] at he'
      exact absurd he' (by simp)
    · rw [hsome] at he'
      obtain rfl := Option.some_injective _ he'
      exact ⟨hr, rfl⟩

/-- A token absent from the backend stays absent across any operation
that does not store that very token. -/
theorem none_persists (op : VaultOp) (st : VaultState) (t : Str)
    (hnone : lookupEntry st.backend t = none)
    (hnostore : ∀ now real dtype fam lvl sess hex,
      op = .store now real dtype fam lvl sess hex → mkToken dtype hex ≠ t) :
    lookupEntry (applyOp op st).backend t = none := by
  cases op with
  | store now real dtype fam lvl sess hex =>
    have hne : mkToken dtype hex ≠ t :=
      hnostore now real dtype fam lvl sess hex rfl
    simp only [applyOp]
    cases hbs : backendStore st.backend (mkToken dtype hex)
        (storeEntry now real sess st.expiryMins dtype fam lvl) with
    | error u =>
      rw [vaultStore_err hbs]
      exact hnone
    | ok b' =>
      rw [vaultStore_ok hbs]
      simp only [alertCheck_backend]
      unfold backendStore at hbs
      cases hl : lookupEntry st.backend (mkToken dtype hex) with
      | some existing =>
        rw [hl] at hbs
        simp only at hbs
        split at hbs
        · obtain rfl := (Except.ok.injEq .. ▸ hbs : st.backend = b')
          exact hnone
        · exact absurd hbs (by simp)
      | none =>
        rw [hl] at hbs
        simp only [Except.ok.injEq] at hbs
        rw [← hbs, lookupEntry_append, hnone]
        simp only [lookupEntry, if_neg hne]
  | retrieve now token sess caller =>
    simp only [applyOp]
    rw [vaultRetrieve_backend]
    exact hnone
  | revoke sess =>
    simp only [applyOp]
    have hrl : lookupEntry (vaultRevoke sess st).1.backend t
        = if t ∈ listTokensForSession st.backend sess
          then (lookupEntry st.backend t).map
            (fun x => { x with revoked := true })
          else lookupEntry st.backend t := by
      show lookupEntry ((listTokensForSession st.backend sess).foldl
        (fun b tk => backendRevoke b tk) st.backend) t = _
      exact foldl_revoke_lookup _ _ _
    rw [hrl, hnone]
    split <;> rfl
  | purge sess =>
    simp only [applyOp, vaultPurge, backendPurge]
    apply lookupEntry_none_of_not_mem
    intro hmem
    apply not_mem_keys_of_lookup_none hnone
    simp only [List.mem_map] at hmem ⊢
    obtain ⟨q, hq, rfl⟩ := hmem
    exact ⟨q, List.mem_of_mem_filter hq, rfl⟩

/-- Invariant carried across an arbitrary sequence of operations: the
token is gone, or its entry is revoked with the original session. -/
theorem ops_invariant : ∀ (ops : List VaultOp) (st : VaultState),
    NodupKeys st → ∀ t sess0 : Str,
    (lookupEntry st.backend t = none ∨
     ∃ e, lookupEntry st.backend t = some e ∧ e.revoked = true ∧
       e.session_id = sess0) →
    (∀ op ∈ ops, ∀ now real dtype fam lvl sess hex,
      op = .store now real dtype fam lvl sess hex →
        mkToken dtype hex ≠ t) →
    NodupKeys (applyOps ops st) ∧
    (lookupEntry (applyOps ops st).backend t = none ∨
     ∃ e', lookupEntry (applyOps ops st).backend t = some e' ∧
       e'.revoked = true ∧ e'.session_id = sess0) := by
  intro ops
  induction ops with
  | nil =>
    intro st hnd t sess0 hinv hns
    exact ⟨hnd, hinv⟩
  | cons op rest ih =>
    intro st hnd t sess0 hinv hns
    have hnd1 := applyOp_nodup op st hnd
    have hinv1 : lookupEntry (applyOp op st).backend t = none ∨
        ∃ e', lookupEntry (applyOp op st).backend t = some e' ∧
          e'.revoked = true ∧ e'.session_id = sess0 := by
      rcases hinv with hn | ⟨e, he, hr, hs⟩
      · exact Or.inl (none_persists op st t hn
          (hns op (List.mem_cons_self _ _)))
      · cases he' : lookupEntry (applyOp op st).backend t with
        | none => exact Or.inl rfl
        | some e' =>
          obtain ⟨h1, h2⟩ := revoked_persists op st hnd t e he hr e' he'
          exact Or.inr ⟨e', rfl, h1, h2.trans hs⟩
    exact ih (applyOp op st) hnd1 t sess0 hinv1
      (fun op' h' => hns op' (List.mem_cons_of_mem _ h'))

/-- `restore` of a lone valid token whose retrieval fails with a
`VaultAccessError` propagates that error (strict sessions). -/
theorem restore_single_err {t : Str} (hvt : validToken t = true)
    {now : Nat} {sess : Str} {st : VaultState} {err : VErr}
    (hret : (vaultRetrieve now t sess callerRESOLVER st).2 = .error err)
    (hacc : err.isVaultAccess = true) :
    (restore t sess now st).2 = .error err := by
  unfold restore resolveText
  rw [findTokens_self hvt, if_neg (by simp)]
  rw [show ([(t, 0, t.length)] : List (Str × Nat × Nat)).reverse
      = [(t, 0, t.length)] from rfl]
  simp only [resolveLoop]
  rw [if_neg (List.not_mem_nil t)]
  rcases hr2 : vaultRetrieve now t sess callerRESOLVER st with ⟨st2, r⟩
  rw [hr2] at hret
  simp only at hret
  subst hret
  simp [hacc]

/-- C4: after `revoke_session(s)` — and any subsequent operation
sequence that does not freshly re-mint the very same token string —
restoring content consisting of a token of `s` with session `s` fails
with a `VaultAccessError`; and a revoked entry never has its flag
cleared by any single operation. -/
theorem C4_revocation_monotone (st : VaultState) (hnd : NodupKeys st)
    (sess t : Str) (e : VaultEntry)
    (he : lookupEntry st.backend t = some e) (hs : e.session_id = sess)
    (hvt : validToken t = true) (ops : List VaultOp)
    (hfresh : ∀ op ∈ ops, ∀ now real dtype fam lvl sess' hex,
      op = .store now real dtype fam lvl sess' hex →
        mkToken dtype hex ≠ t)
    (now' : Nat) :
    (∃ err, (restore t sess now'
        (applyOps ops (vaultRevoke sess st).1)).2 = .error err ∧
      err.isVaultAccess = true) ∧
    (∀ (op : VaultOp) (st' : VaultState) (t' : Str) (e' e'' : VaultEntry),
      NodupKeys st' → lookupEntry st'.backend t' = some e' →
      e'.revoked = true →
      lookupEntry (applyOp op st').backend t' = some e'' →
      e''.revoked = true) := by
  constructor
  · have hndr : NodupKeys (vaultRevoke sess st).1 := by
      unfold NodupKeys
      rw [vaultRevoke_keys]
      exact hnd
    have hrevk : lookupEntry (vaultRevoke sess st).1.backend t
        = some { e with revoked := true } := vaultRevoke_lookup sess st t e he hs
    have hinv := ops_invariant ops (vaultRevoke sess st).1 hndr t sess
      (Or.inr ⟨{ e with revoked := true }, hrevk, rfl, hs⟩) hfresh
    rcases hinv.2 with hn | ⟨e', he', hr', hs'⟩
    · refine ⟨.notFound, restore_single_err hvt ?_ (by rfl), rfl⟩
      simp only [vaultRetrieve, hn]
    · refine ⟨.revokedErr, restore_single_err hvt ?_ (by rfl), rfl⟩
      have hac : accessCheck callerRESOLVER sess e'.session_id = none := by
        unfold accessCheck
        rw [if_neg (by simp), if_neg (by rw [hs']; exact fun h => h rfl)]
      simp [vaultRetrieve, he', hac, hr']
  · exact fun op st' t' e' e'' hnd' he' hr' he'' =>
      (revoked_persists op st' hnd' t' e' he' hr' e'' he'').1

/-- Concrete state for the C4 witness. -/
def stW4 : VaultState :=
  (vaultStore 0 "v".toList "EMAIL".toList "PII".toList "LOW".toList
    "sess_aaaa0000".toList "AAAAAAAA".toList (initialVault 30)).1

/-- C4 witness. -/
theorem C4_revocation_monotone_witness :
    ∃ err, (restore (mkToken "EMAIL".toList "AAAAAAAA".toList)
        "sess_aaaa0000".toList 0
        (applyOps [] (vaultRevoke "sess_aaaa0000".toList stW4).1)).2
      = .error err ∧ err.isVaultAccess = true :=
  (C4_revocation_monotone stW4 (by unfold NodupKeys; decide) "sess_aaaa0000".toList
    (mkToken "EMAIL".toList "AAAAAAAA".toList)
    ⟨"v".toList, "sess_aaaa0000".toList, "sess_aaaa0000".toList,
     "EMAIL".toList, "PII".toList, "LOW".toList, 0, some 30, false⟩
    (by decide) (by decide) (by decide) []
    (fun op hop => absurd hop (List.not_mem_nil _)) 0).1

/-! ## Claim C10 — the alerts returned by `protect`

`protect` returns `self._vault.get_alerts()` — the engine's full alert
list since construction — but only on the vaulting path; the clean-input
early return at line 138 hard-codes `alerts=[]`, so a `protect` call
with no findings does NOT report earlier alerts. -/

/-- State after a first `protect` that fired one critical alert. -/
def stW10 : VaultState :=
  (protect [⟨"sk-abc".toList, "OPENAI_KEY".toList, "SECRETS".toList,
      "CRITICAL".toList⟩] ["A3F2B7C1".toList] "sess_aaaa0000".toList 0
    "key sk-abc".toList (initialVault 30)).1

/-- C10 (counterexample): after an earlier `protect` fired an alert,
a clean-input `protect` returns `alerts = []` even though the
instance's alert engine holds one alert — refuting "the alerts field of
EVERY protect call equals all alerts fired since construction". -/
theorem C10_counterexample :
    (match (protect [] [] "sess_bbbb0000".toList 0 "hi".toList
        stW10).2 with
     | .ok pr => pr.alerts
     | .error _ => stW10.alerts) = [] ∧
    stW10.alerts.length = 1 := by decide

theorem alertCheck_alerts_prefix (dt fam lvl token sess : Str)
    (st : VaultState) :
    st.alerts <+: (alertCheck dt fam lvl token sess st).alerts := by
  unfold alertCheck
  split
  · exact List.prefix_refl _
  · split
    · exact List.prefix_append _ _
    · exact List.prefix_refl _

theorem vaultStore_alerts_prefix (now : Nat) (real dtype fam lvl sess hex : Str)
    (st : VaultState) :
    st.alerts <+: (vaultStore now real dtype fam lvl sess hex st).1.alerts := by
  cases hbs : backendStore st.backend (mkToken dtype hex)
      (storeEntry now real sess st.expiryMins dtype fam lvl) with
  | error u =>
    rw [vaultStore_err hbs]
  | ok b' =>
    rw [vaultStore_ok hbs]
    exact alertCheck_alerts_prefix dtype fam lvl (mkToken dtype hex) sess
      { st with backend := b', audit := st.audit ++
        [auditRecord "store".toList (mkToken dtype hex) sess callerOWNER
          "success".toList (some dtype) (some fam) none] }

theorem protectLoop_alerts_prefix (now : Nat) (sess : Str) :
    ∀ (rs : List ScanRes) (hexes : List Str) (acc : List (Str × Str))
      (st st' : VaultState) (r : Except Unit (List (Str × Str))),
      protectLoop now sess rs hexes acc st = (st', r) →
      st.alerts <+: st'.alerts := by
  intro rs
  induction rs with
  | nil =>
    intro hexes acc st st' r h
    simp only [protectLoop] at h
    have h1 := congrArg Prod.fst h
    simp only at h1
    rw [← h1]
  | cons r0 rest ih =>
    intro hexes acc st st' r h
    simp only [protectLoop] at h
    split at h
    · exact ih hexes acc st st' r h
    · rcases hst : vaultStore now r0.value r0.dtype r0.family r0.alertLevel
          sess (hexes.headD "00000000".toList) st with ⟨st1, res⟩
      rw [hst] at h
      have hpre1 : st.alerts <+: st1.alerts := by
        have := vaultStore_alerts_prefix now r0.value r0.dtype r0.family
          r0.alertLevel sess (hexes.headD "00000000".toList) st
        rw [hst] at this
        exact this
      cases res with
      | ok token =>
        exact hpre1.trans (ih hexes.tail (acc ++ [(r0.value, token)])
          st1 st' r h)
      | error e =>
        simp only at h
        have h1 := congrArg Prod.fst h
        simp only at h1
        rw [← h1]
        exact hpre1

/-- C10 (amended): when findings exist, the alerts field of `protect`'s
result is the vault's complete alert list — the prior alerts of the
instance (earlier sessions included) followed by this call's; but a
clean-input `protect` returns an empty alerts list and leaves the state
untouched, regardless of previously fired alerts. -/
theorem C10_alerts (rs : List ScanRes) (hexes : List Str) (sess : Str)
    (now : Nat) (input : Str) (st st' : VaultState) (pr : ProtectResult)
    (hok : protect rs hexes sess now input st = (st', .ok pr)) :
    (rs = [] → pr.alerts = [] ∧ st' = st) ∧
    (rs ≠ [] → pr.alerts = st'.alerts ∧ st.alerts <+: st'.alerts) := by
  constructor
  · intro hrs
    subst hrs
    rw [protect, if_pos rfl] at hok
    obtain ⟨h1, h2⟩ := Prod.mk.injEq .. ▸ hok
    refine ⟨?_, h1.symm⟩
    have h3 := Except.ok.injEq .. ▸ h2
    rw [← h3]
  · intro hrs
    rw [protect, if_neg hrs] at hok
    rcases hpl : protectLoop now sess rs hexes [] st with ⟨st1, res⟩
    rw [hpl] at hok
    cases res with
    | ok vt =>
      simp only at hok
      obtain ⟨h1, h2⟩ := Prod.mk.injEq .. ▸ hok
      have h3 : (⟨substituteText vt input, sess, vt.length, st1.alerts, rs⟩
          : ProtectResult) = pr := Except.ok.injEq .. ▸ h2
      rw [← h3, ← h1]
      exact ⟨rfl, protectLoop_alerts_prefix now sess rs hexes [] st st1
        (.ok vt) hpl⟩
    | error e =>
      simp only at hok
      exact absurd (Prod.mk.injEq .. ▸ hok).2 (by simp)

/-- C10 witness. -/
theorem C10_alerts_witness :
    (⟨"hi".toList, "sess_aaaa0000".toList, 0, [], []⟩
        : ProtectResult).alerts = [] ∧
    initialVault 30 = initialVault 30 :=
  (C10_alerts [] [] "sess_aaaa0000".toList 0 "hi".toList (initialVault 30)
    (initialVault 30) ⟨"hi".toList, "sess_aaaa0000".toList, 0, [], []⟩
    rfl).1 rfl

/-! ## Folding substitution passes over a decomposition (C1/C2 core) -/

/-- Folding `str.replace` passes (one per `(value, token)` pair) over a
well-formed decomposition: the flattened text tracks the fold, the
original text is preserved, every piece pair comes from the map or the
initial decomposition, and every processed value is banished from the
literals. -/
theorem substFold_decomp :
    ∀ (L : List (Str × Str)) (d : Decomp),
      (∀ q ∈ L, q.1 ≠ [] ∧ '⟨' ∉ q.1 ∧ '⟩' ∉ q.1 ∧ TokenLike q.2) →
      (∀ q ∈ L, ∀ q' ∈ L, ¬ q.1 <:+: q'.2) →
      (∀ q ∈ L, ∀ p ∈ d.pieces, ¬ q.1 <:+: p.2.2) →
      (∀ p ∈ d.pieces, TokenLike p.2.2) →
      ∃ d' : Decomp,
        L.foldl (fun acc q => replaceAll q.1 q.2 acc) d.flat = d'.flat ∧
        d'.orig = d.orig ∧
        (∀ p ∈ d'.pieces, p.2 ∈ L ∨ ∃ p0 ∈ d.pieces, p.2 = p0.2) ∧
        (∀ u : Str, d.NoLit u → d'.NoLit u) ∧
        (∀ q ∈ L, d'.NoLit q.1) := by
  intro L
  induction L with
  | nil =>
    intro d _ _ _ _
    exact ⟨d, rfl, rfl, fun p hp => Or.inr ⟨p, hp, rfl⟩, fun u h => h,
      fun q hq => absurd hq (List.not_mem_nil _)⟩
  | cons q0 L' ih =>
    intro d hgood hcross hpieces htok
    obtain ⟨v, t⟩ := q0
    obtain ⟨hv, hvo, hvc, htlt⟩ := hgood (v, t) (List.mem_cons_self _ _)
    have htok1 : ∀ p ∈ (d.substValue v t).pieces, TokenLike p.2.2 := by
      intro p hp
      rcases substValue_pairs v t d p hp with h | ⟨p0, hp0, h⟩
      · rw [show p.2.2 = t from by rw [h]]
        exact htlt
      · rw [show p.2.2 = p0.2.2 from by rw [h]]
        exact htok p0 hp0
    have hpieces1 : ∀ q ∈ L', ∀ p ∈ (d.substValue v t).pieces,
        ¬ q.1 <:+: p.2.2 := by
      intro q hq p hp
      rcases substValue_pairs v t d p hp with h | ⟨p0, hp0, h⟩
      · rw [show p.2.2 = t from by rw [h]]
        exact hcross q (List.mem_cons_of_mem _ hq) (v, t)
          (List.mem_cons_self _ _)
      · rw [show p.2.2 = p0.2.2 from by rw [h]]
        exact hpieces q (List.mem_cons_of_mem _ hq) p0 hp0
    obtain ⟨d', hflat, horig, hpairs, hpres, hnl⟩ := ih (d.substValue v t)
      (fun q hq => hgood q (List.mem_cons_of_mem _ hq))
      (fun q hq q' hq' => hcross q (List.mem_cons_of_mem _ hq) q'
        (List.mem_cons_of_mem _ hq'))
      hpieces1 htok1
    refine ⟨d', ?_, ?_, ?_, ?_, ?_⟩
    · rw [List.foldl_cons, ← hflat]
      congr 1
      exact (substValue_flat t hv hvo hvc d.pieces d.tail
        (fun p hp => ⟨htok p hp,
          hpieces (v, t) (List.mem_cons_self _ _) p hp⟩)).symm
    · rw [horig]
      exact substValue_orig v t d.pieces d.tail
    · intro p hp
      rcases hpairs p hp with h | ⟨p0, hp0, h⟩
      · exact Or.inl (List.mem_cons_of_mem _ h)
      · rcases substValue_pairs v t d p0 hp0 with h2 | ⟨p1, hp1, h2⟩
        · exact Or.inl (by rw [h, h2]; exact List.mem_cons_self _ _)
        · exact Or.inr ⟨p1, hp1, by rw [h, h2]⟩
    · intro u hu
      exact hpres u (substValue_noLit_pres v t d hu)
    · intro q hq
      simp only [List.mem_cons] at hq
      rcases hq with rfl | hq
      · exact hpres v (substValue_noLit_self t hv d)
      · exact hnl q hq

/-- A delimiter-free string absent from every literal and token of a
decomposition does not occur in the flattened text. -/
theorem noLit_not_infix_flat {u : Str} (hu : u ≠ []) (hno : '⟨' ∉ u)
    (hnc : '⟩' ∉ u) :
    ∀ (ps : List Piece) (tl : Str),
      (∀ p ∈ ps, TokenLike p.2.2 ∧ ¬ u <:+: p.2.2) →
      (∀ p ∈ ps, ¬ u <:+: p.1) → ¬ u <:+: tl →
      ¬ u <:+: Decomp.flat ⟨ps, tl⟩ := by
  intro ps
  induction ps with
  | nil =>
    intro tl _ _ htl
    rw [Decomp.flat_nil]
    exact htl
  | cons p ps ih =>
    intro tl htok hlit htl
    obtain ⟨l, v', tk⟩ := p
    rw [Decomp.flat_cons]
    have h0 := htok (l, v', tk) (List.mem_cons_self _ _)
    have hrest : ¬ u <:+: Decomp.flat ⟨ps, tl⟩ :=
      ih tl (fun q hq => htok q (List.mem_cons_of_mem _ hq))
        (fun q hq => hlit q (List.mem_cons_of_mem _ hq)) htl
    refine not_infix_append (hlit _ (List.mem_cons_self _ _)) ?_ ?_
    · refine not_infix_append h0.2 hrest ?_
      exact noCross_out_of_close
        (fun hm => hnc (List.dropLast_subset _ hm))
        (tokenLike_getLast h0.1)
    · exact noCross_into_open (fun hm => hno (List.tail_subset _ hm))
        (tokenLike_head_append _ h0.1)

/-- `generate_token` output is a `⟨…⟩`-delimited token whenever the hex
part contains no delimiter (uppercase hex always qualifies). -/
theorem mkToken_tokenLike {typeName hex : Str}
    (hhex : ∀ c ∈ hex, c ≠ '⟨' ∧ c ≠ '⟩') :
    TokenLike (mkToken typeName hex) := by
  refine ⟨"TKN_".toList ++ sanitizeType typeName ++ '_' :: hex, ?_, ?_, ?_⟩
  · simp [mkToken]
  · intro hmem
    simp only [List.mem_append, List.mem_cons] at hmem
    rcases hmem with (h | h) | h | h
    · exact absurd h (by decide)
    · exact (classChar_ne_delim (Or.inr (Or.inr (Or.inr (Or.inl
        (sanitizeType_chars typeName _ h)))))).1 rfl
    · exact absurd h.symm (by decide)
    · exact (hhex _ h).1 rfl
  · intro hmem
    simp only [List.mem_append, List.mem_cons] at hmem
    rcases hmem with (h | h) | h | h
    · exact absurd h (by decide)
    · exact (classChar_ne_delim (Or.inr (Or.inr (Or.inr (Or.inl
        (sanitizeType_chars typeName _ h)))))).2 rfl
    · exact absurd h.symm (by decide)
    · exact (hhex _ h).2 rfl

theorem lookupVal_mem {acc : List (Str × Str)} {v t : Str}
    (h : lookupVal acc v = some t) : (v, t) ∈ acc := by
  induction acc with
  | nil => simp [lookupVal] at h
  | cons p rest ih =>
    obtain ⟨v0, t0⟩ := p
    simp only [lookupVal] at h
    by_cases hv : v0 = v
    · rw [if_pos hv] at h
      obtain rfl := Option.some_injective _ h
      subst hv
      exact List.mem_cons_self _ _
    · rw [if_neg hv] at h
      exact List.mem_cons_of_mem _ (ih h)

theorem buildMapGo_acc_mono :
    ∀ (rs : List ScanRes) (hexes : List Str) (acc : List (Str × Str))
      (q : Str × Str), q ∈ acc → q ∈ buildMapGo rs hexes acc := by
  intro rs
  induction rs with
  | nil =>
    intro hexes acc q hq
    exact hq
  | cons r rest ih =>
    intro hexes acc q hq
    simp only [buildMapGo]
    split
    · exact ih hexes acc q hq
    · exact ih hexes.tail _ q (List.mem_append_left _ hq)

/-- Every scanned value appears as a key of the `value_to_token` map. -/
theorem buildMapGo_mem_value :
    ∀ (rs : List ScanRes) (hexes : List Str) (acc : List (Str × Str)),
      ∀ r ∈ rs, ∃ t, (r.value, t) ∈ buildMapGo rs hexes acc := by
  intro rs
  induction rs with
  | nil =>
    intro hexes acc r hr
    exact absurd hr (List.not_mem_nil _)
  | cons r0 rest ih =>
    intro hexes acc r hr
    simp only [List.mem_cons] at hr
    simp only [buildMapGo]
    rcases hr with rfl | hr
    · by_cases hl : (lookupVal acc r.value).isSome = true
      · rw [if_pos hl]
        obtain ⟨t, ht⟩ := Option.isSome_iff_exists.mp hl
        exact ⟨t, buildMapGo_acc_mono rest hexes acc _ (lookupVal_mem ht)⟩
      · rw [if_neg hl]
        refine ⟨mkToken r.dtype (hexes.headD "00000000".toList),
          buildMapGo_acc_mono rest hexes.tail _ _ ?_⟩
        exact List.mem_append_right _ (List.mem_singleton.mpr rfl)
    · by_cases hl : (lookupVal acc r0.value).isSome = true
      · rw [if_pos hl]
        exact ih hexes acc r hr
      · rw [if_neg hl]
        exact ih hexes.tail _ r hr

/-- Provenance of map entries: each comes from the accumulator or pairs
a scanned value with a token minted from its type and a supplied (or
the fallback) hex. -/
theorem buildMapGo_tokens :
    ∀ (rs : List ScanRes) (hexes : List Str) (acc : List (Str × Str)),
      ∀ q ∈ buildMapGo rs hexes acc,
        q ∈ acc ∨ ∃ r ∈ rs, ∃ hx,
          (hx ∈ hexes ∨ hx = "00000000".toList) ∧
          q.1 = r.value ∧ q.2 = mkToken r.dtype hx := by
  intro rs
  induction rs with
  | nil =>
    intro hexes acc q hq
    exact Or.inl hq
  | cons r0 rest ih =>
    intro hexes acc q hq
    simp only [buildMapGo] at hq
    split at hq
    · rcases ih hexes acc q hq with h | ⟨r, hr, hx, hhx, he1, he2⟩
      · exact Or.inl h
      · exact Or.inr ⟨r, List.mem_cons_of_mem _ hr, hx, hhx, he1, he2⟩
    · rcases ih hexes.tail _ q hq with h | ⟨r, hr, hx, hhx, he1, he2⟩
      · simp only [List.mem_append, List.mem_singleton] at h
        rcases h with h | h
        · exact Or.inl h
        · refine Or.inr ⟨r0, List.mem_cons_self _ _,
            hexes.headD "00000000".toList, ?_, by rw [h], by rw [h]⟩
          cases hexes with
          | nil => exact Or.inr rfl
          | cons a rest2 => exact Or.inl (by simp)
      · refine Or.inr ⟨r, List.mem_cons_of_mem _ hr, hx, ?_, he1, he2⟩
        rcases hhx with h2 | h2
        · exact Or.inl (List.tail_subset _ h2)
        · exact Or.inr h2

/-- The map `protect` builds is `buildMapGo` (the store's token is wholly
determined by the type and the hex; collisions with the same session are
no-ops that still return the same token). -/
theorem protectLoop_map (now : Nat) (sess : Str) :
    ∀ (rs : List ScanRes) (hexes : List Str) (acc : List (Str × Str))
      (st st' : VaultState) (vt : List (Str × Str)),
      protectLoop now sess rs hexes acc st = (st', .ok vt) →
      vt = buildMapGo rs hexes acc := by
  intro rs
  induction rs with
  | nil =>
    intro hexes acc st st' vt h
    simp only [protectLoop, buildMapGo] at h ⊢
    have h2 := congrArg Prod.snd h
    simp only at h2
    exact (Except.ok.injEq .. ▸ h2).symm
  | cons r rest ih =>
    intro hexes acc st st' vt h
    simp only [protectLoop] at h
    simp only [buildMapGo]
    split at h
    · next hcond =>
      rw [if_pos hcond]
      exact ih hexes acc st st' vt h
    · next hcond =>
      rw [if_neg hcond]
      rcases hst : vaultStore now r.value r.dtype r.family r.alertLevel sess
          (hexes.headD "00000000".toList) st with ⟨st1, res⟩
      rw [hst] at h
      cases res with
      | ok token =>
        simp only at h
        have htk : mkToken r.dtype (hexes.headD "00000000".toList)
            = token := by
          cases hbs : backendStore st.backend
              (mkToken r.dtype (hexes.headD "00000000".toList))
              (storeEntry now r.value sess st.expiryMins r.dtype r.family
                r.alertLevel) with
          | error u =>
            rw [vaultStore_err hbs] at hst
            exact absurd (congrArg Prod.snd hst) (by simp)
          | ok b' =>
            rw [vaultStore_ok hbs] at hst
            have h2 := congrArg Prod.snd hst
            simp only at h2
            exact Except.ok.injEq .. ▸ h2
        rw [htk]
        exact ih hexes.tail _ st1 st' vt h
      | error e =>
        simp only at h
        have h2 := congrArg Prod.snd h
        simp only at h2
        exact absurd h2 (by simp)

/-- The safe content of a vaulting `protect` is the substitution fold
over the built map. -/
theorem protect_safe_content {rs : List ScanRes} {hexes : List Str}
    {sess : Str} {now : Nat} {input : Str} {st st' : VaultState}
    {pr : ProtectResult}
    (hok : protect rs hexes sess now input st = (st', .ok pr))
    (hne : rs ≠ []) :
    pr.safe_content = substituteText (buildMap rs hexes) input ∧
    pr.session_id = sess := by
  rw [protect, if_neg hne] at hok
  rcases hpl : protectLoop now sess rs hexes [] st with ⟨st1, res⟩
  rw [hpl] at hok
  cases res with
  | ok vt =>
    simp only at hok
    have h2 := congrArg Prod.snd hok
    simp only at h2
    have h3 : (⟨substituteText vt input, sess, vt.length, st1.alerts, rs⟩
        : ProtectResult) = pr := Except.ok.injEq .. ▸ h2
    have hvt : vt = buildMap rs hexes :=
      protectLoop_map now sess rs hexes [] st st1 vt hpl
    rw [← h3]
    exact ⟨by rw [hvt], rfl⟩
  | error e =>
    simp only at hok
    have h2 := congrArg Prod.snd hok
    simp only at h2
    exact absurd h2 (by simp)

/-! ## Claim C2 — no-leak

`_substitute` replaces values longest-first with `str.replace`, but a
detected value can re-appear inside a *token* placed by the
substitution: for type `GENERIC_PASSWORD` the token
`⟨TKN_GENERIC_PASSWORD_…⟩` contains the 15-character value
`KN_GENERIC_PASS` — which the context engine detects verbatim for the
input `password = KN_GENERIC_PASS` (a sensitive `password` key with a
4+-character unquoted value is reported as `GENERIC_PASSWORD` with the
value exactly as written). -/

/-- C2 (counterexample): the detected value `KN_GENERIC_PASS` occurs as
a substring of the returned safe content. -/
theorem C2_counterexample :
    "KN_GENERIC_PASS".toList <:+:
      (match (protect [⟨"KN_GENERIC_PASS".toList,
          "GENERIC_PASSWORD".toList, "SECRETS".toList, "CRITICAL".toList⟩]
          ["ABCD1234".toList] "sess_aaaa0000".toList 0
          "password = KN_GENERIC_PASS".toList (initialVault 30)).2 with
       | .ok pr => pr.safe_content
       | .error _ => []) := by
  refine ⟨"password = ⟨T".toList, "WORD_ABCD1234⟩".toList, ?_⟩
  decide

/-- C2 (amended): no detected value occurs in the safe content,
PROVIDED each value contains no token delimiter and occurs inside no
token of the built map (the counterexample violates the latter). -/
theorem C2_no_leak (rs : List ScanRes) (hexes : List Str) (sess : Str)
    (now : Nat) (input : Str) (st st' : VaultState) (pr : ProtectResult)
    (hok : protect rs hexes sess now input st = (st', .ok pr))
    (hval : ∀ r ∈ rs, r.value ≠ [] ∧ '⟨' ∉ r.value ∧ '⟩' ∉ r.value)
    (hhex : ∀ hx ∈ hexes, ∀ c ∈ hx, isHexU c = true)
    (hcross : ∀ r ∈ rs, ∀ q ∈ buildMap rs hexes, ¬ r.value <:+: q.2) :
    ∀ r ∈ rs, ¬ r.value <:+: pr.safe_content := by
  intro r hr
  by_cases hne : rs = []
  · rw [hne] at hr
    exact absurd hr (List.not_mem_nil _)
  have htokL : ∀ q ∈ buildMap rs hexes, TokenLike q.2 := by
    intro q hq
    rcases buildMapGo_tokens rs hexes [] q hq with h | ⟨r0, -, hx, hhx, -, he2⟩
    · exact absurd h (List.not_mem_nil _)
    · rw [he2]
      apply mkToken_tokenLike
      intro c hc
      rcases hhx with h2 | h2
      · exact classChar_ne_delim (Or.inr (Or.inr (Or.inl (hhex hx h2 c hc))))
      · subst h2
        have hall : ∀ x ∈ "00000000".toList, isHexU x = true := by decide
        exact classChar_ne_delim (Or.inr (Or.inr (Or.inl (hall c hc))))
  have hvalL : ∀ q ∈ buildMap rs hexes, ∃ r0 ∈ rs, q.1 = r0.value := by
    intro q hq
    rcases buildMapGo_tokens rs hexes [] q hq with h | ⟨r0, hr0, hx, -, he1, -⟩
    · exact absurd h (List.not_mem_nil _)
    · exact ⟨r0, hr0, he1⟩
  have hperm := List.perm_insertionSort
    (fun a b : Str × Str => b.1.length ≤ a.1.length) (buildMap rs hexes)
  have hmemL : ∀ q, q ∈ sortValsDesc (buildMap rs hexes)
      ↔ q ∈ buildMap rs hexes := fun q => hperm.mem_iff
  obtain ⟨d', hflat, horig, hpairs, hpres, hnl⟩ := substFold_decomp
    (sortValsDesc (buildMap rs hexes)) ⟨[], input⟩
    (by
      intro q hq
      have hq2 := (hmemL q).mp hq
      obtain ⟨r0, hr0, he⟩ := hvalL q hq2
      obtain ⟨h1, h2, h3⟩ := hval r0 hr0
      rw [he]
      exact ⟨h1, h2, h3, htokL q hq2⟩)
    (by
      intro q hq q' hq'
      have hq2 := (hmemL q).mp hq
      have hq2' := (hmemL q').mp hq'
      obtain ⟨r0, hr0, he⟩ := hvalL q hq2
      rw [he]
      exact hcross r0 hr0 q' hq2')
    (fun q hq p hp => absurd hp (List.not_mem_nil _))
    (fun p hp => absurd hp (List.not_mem_nil _))
  obtain ⟨hsafe, -⟩ := protect_safe_content hok hne
  rw [hsafe]
  have hfold : substituteText (buildMap rs hexes) input = d'.flat := by
    unfold substituteText
    rw [show input = Decomp.flat ⟨[], input⟩ from (Decomp.flat_nil input).symm]
    exact hflat
  rw [hfold]
  obtain ⟨hv, hvo, hvc⟩ := hval r hr
  obtain ⟨t0, ht0⟩ := buildMapGo_mem_value rs hexes [] r hr
  have hnlr : d'.NoLit r.value := by
    have := hnl (r.value, t0) ((hmemL (r.value, t0)).mpr ht0)
    exact this
  refine noLit_not_infix_flat hv hvo hvc d'.pieces d'.tail ?_ hnlr.1 hnlr.2
  intro p hp
  rcases hpairs p hp with h | ⟨p0, hp0, h⟩
  · have h2 := (hmemL p.2).mp h
    exact ⟨htokL p.2 h2, hcross r hr p.2 h2⟩
  · exact absurd hp0 (List.not_mem_nil _)

/-- Concrete `protect` invocation for the C2 witness. -/
def protC2 : VaultState × Except Unit ProtectResult :=
  protect [⟨"bob@x.com".toList, "EMAIL".toList, "PII".toList,
    "MEDIUM".toList⟩] ["A3F2B7C1".toList] "sess_aaaa0000".toList 0
    "mail bob@x.com".toList (initialVault 30)

def prC2 : ProtectResult :=
  match protC2.2 with
  | .ok pr => pr
  | .error _ => ⟨[], [], 0, [], []⟩

/-- C2 witness. -/
theorem C2_no_leak_witness :
    ¬ "bob@x.com".toList <:+: prC2.safe_content := by
  have h := C2_no_leak [⟨"bob@x.com".toList, "EMAIL".toList, "PII".toList,
      "MEDIUM".toList⟩] ["A3F2B7C1".toList] "sess_aaaa0000".toList 0
    "mail bob@x.com".toList (initialVault 30) protC2.1 prC2 rfl
    (by decide) (by decide) (by decide)
  exact h ⟨"bob@x.com".toList, "EMAIL".toList, "PII".toList,
    "MEDIUM".toList⟩ (List.mem_cons_self _ _)

/-! ## Claim C1 — the protect/restore round trip -/

theorem alertCheck_expiry (dt fam lvl token sess : Str) (st : VaultState) :
    (alertCheck dt fam lvl token sess st).expiryMins = st.expiryMins := by
  unfold alertCheck
  split
  · rfl
  · split <;> rfl

theorem prependLit_pairs_rev (x : Str) (r : List Piece × Str) :
    ∀ q ∈ r.1, ∃ q' ∈ (prependLit x r).1, q'.2 = q.2 := by
  obtain ⟨ps, tl⟩ := r
  cases ps with
  | nil =>
    intro q hq
    exact absurd hq (List.not_mem_nil _)
  | cons p ps =>
    obtain ⟨l, v', t'⟩ := p
    intro q hq
    rw [prependLit_cons]
    simp only [List.mem_cons] at hq
    rcases hq with rfl | hq
    · exact ⟨(x ++ l, v', t'), List.mem_cons_self _ _, rfl⟩
    · exact ⟨q, List.mem_cons_of_mem _ hq, rfl⟩

/-- `mergeTok` keeps (the pair of) every piece whose token differs from
the merged one. -/
theorem mergeTok_keeps (t : Str) :
    ∀ (ps : List Piece) (tl : Str), ∀ p ∈ ps, p.2.2 ≠ t →
      ∃ q ∈ (mergeTokGo t ps tl).1, q.2 = p.2 := by
  intro ps
  induction ps with
  | nil =>
    intro tl p hp _
    exact absurd hp (List.not_mem_nil _)
  | cons p0 ps ih =>
    intro tl p hp hne
    obtain ⟨l, v', tk⟩ := p0
    simp only [mergeTokGo]
    simp only [List.mem_cons] at hp
    rcases hp with rfl | hp2
    · rw [if_neg hne]
      exact ⟨(l, v', tk), List.mem_cons_self _ _, rfl⟩
    · by_cases htk : tk = t
      · rw [if_pos htk]
        obtain ⟨q, hq, he⟩ := ih tl p hp2 hne
        obtain ⟨q', hq', he'⟩ := prependLit_pairs_rev (l ++ v') _ q hq
        exact ⟨q', hq', he'.trans he⟩
      · rw [if_neg htk]
        obtain ⟨q, hq, he⟩ := ih tl p hp2 hne
        exact ⟨q, List.mem_cons_of_mem _ hq, he⟩

/-- The well-formed-state facts `resolveLoop` needs of a vault entry. -/
def EntryOK (now : Nat) (sess : Str) (st : VaultState) (v t : Str) : Prop :=
  ∃ entry : VaultEntry,
    lookupEntry st.backend t = some entry ∧
    entry.encValue = v ∧ entry.encSession = entry.session_id ∧
    entry.session_id = sess ∧ entry.revoked = false ∧
    (match entry.expires_at with
     | some exp => decide (exp < now)
     | none => false) = false

/-- The resolver's loop over the scanner's matches undoes a well-formed
decomposition: it returns the original text. -/
theorem resolveLoop_ok (now : Nat) (sess x : Str)
    (hx : ∀ t : Str, validToken t = true → ¬ t <:+: x) :
    ∀ (ms : List (Str × Nat × Nat)) (processed : List Str) (d : Decomp)
      (st : VaultState),
      d.orig = x →
      (∀ p ∈ d.pieces, validToken p.2.2 = true) →
      (∀ p ∈ d.pieces, p.2.2 ∉ processed) →
      (∀ p ∈ d.pieces, p.2.2 ∈ ms.map fun m => m.1) →
      (∀ p ∈ d.pieces, ∀ p' ∈ d.pieces, p.2.2 = p'.2.2 → p.2.1 = p'.2.1) →
      (∀ p ∈ d.pieces, EntryOK now sess st p.2.1 p.2.2) →
      (∀ m ∈ ms, m.1 ∈ processed ∨ m.1 ∈ d.pieces.map fun p => p.2.2) →
      ∃ st'', resolveLoop true true now sess ms processed d.flat st
        = (st'', .ok x) := by
  intro ms
  induction ms with
  | nil =>
    intro processed d st horig hval hproc hmem hfun hent hminv
    obtain ⟨ps, tl⟩ := d
    cases ps with
    | cons p ps' =>
      have := hmem p (List.mem_cons_self _ _)
      simp at this
    | nil =>
      refine ⟨st, ?_⟩
      simp only [resolveLoop]
      rw [Decomp.flat_nil]
      rw [Decomp.orig_nil] at horig
      rw [horig]
  | cons m mrest ih =>
    intro processed d st horig hval hproc hmem hfun hent hminv
    obtain ⟨tok, a, b⟩ := m
    by_cases hp : tok ∈ processed
    · -- skipped
      obtain ⟨st'', h⟩ := ih processed d st horig hval hproc
        (by
          intro p hpp
          have h2 := hmem p hpp
          simp only [List.map_cons, List.mem_cons] at h2
          rcases h2 with h2 | h2
          · exact absurd (h2 ▸ hp) (hproc p hpp)
          · exact h2)
        hfun hent
        (fun m' hm' => hminv m' (List.mem_cons_of_mem _ hm'))
      refine ⟨st'', ?_⟩
      simp only [resolveLoop]
      rw [if_pos hp]
      exact h
    · -- a fresh token: it labels some piece
      have htokp : tok ∈ d.pieces.map fun p => p.2.2 := by
        rcases hminv (tok, a, b) (List.mem_cons_self _ _) with h | h
        · exact absurd h hp
        · exact h
      simp only [List.mem_map] at htokp
      obtain ⟨pstar, hpstar, htokeq⟩ := htokp
      obtain ⟨entry, hlook, hev, hes, hsess, hrev, hexp⟩ :=
        hent pstar hpstar
      have hvalid : validToken tok = true := htokeq ▸ hval pstar hpstar
      -- the retrieval succeeds and only touches the audit log
      have hret : vaultRetrieve now tok sess callerRESOLVER st
          = ({ st with audit := st.audit
              ++ [auditRecord "retrieve".toList tok sess callerRESOLVER
                  "success".toList (some entry.data_type) none none] },
             .ok entry.encValue) := by
        have hac : accessCheck callerRESOLVER sess entry.session_id
            = none := by
          unfold accessCheck
          rw [if_neg (by simp), if_neg (by rw [hsess]; exact fun h => h rfl)]
        have hdec : decryptValue entry.encValue entry.encSession
            entry.session_id = some entry.encValue := by
          unfold decryptValue
          rw [if_pos hes]
        rw [htokeq] at hlook
        simp [vaultRetrieve, hlook, hac, hrev, hexp, hdec]
      -- merging the token is the textual replacement
      have hmerge : (d.mergeTok tok).flat
          = replaceAll tok entry.encValue d.flat := by
        apply mergeTok_flat (validToken_tokenLike hvalid) d.pieces d.tail
        · intro q hq
          exact validToken_tokenLike (hval q hq)
        · intro q hq hqt
          rw [hev]
          exact hfun q hq pstar hpstar (hqt.trans htokeq.symm)
        · intro q hq hqt
          intro hinf
          exact hqt (tokenLike_infix_eq (validToken_tokenLike hvalid)
            (validToken_tokenLike (hval q hq)) hinf).symm
        · intro q hq
          intro hinf
          exact hx tok hvalid (hinf.trans
            (horig ▸ (lits_infix_orig d.pieces d.tail).1 q hq))
        · intro hinf
          exact hx tok hvalid (hinf.trans
            (horig ▸ (lits_infix_orig d.pieces d.tail).2))
      -- apply the induction hypothesis to the merged decomposition
      obtain ⟨st'', h⟩ := ih (tok :: processed) (d.mergeTok tok)
        { st with audit := st.audit
            ++ [auditRecord "retrieve".toList tok sess callerRESOLVER
                "success".toList (some entry.data_type) none none] }
        (by
          show Decomp.orig ⟨(mergeTokGo tok d.pieces d.tail).1,
            (mergeTokGo tok d.pieces d.tail).2⟩ = x
          rw [mergeTok_orig]
          exact horig)
        (by
          intro q hq
          obtain ⟨-, p0, hp0, he⟩ := mergeTok_pairs tok d.pieces d.tail q hq
          rw [show q.2.2 = p0.2.2 from by rw [he]]
          exact hval p0 hp0)
        (by
          intro q hq
          obtain ⟨hne, p0, hp0, he⟩ := mergeTok_pairs tok d.pieces d.tail q hq
          simp only [List.mem_cons, not_or]
          exact ⟨hne, by
            rw [show q.2.2 = p0.2.2 from by rw [he]]
            exact hproc p0 hp0⟩)
        (by
          intro q hq
          obtain ⟨hne, p0, hp0, he⟩ := mergeTok_pairs tok d.pieces d.tail q hq
          have h2 := hmem p0 hp0
          simp only [List.map_cons, List.mem_cons] at h2
          rcases h2 with h2 | h2
          · exact absurd (by rw [he]; exact h2) hne
          · rw [show q.2.2 = p0.2.2 from by rw [he]]
            exact h2)
        (by
          intro q hq q' hq' he2
          obtain ⟨-, p0, hp0, he⟩ := mergeTok_pairs tok d.pieces d.tail q hq
          obtain ⟨-, p0', hp0', he'⟩ := mergeTok_pairs tok d.pieces d.tail q' hq'
          rw [show q.2.1 = p0.2.1 from by rw [he],
            show q'.2.1 = p0'.2.1 from by rw [he']]
          exact hfun p0 hp0 p0' hp0' (by
            rw [show p0.2.2 = q.2.2 from by rw [he],
              show p0'.2.2 = q'.2.2 from by rw [he']]
            exact he2))
        (by
          intro q hq
          obtain ⟨-, p0, hp0, he⟩ := mergeTok_pairs tok d.pieces d.tail q hq
          obtain ⟨entry2, h1, h2, h3, h4, h5, h6⟩ := hent p0 hp0
          exact ⟨entry2, by
            show lookupEntry st.backend q.2.2 = some entry2
            rw [show q.2.2 = p0.2.2 from by rw [he]]
            exact h1, by rw [show q.2.1 = p0.2.1 from by rw [he]]; exact h2,
            h3, h4, h5, h6⟩)
        (by
          intro m' hm'
          rcases hminv m' (List.mem_cons_of_mem _ hm') with h2 | h2
          · exact Or.inl (List.mem_cons_of_mem _ h2)
          · simp only [List.mem_map] at h2
            obtain ⟨p0, hp0, he0⟩ := h2
            by_cases hq : p0.2.2 = tok
            · exact Or.inl (by rw [← he0, hq]; exact List.mem_cons_self _ _)
            · obtain ⟨q, hq2, he2⟩ := mergeTok_keeps tok d.pieces d.tail
                p0 hp0 hq
              refine Or.inr ?_
              simp only [List.mem_map]
              exact ⟨q, hq2, by rw [show q.2.2 = p0.2.2 from by rw [he2],
                he0]⟩)
      refine ⟨st'', ?_⟩
      simp only [resolveLoop]
      rw [if_neg hp, hret]
      show resolveLoop true true now sess mrest (tok :: processed)
        (replaceAll tok entry.encValue d.flat) _ = (st'', .ok x)
      rw [← hmerge]
      exact h

theorem lookupVal_isSome_of_mem {acc : List (Str × Str)} {v t : Str}
    (h : (v, t) ∈ acc) : (lookupVal acc v).isSome = true := by
  induction acc with
  | nil => exact absurd h (List.not_mem_nil _)
  | cons p rest ih =>
    obtain ⟨v0, t0⟩ := p
    simp only [lookupVal]
    by_cases hv : v0 = v
    · rw [if_pos hv]
      rfl
    · rw [if_neg hv]
      simp only [List.mem_cons] at h
      rcases h with h | h
      · exact absurd (by rw [Prod.mk.injEq] at h; exact h.1.symm) hv
      · exact ih h

/-- The vaulting loop only appends: the map extends the accumulator,
the backend only grows, and the expiry configuration is unchanged. -/
theorem protectLoop_prefix (now : Nat) (sess : Str) :
    ∀ (rs : List ScanRes) (hexes : List Str) (acc : List (Str × Str))
      (st st' : VaultState) (vt : List (Str × Str)),
      protectLoop now sess rs hexes acc st = (st', .ok vt) →
      (∃ ext, vt = acc ++ ext) ∧
      (∃ bext, st'.backend = st.backend ++ bext) ∧
      st'.expiryMins = st.expiryMins := by
  intro rs
  induction rs with
  | nil =>
    intro hexes acc st st' vt h
    simp only [protectLoop] at h
    have h1 := congrArg Prod.fst h
    have h2 := congrArg Prod.snd h
    simp only at h1 h2
    have h3 : acc = vt := Except.ok.injEq .. ▸ h2
    rw [← h1, ← h3]
    exact ⟨⟨[], by simp⟩, ⟨[], by simp⟩, rfl⟩
  | cons r rest ih =>
    intro hexes acc st st' vt h
    simp only [protectLoop] at h
    split at h
    · obtain ⟨⟨ext, hext⟩, hb, he⟩ := ih hexes acc st st' vt h
      exact ⟨⟨ext, hext⟩, hb, he⟩
    · rcases hst2 : vaultStore now r.value r.dtype r.family r.alertLevel sess
          (hexes.headD "00000000".toList) st with ⟨st1, res⟩
      rw [hst2] at h
      cases res with
      | error e =>
        simp only at h
        have h2 := congrArg Prod.snd h
        simp only at h2
        exact absurd h2 (by simp)
      | ok token =>
        simp only at h
        obtain ⟨⟨ext, hext⟩, ⟨bext, hbext⟩, hexp⟩ :=
          ih hexes.tail (acc ++ [(r.value, token)]) st1 st' vt h
        have hst1 : (∃ b2, st1.backend = st.backend ++ b2) ∧
            st1.expiryMins = st.expiryMins := by
          cases hbs : backendStore st.backend
              (mkToken r.dtype (hexes.headD "00000000".toList))
              (storeEntry now r.value sess st.expiryMins r.dtype r.family
                r.alertLevel) with
          | error u =>
            have hc := (vaultStore_err hbs).symm.trans hst2
            have h2 := congrArg Prod.snd hc
            simp only at h2
            exact absurd h2 (by simp)
          | ok b' =>
            have hc := (vaultStore_ok hbs).symm.trans hst2
            have h1 := congrArg Prod.fst hc
            simp only at h1
            refine ⟨?_, by rw [← h1, alertCheck_expiry]⟩
            have hback : st1.backend = b' := by
              rw [← h1, alertCheck_backend]
            unfold backendStore at hbs
            cases hl : lookupEntry st.backend
                (mkToken r.dtype (hexes.headD "00000000".toList)) with
            | some existing =>
              rw [hl] at hbs
              simp only at hbs
              split at hbs
              · have hbb : st.backend = b' := Except.ok.injEq .. ▸ hbs
                exact ⟨[], by rw [hback, ← hbb]; simp⟩
              · exact absurd hbs (by simp)
            | none =>
              rw [hl] at hbs
              have hbb : st.backend
                  ++ [(mkToken r.dtype (hexes.headD "00000000".toList),
                    storeEntry now r.value sess st.expiryMins r.dtype
                      r.family r.alertLevel)] = b' :=
                Except.ok.injEq .. ▸ hbs
              exact ⟨_, by rw [hback, ← hbb]⟩
        obtain ⟨⟨b2, hb2⟩, hexp1⟩ := hst1
        refine ⟨⟨(r.value, token) :: ext, by rw [hext]; simp⟩,
          ⟨b2 ++ bext, by rw [hbext, hb2, List.append_assoc]⟩,
          by rw [hexp, hexp1]⟩

/-- After a successful vaulting loop, each freshly mapped token resolves
in the final backend to an entry carrying its value under the protect
session, unrevoked, with the configured expiry. -/
theorem protectLoop_entries (now : Nat) (sess : Str) :
    ∀ (rs : List ScanRes) (hexes : List Str) (acc : List (Str × Str))
      (st st' : VaultState) (vt : List (Str × Str)),
      protectLoop now sess rs hexes acc st = (st', .ok vt) →
      (vt.map fun q => q.2).Nodup →
      (∀ q ∈ vt, q ∉ acc → lookupEntry st.backend q.2 = none) →
      ∀ q ∈ vt, q ∉ acc →
        ∃ dt fam lvl, lookupEntry st'.backend q.2
          = some ⟨q.1, sess, sess, dt, fam, lvl, now,
              (if 0 < st.expiryMins then some (now + st.expiryMins)
               else none), false⟩ := by
  intro rs
  induction rs with
  | nil =>
    intro hexes acc st st' vt h hnd hfr q hq hqacc
    simp only [protectLoop] at h
    have h2 := congrArg Prod.snd h
    simp only at h2
    have h3 : acc = vt := Except.ok.injEq .. ▸ h2
    rw [← h3] at hq
    exact absurd hq hqacc
  | cons r rest ih =>
    intro hexes acc st st' vt h hnd hfr q hq hqacc
    simp only [protectLoop] at h
    split at h
    · exact ih hexes acc st st' vt h hnd hfr q hq hqacc
    · next hcond =>
      rcases hst2 : vaultStore now r.value r.dtype r.family r.alertLevel sess
          (hexes.headD "00000000".toList) st with ⟨st1, res⟩
      rw [hst2] at h
      cases res with
      | error e =>
        simp only at h
        have h2 := congrArg Prod.snd h
        simp only at h2
        exact absurd h2 (by simp)
      | ok token =>
        simp only at h
        obtain ⟨⟨ext, hext⟩, ⟨bext, hbext⟩, hexp⟩ :=
          protectLoop_prefix now sess rest hexes.tail _ st1 st' vt h
        have hpairmem : (r.value, token) ∈ vt := by
          rw [hext]
          exact List.mem_append_left _ (List.mem_append_right _
            (List.mem_singleton.mpr rfl))
        have hpairacc : (r.value, token) ∉ acc := fun hmem =>
          hcond (lookupVal_isSome_of_mem hmem)
        have hlooknone : lookupEntry st.backend token = none :=
          hfr (r.value, token) hpairmem hpairacc
        have htk : mkToken r.dtype (hexes.headD "00000000".toList)
            = token := by
          cases hbs : backendStore st.backend
              (mkToken r.dtype (hexes.headD "00000000".toList))
              (storeEntry now r.value sess st.expiryMins r.dtype r.family
                r.alertLevel) with
          | error u =>
            have hc := (vaultStore_err hbs).symm.trans hst2
            have h2 := congrArg Prod.snd hc
            simp only at h2
            exact absurd h2 (by simp)
          | ok b' =>
            have hc := (vaultStore_ok hbs).symm.trans hst2
            have h2 := congrArg Prod.snd hc
            simp only at h2
            exact Except.ok.injEq .. ▸ h2
        have hb1 : st1.backend = st.backend ++ [(token,
            storeEntry now r.value sess st.expiryMins r.dtype r.family
              r.alertLevel)] ∧ st1.expiryMins = st.expiryMins := by
          have hbs : backendStore st.backend
              (mkToken r.dtype (hexes.headD "00000000".toList))
              (storeEntry now r.value sess st.expiryMins r.dtype r.family
                r.alertLevel)
              = .ok (st.backend ++ [(mkToken r.dtype
                  (hexes.headD "00000000".toList),
                  storeEntry now r.value sess st.expiryMins r.dtype r.family
                    r.alertLevel)]) := by
            unfold backendStore
            rw [htk, hlooknone]
          have hc := (vaultStore_ok hbs).symm.trans hst2
          have h1 := congrArg Prod.fst hc
          simp only at h1
          constructor
          · rw [← h1, alertCheck_backend]
            show st.backend ++ [(mkToken r.dtype
              (hexes.headD "00000000".toList),
              storeEntry now r.value sess st.expiryMins r.dtype r.family
                r.alertLevel)] = _
            rw [htk]
          · rw [← h1, alertCheck_expiry]
        have hfr1 : ∀ q' ∈ vt, q' ∉ acc ++ [(r.value, token)] →
            lookupEntry st1.backend q'.2 = none := by
          intro q' hq' hq'acc
          simp only [List.mem_append, List.mem_singleton, not_or] at hq'acc
          obtain ⟨hq'a, hq'ne⟩ := hq'acc
          have hnone := hfr q' hq' hq'a
          have htokne : q'.2 ≠ token := by
            intro he
            exact hq'ne (List.inj_on_of_nodup_map hnd hq' hpairmem
              (by rw [he]))
          rw [hb1.1, lookupEntry_append, hnone]
          simp only [lookupEntry,
            if_neg (fun hh : token = q'.2 => htokne hh.symm)]
        by_cases hqpair : q = (r.value, token)
        · subst hqpair
          refine ⟨r.dtype, r.family, r.alertLevel, ?_⟩
          rw [hbext, hb1.1, List.append_assoc, lookupEntry_append,
            hlooknone, lookupEntry_append]
          simp only [lookupEntry, if_pos rfl]
          rfl
        · have hqacc1 : q ∉ acc ++ [(r.value, token)] := by
            simp only [List.mem_append, List.mem_singleton, not_or]
            exact ⟨hqacc, hqpair⟩
          obtain ⟨dt, fam, lvl, hl⟩ := ih hexes.tail
            (acc ++ [(r.value, token)]) st1 st' vt h hnd hfr1 q hq hqacc1
          rw [hb1.2] at hl
          exact ⟨dt, fam, lvl, hl⟩

/-- Scan results for the C1 counterexample input
`password = KN_GENERIC_PASS; password = extralongsecretvalue`:
`GENERIC_PASS_RE` (`secrets.py`, base 0.85 ≥ every threshold, no
validator) captures `KN_GENERIC_PASS` and `extralongsecretvalue` after
the two `password =` keywords; deduplication keeps both (distinct
values, disjoint spans) in positional order.  No other pattern matches:
the first value's longest letter runs (`GENERIC`, 7) are too short for
`SWIFT_RE`'s 8, and the second value is all lowercase. -/
def c1rs : List ScanRes :=
  [⟨"KN_GENERIC_PASS".toList, "GENERIC_PASSWORD".toList,
    "SECRETS".toList, "CRITICAL".toList⟩,
   ⟨"extralongsecretvalue".toList, "GENERIC_PASSWORD".toList,
    "SECRETS".toList, "CRITICAL".toList⟩]

def c1input : Str :=
  "password = KN_GENERIC_PASS; password = extralongsecretvalue".toList

def protC1cx : VaultState × Except Unit ProtectResult :=
  protect c1rs ["AAAA1111".toList, "BBBB2222".toList]
    "sess_aaaa0000".toList 0 c1input (initialVault 30)

def prC1cx : ProtectResult :=
  match protC1cx.2 with
  | .ok pr => pr
  | .error _ => ⟨[], [], 0, [], []⟩

/-- C1 (counterexample): a real scanner trace where the round trip
fails.  `_substitute` replaces the longer value first; the shorter
value `KN_GENERIC_PASS` then also matches INSIDE the longer value's
freshly placed token `⟨TKN_GENERIC_PASSWORD_BBBB2222⟩` (at offset 2),
so its `str.replace` pass corrupts that token.  `restore` finds only
the intact shorter-value token, resolves every occurrence of it —
textually re-assembling the corrupted token — and returns successfully
with the second secret still tokenised:
`restore(protect(x).safe_content, protect(x).session_id) ≠ x`. -/
theorem C1_counterexample :
    protC1cx.2 = .ok prC1cx ∧
    (match (restore prC1cx.safe_content prC1cx.session_id 0
        protC1cx.1).2 with
     | .ok out => out
     | .error _ => []) =
      "password = KN_GENERIC_PASS; password = ⟨TKN_GENERIC_PASSWORD_BBBB2222⟩".toList ∧
    "password = KN_GENERIC_PASS; password = ⟨TKN_GENERIC_PASSWORD_BBBB2222⟩".toList
      ≠ c1input := by
  refine ⟨rfl, by decide, by decide⟩

/-- C1 (amended): the round trip holds for any input the scanner itself
tokenises — i.e. whenever the input contains no token-shaped text, the
scanned values are delimiter-free and don't occur inside the freshly
minted tokens, the token hexes are 8 uppercase-hex digits with no
duplicate mint, and the minted tokens are new to the vault:
`restore(protect(x).safe_content, session) = x`. -/
theorem C1_round_trip (rs : List ScanRes) (hexes : List Str) (sess : Str)
    (now : Nat) (input : Str) (st st' : VaultState) (pr : ProtectResult)
    (hok : protect rs hexes sess now input st = (st', .ok pr))
    (hval : ∀ r ∈ rs, r.value ≠ [] ∧ '⟨' ∉ r.value ∧ '⟩' ∉ r.value)
    (hhex : ∀ hx ∈ hexes, hx.length = 8 ∧ ∀ c ∈ hx, isHexU c = true)
    (hty : ∀ r ∈ rs, ∃ c rest, sanitizeType r.dtype = c :: rest ∧
      isUpperAZ c = true)
    (hcross : ∀ r ∈ rs, ∀ q ∈ buildMap rs hexes, ¬ r.value <:+: q.2)
    (hnodup : ((buildMap rs hexes).map fun q => q.2).Nodup)
    (hfresh : ∀ q ∈ buildMap rs hexes, lookupEntry st.backend q.2 = none)
    (hinp : findTokens input = []) :
    (restore pr.safe_content sess now st').2 = .ok input := by
  have hxv : ∀ t : Str, validToken t = true → ¬ t <:+: input := by
    intro t hv hinf
    exact findTokensGo_ne_nil hv input.length input 0 (le_refl _) hinf hinp
  by_cases hne : rs = []
  · subst hne
    rw [protect, if_pos rfl] at hok
    have h1 := congrArg Prod.fst hok
    have h2 := congrArg Prod.snd hok
    simp only at h1 h2
    have h3 : (⟨input, sess, 0, [], []⟩ : ProtectResult) = pr :=
      Except.ok.injEq .. ▸ h2
    rw [← h3]
    show (resolveText true true now input sess st').2 = .ok input
    rw [show resolveText true true now input sess st'
        = if findTokens input = [] then (st', .ok input)
          else resolveLoop true true now sess (findTokens input).reverse []
            input st' from rfl]
    rw [if_pos hinp]
  · have hvalidL : ∀ q ∈ buildMap rs hexes, validToken q.2 = true := by
      intro q hq
      rcases buildMapGo_tokens rs hexes [] q hq
        with h | ⟨r0, hr0, hx, hhx, -, he2⟩
      · exact absurd h (List.not_mem_nil _)
      · rw [he2]
        rcases hhx with h2 | h2
        · exact mkToken_valid (hhex hx h2).1 (hhex hx h2).2 (hty r0 hr0)
        · subst h2
          exact mkToken_valid (by decide) (by decide) (hty r0 hr0)
    have htokL : ∀ q ∈ buildMap rs hexes, TokenLike q.2 :=
      fun q hq => validToken_tokenLike (hvalidL q hq)
    have hvalL : ∀ q ∈ buildMap rs hexes, ∃ r0 ∈ rs, q.1 = r0.value := by
      intro q hq
      rcases buildMapGo_tokens rs hexes [] q hq
        with h | ⟨r0, hr0, hx, -, he1, -⟩
      · exact absurd h (List.not_mem_nil _)
      · exact ⟨r0, hr0, he1⟩
    have hperm := List.perm_insertionSort
      (fun a b : Str × Str => b.1.length ≤ a.1.length) (buildMap rs hexes)
    have hmemL : ∀ q, q ∈ sortValsDesc (buildMap rs hexes)
        ↔ q ∈ buildMap rs hexes := fun q => hperm.mem_iff
    obtain ⟨d', hflat, horig, hpairs, hpres, hnl⟩ := substFold_decomp
      (sortValsDesc (buildMap rs hexes)) ⟨[], input⟩
      (by
        intro q hq
        have hq2 := (hmemL q).mp hq
        obtain ⟨r0, hr0, he⟩ := hvalL q hq2
        obtain ⟨h1, h2, h3⟩ := hval r0 hr0
        rw [he]
        exact ⟨h1, h2, h3, htokL q hq2⟩)
      (by
        intro q hq q' hq'
        have hq2 := (hmemL q).mp hq
        have hq2' := (hmemL q').mp hq'
        obtain ⟨r0, hr0, he⟩ := hvalL q hq2
        rw [he]
        exact hcross r0 hr0 q' hq2')
      (fun q hq p hp => absurd hp (List.not_mem_nil _))
      (fun p hp => absurd hp (List.not_mem_nil _))
    obtain ⟨hsafe, -⟩ := protect_safe_content hok hne
    have horig2 : d'.orig = input := horig.trans (Decomp.orig_nil input)
    have hfold : substituteText (buildMap rs hexes) input = d'.flat := by
      unfold substituteText
      rw [show input = Decomp.flat ⟨[], input⟩
        from (Decomp.flat_nil input).symm]
      exact hflat
    have hentL : ∀ q ∈ buildMap rs hexes, EntryOK now sess st' q.1 q.2 := by
      intro q hq
      have hok2 := hok
      rw [protect, if_neg hne] at hok2
      rcases hpl : protectLoop now sess rs hexes [] st with ⟨st1, res⟩
      rw [hpl] at hok2
      cases res with
      | error e =>
        simp only at hok2
        have h2 := congrArg Prod.snd hok2
        simp only at h2
        exact absurd h2 (by simp)
      | ok vt =>
        simp only at hok2
        have hst1 : st1 = st' := by
          have h1 := congrArg Prod.fst hok2
          simpa using h1
        have hvt : vt = buildMap rs hexes :=
          protectLoop_map now sess rs hexes [] st st1 vt hpl
        obtain ⟨dt, fam, lvl, hl⟩ := protectLoop_entries now sess rs hexes
          [] st st1 vt hpl
          (by rw [hvt]; exact hnodup)
          (by
            intro q' hq' _
            rw [hvt] at hq'
            exact hfresh q' hq')
          q (by rw [hvt]; exact hq) (List.not_mem_nil _)
        rw [hst1] at hl
        refine ⟨⟨q.1, sess, sess, dt, fam, lvl, now,
          (if 0 < st.expiryMins then some (now + st.expiryMins) else none),
          false⟩, hl, rfl, rfl, rfl, rfl, ?_⟩
        by_cases hm : 0 < st.expiryMins
        · rw [if_pos hm]
          exact decide_eq_false (by omega)
        · rw [if_neg hm]
    have hpiecesvalid : ∀ p ∈ d'.pieces, validToken p.2.2 = true := by
      intro p hp
      rcases hpairs p hp with h | ⟨p0, hp0, h⟩
      · exact hvalidL p.2 ((hmemL p.2).mp h)
      · exact absurd hp0 (List.not_mem_nil _)
    have hms : (findTokens d'.flat).map (fun m => m.1)
        = d'.pieces.map fun p => p.2.2 := by
      have hlitfree : ∀ p ∈ d'.pieces, ∀ t : Str, validToken t = true →
          ¬ t <:+: p.1 := by
        intro p hp t hv hinf
        exact hxv t hv (hinf.trans
          (horig2 ▸ (lits_infix_orig d'.pieces d'.tail).1 p hp))
      have htlfree : ∀ t : Str, validToken t = true →
          ¬ t <:+: d'.tail := by
        intro t hv hinf
        exact hxv t hv (hinf.trans
          (horig2 ▸ (lits_infix_orig d'.pieces d'.tail).2))
      exact findTokens_flat d'.pieces d'.tail 0
        (Decomp.flat ⟨d'.pieces, d'.tail⟩).length (le_refl _)
        hpiecesvalid hlitfree htlfree
    rw [hsafe, hfold]
    show (resolveText true true now d'.flat sess st').2 = .ok input
    rw [show resolveText true true now d'.flat sess st'
        = if findTokens d'.flat = [] then (st', .ok d'.flat)
          else resolveLoop true true now sess (findTokens d'.flat).reverse
            [] d'.flat st' from rfl]
    by_cases hmse : findTokens d'.flat = []
    · rw [if_pos hmse]
      have hpieces_nil : d'.pieces = [] := by
        rw [hmse] at hms
        cases hpc : d'.pieces with
        | nil => rfl
        | cons a b =>
          rw [hpc] at hms
          simp at hms
      have htail : d'.tail = input := by
        rw [← horig2]
        show d'.tail = Decomp.orig ⟨d'.pieces, d'.tail⟩
        rw [hpieces_nil, Decomp.orig_nil]
      have hfl : d'.flat = input := by
        show Decomp.flat ⟨d'.pieces, d'.tail⟩ = input
        rw [hpieces_nil, Decomp.flat_nil, htail]
      rw [hfl]
    · rw [if_neg hmse]
      obtain ⟨st'', hloop⟩ := resolveLoop_ok now sess input hxv
        (findTokens d'.flat).reverse [] d' st'
        horig2
        hpiecesvalid
        (fun p hp => List.not_mem_nil _)
        (by
          intro p hp
          rw [List.map_reverse, List.mem_reverse, hms]
          exact List.mem_map_of_mem _ hp)
        (by
          intro p hp p' hp' he
          rcases hpairs p hp with h | ⟨p0, hp0, -⟩
          · rcases hpairs p' hp' with h' | ⟨p0', hp0', -⟩
            · have : p.2 = p'.2 := List.inj_on_of_nodup_map hnodup
                ((hmemL p.2).mp h) ((hmemL p'.2).mp h') he
              rw [this]
            · exact absurd hp0' (List.not_mem_nil _)
          · exact absurd hp0 (List.not_mem_nil _))
        (by
          intro p hp
          rcases hpairs p hp with h | ⟨p0, hp0, -⟩
          · exact hentL p.2 ((hmemL p.2).mp h)
          · exact absurd hp0 (List.not_mem_nil _))
        (by
          intro m hm
          right
          rw [← hms]
          exact List.mem_map_of_mem _ (List.mem_reverse.mp hm))
      rw [hloop]

/-- Concrete `protect` invocation for the C1 witness. -/
def protC1 : VaultState × Except Unit ProtectResult :=
  protect [⟨"bob@x.com".toList, "EMAIL".toList, "PII".toList,
    "MEDIUM".toList⟩] ["A3F2B7C1".toList] "sess_aaaa0000".toList 0
    "mail bob@x.com".toList (initialVault 30)

def prC1 : ProtectResult :=
  match protC1.2 with
  | .ok pr => pr
  | .error _ => ⟨[], [], 0, [], []⟩

/-- C1 witness. -/
theorem C1_round_trip_witness :
    (restore prC1.safe_content "sess_aaaa0000".toList 0 protC1.1).2
      = .ok "mail bob@x.com".toList :=
  C1_round_trip [⟨"bob@x.com".toList, "EMAIL".toList, "PII".toList,
      "MEDIUM".toList⟩] ["A3F2B7C1".toList] "sess_aaaa0000".toList 0
    "mail bob@x.com".toList (initialVault 30) protC1.1 prC1 rfl
    (by decide) (by decide)
    (by
      intro r hr
      simp only [List.mem_singleton] at hr
      subst hr
      exact ⟨'E', "MAIL".toList, by decide, by decide⟩)
    (by decide) (by decide) (by decide) (by decide)

/-- C8 witness. -/
theorem C8_token_validity_witness :
    validToken (mkToken "email".toList "A3F2B7C1".toList) = true ∧
    findTokens (mkToken "email".toList "A3F2B7C1".toList)
      = [(mkToken "email".toList "A3F2B7C1".toList, 0,
          (mkToken "email".toList "A3F2B7C1".toList).length)] :=
  C8_token_validity (by decide) (by decide)
    ⟨'E', "MAIL".toList, by decide, by decide⟩

end PrivacyDS
